import Mathlib

/-!
# Module dependency statistics (`cmd/analyse.go`)

A shallow embedding of the `analyse` command: the per-module record
`moduleDepStat`, the accumulator `updateModuleDep`, the line parser
`parseModuleDepItem`, the ranking step `outputOrdered` and the run
`analyseModuleDependency`.

Modelling decisions.

* `map[string]*moduleDepStat` is a finite map from names to record values,
  represented by an association list `ModMap` (the first entry of a key
  wins; the maps the program builds have pairwise distinct keys). In the
  program every pointer stored in the map comes from `newModuleDepStat` and
  is stored under exactly one key, so a mutation through the pointer is a
  write-back to that key.
* Go `int` is `Int`; `len` results are natural numbers cast to `Int`.
* The `float64` field `I` holds the rational value of the stored number. The
  conversion `float64(x)` and the quotient of two `float64` values round to
  the nearest `float64`, ties to even (`float64`, `f64div`).
* Strings are Lean strings; a line is matched as its list of characters.
* The order in which `range` enumerates a map is a parameter `range` of the
  functions that iterate.
* Two pieces of the standard library decide what the program does and are
  modelled with it: `sort.Sort` (namespace `GoSort`) and the matching of
  `lineRegex` by `FindStringSubmatch`.
* Standard input is read through a `bufio.Scanner`: a run of the scanner is
  the list of lines it delivers together with the value of `s.Err()` when
  `s.Scan()` has returned false (`ScannerRun`).
* Writing to standard output is returning the `Document` written; a
  run-time panic is `Except.error`.
-/

namespace Analyse

/-! ## The `float64` operations of the program

`UpdateIMetrics` converts two `int` values to `float64` and divides them.
A finite `float64` is a rational number; the field `I` holds that rational.
Conversion and division round the exact result to the nearest number with a
53-bit significand, ties to the even significand. The exponent range of
`float64` is not modelled: the program converts lengths, which are below
`2 ^ 63`, and divides two of them, so every result lies between `2 ^ (-63)`
and `2 ^ 63` or is zero. -/

/-- Loop of `ilog2`. -/
def log2Loop : Nat → Nat → Nat
  | 0, _ => 0
  | fuel + 1, n => if n < 2 then 0 else log2Loop fuel (n / 2) + 1

/-- Position of the highest set bit of a positive number. -/
def ilog2 (n : Nat) : Nat := log2Loop n n

/-- The integer nearest to `n / d`; a tie goes to the even one. -/
def roundNearestEven (n d : Nat) : Nat :=
  let q := n / d
  let r := n % d
  if 2 * r < d then q else if d < 2 * r then q + 1 else if q % 2 = 0 then q else q + 1

/-- Significand `m` and exponent `e` of the `float64` nearest to `p / q`, for
positive `p` and `q`: the quotient is scaled by a power of two into the
interval from `2 ^ 52` to `2 ^ 53` and rounded there, giving `m * 2 ^ e`. -/
def roundParts (p q : Nat) : Nat × Int :=
  let e0 : Int := (ilog2 p : Int) - (ilog2 q : Int) - 53
  let n0 := p * 2 ^ (-e0).toNat
  let d0 := q * 2 ^ e0.toNat
  if n0 < 2 ^ 53 * d0 then (roundNearestEven n0 d0, e0)
  else (roundNearestEven n0 (2 * d0), e0 + 1)

/-- The `float64` nearest to the rational `x` (round to nearest, ties to
even). -/
def f64round (x : ℚ) : ℚ :=
  if x.num = 0 then 0
  else
    let me := roundParts x.num.natAbs x.den
    let v : ℚ := (me.1 : ℚ) * (2 : ℚ) ^ me.2
    if 0 < x.num then v else -v

/-- The Go conversion `float64(n)` of an `int`. -/
def float64 (n : Int) : ℚ := f64round (n : ℚ)

/-- The Go quotient `x / y` of two `float64` values, `y` not zero. -/
def f64div (x y : ℚ) : ℚ := f64round (x / y)

/-! ## Data model -/

/-- The Go type `depList`, a slice of module names. -/
abbrev depList := List String

/-- The Go struct `moduleDepStat`. -/
structure moduleDepStat where
  Module : String
  FanIn : depList
  FanOut : depList
  FanInCount : Int
  FanOutCount : Int
  I : ℚ
deriving DecidableEq, Inhabited

/-- The Go function `newModuleDepStat`: a record with two empty lists; the
counts and `I` keep their zero values. -/
def newModuleDepStat (moduleName : String) : moduleDepStat :=
  { Module := moduleName, FanIn := [], FanOut := [],
    FanInCount := 0, FanOutCount := 0, I := 0 }

/-- The method `UpdateIMetrics`: guarded on the lengths of the two lists;
`s.I = float64(len(s.FanOut)) / float64(len(s.FanIn)+len(s.FanOut))`. -/
def moduleDepStat.UpdateIMetrics (s : moduleDepStat) : moduleDepStat :=
  if ((s.FanIn.length : Int) + (s.FanOut.length : Int)) ≤ 0 then s
  else { s with I := f64div (float64 (s.FanOut.length : Int))
                       (float64 ((s.FanIn.length : Int) + (s.FanOut.length : Int))) }

/-- The method `UpdateFanIn`: append, then cache the length. -/
def moduleDepStat.UpdateFanIn (s : moduleDepStat) (fanInModule : String) : moduleDepStat :=
  { s with FanIn := s.FanIn ++ [fanInModule],
           FanInCount := ((s.FanIn ++ [fanInModule]).length : Int) }

/-- The method `UpdateFanOut`: append, then cache the length. -/
def moduleDepStat.UpdateFanOut (s : moduleDepStat) (fanOutModule : String) : moduleDepStat :=
  { s with FanOut := s.FanOut ++ [fanOutModule],
           FanOutCount := ((s.FanOut ++ [fanOutModule]).length : Int) }

/-! ## The accumulator mapping -/

/-- The Go map `map[string]*moduleDepStat` as an association list. -/
abbrev ModMap := List (String × moduleDepStat)

/-- Map read `m[k]`: `none` is the `ok = false` case. -/
def mapGet : ModMap → String → Option moduleDepStat
  | [], _ => none
  | (k', v) :: m, k => if k' = k then some v else mapGet m k

/-- Map write `m[k] = v`: replace the entry of `k`, or add one. -/
def mapSet : ModMap → String → moduleDepStat → ModMap
  | [], k, v => [(k, v)]
  | (k', v') :: m, k, v => if k' = k then (k, v) :: m else (k', v') :: mapSet m k v

/-- The keys of the map, in representation order. -/
def mapKeys (m : ModMap) : List String := m.map Prod.fst

/-- The records of the map, in representation order. -/
def mapRecords (m : ModMap) : List moduleDepStat := m.map Prod.snd

/-- The lookup-or-create step of `updateModuleDep`:
`st, ok := m[name]; if !ok { st = newModuleDepStat(name); m[name] = st }`. -/
def lookupOrNew (m : ModMap) (name : String) : moduleDepStat :=
  match mapGet m name with
  | some st => st
  | none => newModuleDepStat name

/-- The Go function `updateModuleDep`. The record of `src` gets `dst`
appended to its fan-out and its metric recomputed; then the record of `dst`,
looked up in the map as already updated, gets `src` appended to its fan-in
and its metric recomputed. -/
def updateModuleDep (m : ModMap) (src dst : String) : ModMap :=
  let st := lookupOrNew m src
  let st := (st.UpdateFanOut dst).UpdateIMetrics
  let m := mapSet m src st
  let st := lookupOrNew m dst
  let st := (st.UpdateFanIn src).UpdateIMetrics
  mapSet m dst st

/-- The accumulation loop of `analyseModuleDependency` on already parsed
edges, starting from the mapping `m`. -/
def processEdges (m : ModMap) (edges : List (String × String)) : ModMap :=
  edges.foldl (fun acc e => updateModuleDep acc e.1 e.2) m

/-! ## The standard library's `sort.Sort`

`depStatsortBy.Sort` hands the slice to `sort.Sort`, which drives it only
through `Len`, `Less` and `Swap`. The functions below follow `sort/sort.go`
as released with Go 1.12, the release current when the program was written
(`quickSort`, `doPivot`, `heapSort`, `insertionSort`; Go 1.19 later replaced
them by a pattern-defeating quicksort), statement by statement. A loop is a
recursive function; where a loop has no counter of its own, the first
argument bounds the number of iterations and is chosen so that the loop
condition fails before the bound is used up. `data` is the slice held by the
sorter, `less` the closure stored in `sortBy`. -/

namespace GoSort

variable {α : Type}

/-- `depStatSorter.Swap`: exchange the elements at `i` and `j`. An index
outside the slice, a run-time panic in Go, leaves the slice unchanged here;
`sort.Sort` passes none. -/
def swapAt (data : List α) (i j : Nat) : List α :=
  match data[i]?, data[j]? with
  | some x, some y => (data.set i y).set j x
  | _, _ => data

/-- `depStatSorter.Less`: the closure applied to the elements at `i` and `j`
(`false` for an index outside the slice, which `sort.Sort` never passes). -/
def lessAt (less : α → α → Bool) (data : List α) (i j : Nat) : Bool :=
  match data[i]?, data[j]? with
  | some x, some y => less x y
  | _, _ => false

/-- Inner loop of `insertionSort`:
`for j := i; j > a && data.Less(j, j-1); j-- { data.Swap(j, j-1) }`. -/
def insertionInner (less : α → α → Bool) (a : Nat) : Nat → List α → List α
  | 0, data => data
  | j + 1, data =>
    if j + 1 > a && lessAt less data (j + 1) j then
      insertionInner less a j (swapAt data (j + 1) j)
    else data

/-- Outer loop of `insertionSort`: `for i := a + 1; i < b; i++`. -/
def insertionOuter (less : α → α → Bool) (a b : Nat) : Nat → Nat → List α → List α
  | 0, _, data => data
  | fuel + 1, i, data =>
    if i < b then insertionOuter less a b fuel (i + 1) (insertionInner less a i data)
    else data

/-- The function `insertionSort(data, a, b)`. -/
def insertionSort (less : α → α → Bool) (data : List α) (a b : Nat) : List α :=
  insertionOuter less a b (b - a) (a + 1) data

/-- The loop of `siftDown(data, lo, hi, first)`, `root` being the loop
variable. -/
def siftDownLoop (less : α → α → Bool) (hi first : Nat) : Nat → Nat → List α → List α
  | 0, _, data => data
  | fuel + 1, root, data =>
    let child := 2 * root + 1
    if child ≥ hi then data
    else
      let child :=
        if child + 1 < hi && lessAt less data (first + child) (first + child + 1)
        then child + 1 else child
      if !lessAt less data (first + root) (first + child) then data
      else siftDownLoop less hi first fuel child (swapAt data (first + root) (first + child))

/-- The function `siftDown(data, lo, hi, first)`. -/
def siftDown (less : α → α → Bool) (data : List α) (lo hi first : Nat) : List α :=
  siftDownLoop less hi first hi lo data

/-- First loop of `heapSort`, `for i := (hi - 1) / 2; i >= 0; i--`; the
argument counts the remaining iterations, `i + 1`. -/
def heapBuild (less : α → α → Bool) (hi first : Nat) : Nat → List α → List α
  | 0, data => data
  | i + 1, data => heapBuild less hi first i (siftDown less data i hi first)

/-- Second loop of `heapSort`, `for i := hi - 1; i >= 0; i--`; the argument
counts the remaining iterations, `i + 1`. -/
def heapPop (less : α → α → Bool) (first : Nat) : Nat → List α → List α
  | 0, data => data
  | i + 1, data =>
    heapPop less first i (siftDown less (swapAt data first (first + i)) 0 i first)

/-- The function `heapSort(data, a, b)`. -/
def heapSort (less : α → α → Bool) (data : List α) (a b : Nat) : List α :=
  let first := a
  let hi := b - a
  let data := heapBuild less hi first ((hi - 1) / 2 + 1) data
  heapPop less first hi data

/-- The function `medianOfThree(data, m1, m0, m2)`. -/
def medianOfThree (less : α → α → Bool) (data : List α) (m1 m0 m2 : Nat) : List α :=
  let data := if lessAt less data m1 m0 then swapAt data m1 m0 else data
  if lessAt less data m2 m1 then
    let data := swapAt data m2 m1
    if lessAt less data m1 m0 then swapAt data m1 m0 else data
  else data

/-- In `doPivot`: `for ; a < c && data.Less(a, pivot); a++ {}`; returns `a`. -/
def pivotScanA (less : α → α → Bool) (data : List α) (pivot c : Nat) : Nat → Nat → Nat
  | 0, a => a
  | fuel + 1, a =>
    if a < c && lessAt less data a pivot then pivotScanA less data pivot c fuel (a + 1) else a

/-- In `doPivot`: `for ; b < c && !data.Less(pivot, b); b++ {}`; returns `b`. -/
def pivotScanB (less : α → α → Bool) (data : List α) (pivot c : Nat) : Nat → Nat → Nat
  | 0, b => b
  | fuel + 1, b =>
    if b < c && !lessAt less data pivot b then pivotScanB less data pivot c fuel (b + 1) else b

/-- In `doPivot`: `for ; b < c && data.Less(pivot, c-1); c-- {}`; returns `c`. -/
def pivotScanC (less : α → α → Bool) (data : List α) (pivot b : Nat) : Nat → Nat
  | 0 => 0
  | c + 1 =>
    if b < c + 1 && lessAt less data pivot c then pivotScanC less data pivot b c else c + 1

/-- The main partition loop of `doPivot`; returns the slice with the final
`b` and `c`. -/
def pivotLoop (less : α → α → Bool) (pivot : Nat) :
    Nat → List α → Nat → Nat → List α × Nat × Nat
  | 0, data, b, c => (data, b, c)
  | fuel + 1, data, b, c =>
    let b := pivotScanB less data pivot c (c - b) b
    let c := pivotScanC less data pivot b c
    if b ≥ c then (data, b, c)
    else pivotLoop less pivot fuel (swapAt data b (c - 1)) (b + 1) (c - 1)

/-- In the `protect` loop: `for ; a < b && !data.Less(b-1, pivot); b-- {}`;
returns `b`. -/
def protectScanB (less : α → α → Bool) (data : List α) (pivot a : Nat) : Nat → Nat
  | 0 => 0
  | b + 1 =>
    if a < b + 1 && !lessAt less data b pivot then protectScanB less data pivot a b else b + 1

/-- In the `protect` loop: `for ; a < b && data.Less(a, pivot); a++ {}`;
returns `a`. -/
def protectScanA (less : α → α → Bool) (data : List α) (pivot b : Nat) : Nat → Nat → Nat
  | 0, a => a
  | fuel + 1, a =>
    if a < b && lessAt less data a pivot then protectScanA less data pivot b fuel (a + 1) else a

/-- The `protect` loop of `doPivot`; returns the slice with the final `b`. -/
def protectLoop (less : α → α → Bool) (pivot : Nat) :
    Nat → List α → Nat → Nat → List α × Nat
  | 0, data, _, b => (data, b)
  | fuel + 1, data, a, b =>
    let b := protectScanB less data pivot a b
    let a := protectScanA less data pivot b (b - a) a
    if a ≥ b then (data, b)
    else protectLoop less pivot fuel (swapAt data a (b - 1)) (a + 1) (b - 1)

/-- In `doPivot`, the block `if hi-lo > 40 { ... }`: Tukey's ninther, the
median of three medians of three. -/
def pivotNinther (less : α → α → Bool) (data : List α) (lo hi m : Nat) : List α :=
  if hi - lo > 40 then
    let s := (hi - lo) / 8
    let data := medianOfThree less data lo (lo + s) (lo + 2 * s)
    let data := medianOfThree less data m (m - s) (m + s)
    medianOfThree less data (hi - 1) (hi - 1 - s) (hi - 1 - 2 * s)
  else data

/-- In `doPivot`, the body of `if !protect && hi-c < (hi-lo)/4 { ... }`:
three points are tested for equality to the pivot; returns the slice with
`b`, `c` and the new value of `protect`. -/
def pivotDups (less : α → α → Bool) (data : List α) (hi m pivot b c : Nat) :
    List α × Nat × Nat × Bool :=
  let dups := 0
  let (data, c, dups) :=
    if !lessAt less data pivot (hi - 1) then (swapAt data c (hi - 1), c + 1, dups + 1)
    else (data, c, dups)
  let (b, dups) :=
    if !lessAt less data (b - 1) pivot then (b - 1, dups + 1) else (b, dups)
  let (data, b, dups) :=
    if !lessAt less data m pivot then (swapAt data m (b - 1), b - 1, dups + 1)
    else (data, b, dups)
  (data, b, c, decide (dups > 1))

/-- The function `doPivot(data, lo, hi)`; returns the slice with `midlo`
and `midhi`. -/
def doPivot (less : α → α → Bool) (data : List α) (lo hi : Nat) : List α × Nat × Nat :=
  let m := (lo + hi) / 2
  let data := pivotNinther less data lo hi m
  let data := medianOfThree less data lo m (hi - 1)
  let pivot := lo
  let a := lo + 1
  let c := hi - 1
  let a := pivotScanA less data pivot c (c - a) a
  let b := a
  let (data, b, c) := pivotLoop less pivot (c - b + 1) data b c
  let protect := decide (hi - c < 5)
  let (data, b, c, protect) :=
    if !protect && hi - c < (hi - lo) / 4 then pivotDups less data hi m pivot b c
    else (data, b, c, protect)
  let (data, b) :=
    if protect then protectLoop less pivot (b - a + 1) data a b else (data, b)
  let data := swapAt data pivot (b - 1)
  (data, b - 1, c)

/-- The shell-sort pass of `quickSort`:
`for i := a + 6; i < b; i++ { if data.Less(i, i-6) { data.Swap(i, i-6) } }`. -/
def shellPass (less : α → α → Bool) (b : Nat) : Nat → Nat → List α → List α
  | 0, _, data => data
  | fuel + 1, i, data =>
    if i < b then
      shellPass less b fuel (i + 1)
        (if lessAt less data i (i - 6) then swapAt data i (i - 6) else data)
    else data

/-- The function `quickSort(data, a, b, maxDepth)`. The `for b-a > 12` loop
either falls back to `heapSort` or partitions, sorts one side recursively
and continues with the other side, each time with `maxDepth` decremented. -/
def quickSort (less : α → α → Bool) : Nat → List α → Nat → Nat → List α
  | maxDepth, data, a, b =>
    if b - a > 12 then
      match maxDepth with
      | 0 => heapSort less data a b
      | maxDepth + 1 =>
        match doPivot less data a b with
        | (data, mlo, mhi) =>
          if mlo - a < b - mhi then
            quickSort less maxDepth (quickSort less maxDepth data a mlo) mhi b
          else
            quickSort less maxDepth (quickSort less maxDepth data mhi b) a mlo
    else if b - a > 1 then
      insertionSort less (shellPass less b (b - (a + 6)) (a + 6) data) a b
    else data

/-- The loop of `maxDepth`: `for i := n; i > 0; i >>= 1 { depth++ }`. -/
def maxDepthLoop : Nat → Nat → Nat → Nat
  | 0, _, depth => depth
  | fuel + 1, i, depth => if i > 0 then maxDepthLoop fuel (i >>> 1) (depth + 1) else depth

/-- The function `maxDepth(n)`: `2*ceil(lg(n+1))`. -/
def maxDepth (n : Nat) : Nat := maxDepthLoop n n 0 * 2

/-- The function `sort.Sort(data)` (`Sort` is reserved in Lean). -/
def sortSort (less : α → α → Bool) (data : List α) : List α :=
  let n := data.length
  quickSort less (maxDepth n) data 0 n

end GoSort

/-! ## The line pattern

`lineRegex` is `"(.*)" -> "(.*)";`. The standard library's
`FindStringSubmatch` returns the leftmost match and, among the matches
starting there, the one a backtracking search finds first; `(.*)` is greedy
and `.` matches every character but the newline. The matcher below is that
backtracking search for patterns made of literal characters and greedy
capture groups. -/

/-- A token of a pattern: a literal character or the capture group `(.*)`. -/
inductive Tok where
  | lit (c : Char)
  | dotStar
deriving DecidableEq

/-- The double-quote character. -/
def dquote : Char := Char.ofNat 34

/-- The newline character, the one character `.` does not match. -/
def newline : Char := Char.ofNat 10

/-- Greedy `(.*)` followed by the continuation `k`: take one more character
when it is not a newline and the rest then matches, otherwise stop here.
Returns the captured text with the result of the continuation. -/
def star {β : Type} (k : List Char → Option β) : List Char → Option (List Char × β)
  | [] => (k []).map (fun r => ([], r))
  | c :: cs =>
    if c = newline then (k (c :: cs)).map (fun r => ([], r))
    else
      match star k cs with
      | some (x, r) => some (c :: x, r)
      | none => (k (c :: cs)).map (fun r => ([], r))

/-- Backtracking match of a token list at the start of `s`; returns the
captured groups in order and the input left after the match. -/
def matchHere : List Tok → List Char → Option (List (List Char) × List Char)
  | [], s => some ([], s)
  | Tok.lit c :: ts, s =>
    match s with
    | [] => none
    | c' :: s' => if c' = c then matchHere ts s' else none
  | Tok.dotStar :: ts, s =>
    (star (matchHere ts) s).map (fun p => (p.1 :: p.2.1, p.2.2))

/-- Leftmost match: try the start positions from left to right. Returns the
matched text followed by the captured groups. -/
def findSubmatch (ts : List Tok) : List Char → Option (List (List Char))
  | [] =>
    match matchHere ts [] with
    | some (gs, _) => some ([] :: gs)
    | none => none
  | c :: cs =>
    match matchHere ts (c :: cs) with
    | some (gs, rest) => some ((c :: cs).take ((c :: cs).length - rest.length) :: gs)
    | none => findSubmatch ts cs

/-- The method `FindStringSubmatch`: the matched text and the groups, or an
empty slice when there is no match. -/
def FindStringSubmatch (re : List Tok) (s : String) : List String :=
  match findSubmatch re s.data with
  | some gs => gs.map String.mk
  | none => []

/-- The literal `" -> "` between the two groups. -/
def arrowLit : List Char := [dquote, ' ', '-', '>', ' ', dquote]

/-- The literal `";` after the second group. -/
def endLit : List Char := [dquote, ';']

/-- The pattern `"(.*)" -> "(.*)";`. -/
def lineRegex : List Tok :=
  [Tok.lit dquote, Tok.dotStar] ++ arrowLit.map Tok.lit ++ [Tok.dotStar] ++ endLit.map Tok.lit

/-- The Go function `parseModuleDepItem`, returning `(src, dst, err)`; on
error the named results `src` and `dst` keep their zero value. -/
def parseModuleDepItem (line : String) : String × String × Option String :=
  let s := FindStringSubmatch lineRegex line
  if s.length < 3 then
    ("", "", some ("match line " ++ line ++ " got " ++ toString s.length ++ " fields"))
  else (s.getD 1 "", s.getD 2 "", none)

/-- The text of a well-formed edge line for `src` and `dst`. -/
def edgeLine (src dst : String) : String :=
  String.mk ([dquote] ++ src.data ++ arrowLit ++ dst.data ++ endLit)

/-! ## Ranking and output -/

/-- The constant `orderByFanIn`. -/
def orderByFanIn : String := "fan-in"

/-- The constant `orderByFanOut`. -/
def orderByFanOut : String := "fan-out"

/-- The constant `orderByVolatile`. -/
def orderByVolatile : String := "volatile"

/-- The Go struct `analyseArgs`. -/
structure analyseArgs where
  orderBy : String
  limit : Int

/-- The Go type `depStatsortBy`, the comparison closure. -/
abbrev depStatsortBy := moduleDepStat → moduleDepStat → Bool

/-- The method `depStatsortBy.Sort`: `sort.Sort` on a `depStatSorter` whose
`Len`, `Swap` and `Less` are the slice length, `GoSort.swapAt` and
`GoSort.lessAt` with the closure. -/
def depStatsortBy_Sort (sortBy : depStatsortBy) (l : List moduleDepStat) : List moduleDepStat :=
  GoSort.sortSort sortBy l

/-- What a run writes to standard output: the JSON object of the mapping
(`outputJSON`) or the JSON array of the ranked records (`outputOrdered`). -/
inductive Document where
  | object (m : ModMap)
  | array (l : List moduleDepStat)

/-- The closure `outputOrdered` selects for the order key, `none` in the
`default: return` case. -/
def selectSortBy (orderBy : String) : Option depStatsortBy :=
  if orderBy = orderByFanIn then
    some (fun s1 s2 => decide (s1.FanInCount ≥ s2.FanInCount))
  else if orderBy = orderByFanOut then
    some (fun s1 s2 => decide (s1.FanOutCount ≥ s2.FanOutCount))
  else if orderBy = orderByVolatile then
    some (fun s1 s2 => decide (s1.I ≥ s2.I))
  else none

/-- The Go function `outputOrdered`. `range m` is the order in which
`for _, st := range m` yields the records, which Go leaves unspecified; the
slice is made with capacity `len(m)`. The result is `error` for a run-time
panic, `ok none` when nothing is written and `ok (some d)` when the document
`d` is written. -/
def outputOrdered (range : ModMap → List moduleDepStat) (m : ModMap) (args : analyseArgs) :
    Except String (Option Document) :=
  let depsStat := range m
  let capacity := m.length
  match selectSortBy args.orderBy with
  | none => Except.ok none
  | some sortBy =>
    let depsStat := depStatsortBy_Sort sortBy depsStat
    if args.limit > 0 then
      if args.limit.toNat ≤ capacity then
        Except.ok (some (Document.array (depsStat.take args.limit.toNat)))
      else Except.error "slice bounds out of range"
    else Except.ok (some (Document.array depsStat))

/-- The Go function `outputJSON`; marshalling these records cannot fail. -/
def outputJSON (m : ModMap) : Except String (Option Document) :=
  Except.ok (some (Document.object m))

/-- The Go function `outputModuleDepStat`. -/
def outputModuleDepStat (range : ModMap → List moduleDepStat) (m : ModMap)
    (args : analyseArgs) : Except String (Option Document) :=
  if args.orderBy = orderByFanIn ∨ args.orderBy = orderByFanOut
      ∨ args.orderBy = orderByVolatile then
    outputOrdered range m args
  else outputJSON m

/-- The scanning loop of `analyseModuleDependency` over the lines the
scanner delivers: `none` when a line is rejected and the function returns
early. -/
def scanLines (m : ModMap) : List String → Option ModMap
  | [] => some m
  | line :: rest =>
    match parseModuleDepItem line with
    | (_, _, some _) => none
    | (src, dst, none) => scanLines (updateModuleDep m src dst) rest

/-- A run of the `bufio.Scanner` on standard input, as the program observes
it: `lines` are the texts returned by `s.Text()` after each `s.Scan()` that
returned true, and `err` is the value of `s.Err()` once `s.Scan()` has
returned false, `none` at the end of the input and an error when a read
failed or when a line did not fit the buffer of the scanner
(`bufio.MaxScanTokenSize`, 64 KiB); that line and the ones after it are
then not delivered. -/
structure ScannerRun where
  lines : List String
  err : Option String

/-- The Go function `analyseModuleDependency` on a run of the scanner: the
loop over the delivered lines, the check of `s.Err()`, and the output. -/
def analyseModuleDependency (range : ModMap → List moduleDepStat) (stdin : ScannerRun)
    (args : analyseArgs) : Except String (Option Document) :=
  match scanLines [] stdin.lines with
  | none => Except.ok none
  | some m =>
    match stdin.err with
    | some _ => Except.ok none
    | none => outputModuleDepStat range m args

/-! ## Vocabulary of the statements

Observers and predicates used to state the properties below; none of them
is part of the program. -/


/-- Fan-out list stored for `k`, empty when `k` has no record. -/
def fanOutOf (m : ModMap) (k : String) : depList :=
  match mapGet m k with
  | some st => st.FanOut
  | none => []

/-- Fan-in list stored for `k`, empty when `k` has no record. -/
def fanInOf (m : ModMap) (k : String) : depList :=
  match mapGet m k with
  | some st => st.FanIn
  | none => []

/-- What holds of a record right after lookup-or-create under key `k`. -/
def PreOK (k : String) (st : moduleDepStat) : Prop :=
  st.Module = k ∧ st.FanInCount = (st.FanIn.length : Int)
    ∧ st.FanOutCount = (st.FanOut.length : Int)

/-- What holds of a record stored under key `k` between two edges. -/
def RecordOK (k : String) (st : moduleDepStat) : Prop :=
  PreOK k st ∧ 1 ≤ st.FanIn.length + st.FanOut.length
    ∧ st.I = f64div (float64 (st.FanOut.length : Int))
              (float64 ((st.FanIn.length : Int) + (st.FanOut.length : Int)))

/-- Every stored record satisfies `RecordOK`. -/
def MapOK (m : ModMap) : Prop := ∀ k st, mapGet m k = some st → RecordOK k st

/-- The names occurring as source or destination of an edge. -/
def edgeNames (edges : List (String × String)) : List String :=
  edges.flatMap (fun e => [e.1, e.2])

/-- The record on which `updateModuleDep` calls `UpdateIMetrics` the first
time: the record of `src` after `UpdateFanOut(dst)`. -/
def firstMetricsArg (m : ModMap) (src dst : String) : moduleDepStat :=
  (lookupOrNew m src).UpdateFanOut dst

/-- The record on which `updateModuleDep` calls `UpdateIMetrics` the second
time: the record of `dst`, read after the first half, after
`UpdateFanIn(src)`. -/
def secondMetricsArg (m : ModMap) (src dst : String) : moduleDepStat :=
  (lookupOrNew (mapSet m src (firstMetricsArg m src dst).UpdateIMetrics) dst).UpdateFanIn src

/-- The condition of the early return of `UpdateIMetrics`. -/
def guardTaken (s : moduleDepStat) : Prop :=
  ((s.FanIn.length : Int) + (s.FanOut.length : Int)) ≤ 0

namespace GoSort

variable {α : Type}

/-- Element at index `k`, with a default outside the slice. -/
def nth [Inhabited α] (l : List α) (k : Nat) : α := l.getD k default


/-- The slice `l2` arises from `l1` by exchanges of elements inside `[a, b)`. -/
structure Within [Inhabited α] (a b : Nat) (l1 l2 : List α) : Prop where
  len : l2.length = l1.length
  perm : l2.Perm l1
  out : ∀ k, k < a ∨ b ≤ k → nth l2 k = nth l1 k
  src : ∀ k, a ≤ k → k < b → ∃ k', a ≤ k' ∧ k' < b ∧ nth l2 k = nth l1 k'

/-- Descending-by-`less` order of the segment `[a, b)`: an earlier element
is `less` than every later one. -/
def SortedSeg [Inhabited α] (less : α → α → Bool) (l : List α) (a b : Nat) : Prop :=
  ∀ i j, a ≤ i → i < j → j < b → less (nth l i) (nth l j) = true

/-- Heap order on the nodes `lo ≤ r` of the heap of size `hi` stored from
index `first`: every child in range is `less` than its parent. -/
def HeapFrom [Inhabited α] (less : α → α → Bool) (l : List α) (first lo hi : Nat) : Prop :=
  ∀ r c, lo ≤ r → c < hi → (c = 2 * r + 1 ∨ c = 2 * r + 2) →
    less (nth l (first + c)) (nth l (first + r)) = true

end GoSort

/-- Declarative reading of a pattern: `Matches ts s gs rest` when `s` is a
text matched by `ts` with groups `gs`, followed by `rest`. -/
def Matches : List Tok → List Char → List (List Char) → List Char → Prop
  | [], s, gs, rest => gs = [] ∧ rest = s
  | Tok.lit c :: ts, s, gs, rest => ∃ s', s = c :: s' ∧ Matches ts s' gs rest
  | Tok.dotStar :: ts, s, gs, rest =>
    ∃ x s' gs', s = x ++ s' ∧ newline ∉ x ∧ gs = x :: gs' ∧ Matches ts s' gs' rest


/-- The line holds a well-formed edge somewhere: `p "x" -> "y"; t` with
newline-free `x` and `y`. -/
def HasEdge (line : List Char) : Prop :=
  ∃ p x y t, line = p ++ ([dquote] ++ x ++ arrowLit ++ y ++ endLit) ++ t
    ∧ newline ∉ x ∧ newline ∉ y

/-- The tokens of `lineRegex` after the opening quote and the first group:
`" -> "(.*)";`. -/
def tailRegex : List Tok :=
  arrowLit.map Tok.lit ++ [Tok.dotStar] ++ endLit.map Tok.lit

/-- The text `p "x" -> "y"; s`: a well-formed edge with text before and
after it. -/
def embeddedEdgeLine (p x y s : String) : String :=
  String.mk (p.data ++ ([dquote] ++ x.data ++ arrowLit ++ y.data ++ endLit) ++ s.data)

/-- The text `"a" -> "b" -> "c";`: a line with two arrows. -/
def twoArrowLine (a b c : String) : String :=
  String.mk ([dquote] ++ (a.data ++ arrowLit ++ b.data) ++ arrowLit ++ c.data ++ endLit)

/-- The order key is one of the three the program ranks by. -/
def ValidOrder (orderBy : String) : Prop :=
  orderBy = orderByFanIn ∨ orderBy = orderByFanOut ∨ orderBy = orderByVolatile

/-- Adjacent positions of `out` are in descending order of `key`. -/
def Descending {β : Type} [LE β] (key : moduleDepStat → β) (out : List moduleDepStat) : Prop :=
  ∀ i (h : i + 1 < out.length), key (out[i + 1]) ≤ key (out[i])

/-- The sequence `out` is in descending order of the field selected by
`orderBy`. -/
def DescendingBy (orderBy : String) (out : List moduleDepStat) : Prop :=
  (orderBy = orderByFanIn → Descending (fun s => s.FanInCount) out)
  ∧ (orderBy = orderByFanOut → Descending (fun s => s.FanOutCount) out)
  ∧ (orderBy = orderByVolatile → Descending (fun s => s.I) out)

/-- The ranked sequence before truncation: what `sortBy.Sort(depsStat)`
leaves in the slice. -/
def rankedOf (range : ModMap → List moduleDepStat) (m : ModMap) (orderBy : String) :
    List moduleDepStat :=
  match selectSortBy orderBy with
  | some sortBy => depStatsortBy_Sort sortBy (range m)
  | none => range m

/-- The edges parsed from the input lines. -/
def parsedEdges (stdin : List String) : List (String × String) :=
  stdin.map (fun line => ((parseModuleDepItem line).1, (parseModuleDepItem line).2.1))

/-- No two records of `l` have the same value of the field selected by
`orderBy`. -/
def TieFree (orderBy : String) (l : List moduleDepStat) : Prop :=
  (orderBy = orderByFanIn → (l.map (fun s => s.FanInCount)).Nodup)
  ∧ (orderBy = orderByFanOut → (l.map (fun s => s.FanOutCount)).Nodup)
  ∧ (orderBy = orderByVolatile → (l.map (fun s => s.I)).Nodup)

/-- The module names of the records a run wrote as a ranked sequence, in
order; empty for every other outcome. -/
def writtenModules : Except String (Option Document) → List String
  | Except.ok (some (Document.array l)) => l.map (fun s => s.Module)
  | _ => []

/-! # Theorems -/

/-! ## Rounding to `float64` -/

theorem log2Loop_spec : ∀ (fuel n : Nat), n ≤ fuel → 0 < n →
    2 ^ log2Loop fuel n ≤ n ∧ n < 2 ^ (log2Loop fuel n + 1)
  | 0, n, h, hn => by omega
  | fuel + 1, n, h, hn => by
    unfold log2Loop
    split
    · constructor <;> simp <;> omega
    · have ih := log2Loop_spec fuel (n / 2) (by omega) (by omega)
      obtain ⟨h1, h2⟩ := ih
      constructor
      · rw [pow_succ]; omega
      · rw [pow_succ] at h2 ⊢; rw [pow_succ]; omega

theorem ilog2_spec (n : Nat) (hn : 0 < n) : 2 ^ ilog2 n ≤ n ∧ n < 2 ^ (ilog2 n + 1) :=
  log2Loop_spec n n (le_refl n) hn

theorem roundNearestEven_spec (n d : Nat) (hd : 0 < d) :
    2 * (roundNearestEven n d * d) ≤ 2 * n + d
    ∧ 2 * n ≤ 2 * (roundNearestEven n d * d) + d
    ∧ ((2 * (roundNearestEven n d * d) = 2 * n + d ∨ 2 * n = 2 * (roundNearestEven n d * d) + d)
        → roundNearestEven n d % 2 = 0) := by
  have hdm := Nat.div_add_mod n d
  have hr := Nat.mod_lt n hd
  have hmul : d * (n / d) = n / d * d := Nat.mul_comm _ _
  unfold roundNearestEven
  simp only
  split
  · refine ⟨by omega, by omega, ?_⟩
    rintro (h | h) <;> omega
  · split
    · rw [Nat.add_mul, Nat.one_mul]
      refine ⟨by omega, by omega, ?_⟩
      rintro (h | h) <;> omega
    · split
      · refine ⟨by omega, by omega, fun _ => by assumption⟩
      · rw [Nat.add_mul, Nat.one_mul]
        refine ⟨by omega, by omega, fun _ => by omega⟩

/-- The rounded integer is within one half of the quotient, and is even at
a tie. -/
theorem roundNearestEven_specQ (n d : Nat) (hd : 0 < d) :
    (roundNearestEven n d : ℚ) - 1 / 2 ≤ (n : ℚ) / d
    ∧ (n : ℚ) / d ≤ (roundNearestEven n d : ℚ) + 1 / 2
    ∧ ((n : ℚ) / d = (roundNearestEven n d : ℚ) - 1 / 2 → roundNearestEven n d % 2 = 0)
    ∧ ((n : ℚ) / d = (roundNearestEven n d : ℚ) + 1 / 2 → roundNearestEven n d % 2 = 0) := by
  obtain ⟨h1, h2, h3⟩ := roundNearestEven_spec n d hd
  have hdq : (0 : ℚ) < d := by exact_mod_cast hd
  have h1q : (2 : ℚ) * ((roundNearestEven n d : ℚ) * d) ≤ 2 * n + d := by exact_mod_cast h1
  have h2q : (2 : ℚ) * n ≤ 2 * ((roundNearestEven n d : ℚ) * d) + d := by exact_mod_cast h2
  refine ⟨?_, ?_, ?_, ?_⟩
  · rw [le_div_iff₀ hdq]; nlinarith
  · rw [div_le_iff₀ hdq]; nlinarith
  · intro h
    apply h3
    left
    rw [div_eq_iff (ne_of_gt hdq)] at h
    have : (2 : ℚ) * ((roundNearestEven n d : ℚ) * d) = 2 * n + d := by rw [h]; ring
    exact_mod_cast this
  · intro h
    apply h3
    right
    rw [div_eq_iff (ne_of_gt hdq)] at h
    have : (2 : ℚ) * n = 2 * ((roundNearestEven n d : ℚ) * d) + d := by rw [h]; ring
    exact_mod_cast this

/-- Rounding to the nearest integer is monotone in the quotient. -/
theorem roundNearestEven_mono (n d n' d' : Nat) (hd : 0 < d) (hd' : 0 < d')
    (h : (n : ℚ) / d ≤ (n' : ℚ) / d') :
    roundNearestEven n d ≤ roundNearestEven n' d' := by
  obtain ⟨a1, a2, a3, a4⟩ := roundNearestEven_specQ n d hd
  obtain ⟨b1, b2, b3, b4⟩ := roundNearestEven_specQ n' d' hd'
  by_contra hlt
  have hlt : roundNearestEven n' d' + 1 ≤ roundNearestEven n d := by omega
  have hq : (roundNearestEven n' d' : ℚ) + 1 ≤ (roundNearestEven n d : ℚ) := by exact_mod_cast hlt
  have hle : (roundNearestEven n d : ℚ) ≤ (roundNearestEven n' d' : ℚ) + 1 := by linarith
  have heq : (roundNearestEven n d : ℚ) = (roundNearestEven n' d' : ℚ) + 1 := le_antisymm hle hq
  have heqn : roundNearestEven n d = roundNearestEven n' d' + 1 := by exact_mod_cast heq
  have e1 := a3 (by linarith)
  have e2 := b4 (by linarith)
  omega

/-- An integer quotient is not changed by rounding. -/
theorem roundNearestEven_of_eq (n d K : Nat) (hd : 0 < d) (h : (n : ℚ) / d = K) :
    roundNearestEven n d = K := by
  obtain ⟨a1, a2, _, _⟩ := roundNearestEven_specQ n d hd
  rw [h] at a1 a2
  have h1 : (roundNearestEven n d : ℚ) < (K : ℚ) + 1 := by linarith
  have h2 : (K : ℚ) < (roundNearestEven n d : ℚ) + 1 := by linarith
  have h1n : roundNearestEven n d < K + 1 := by exact_mod_cast h1
  have h2n : K < roundNearestEven n d + 1 := by exact_mod_cast h2
  omega
theorem two_pow_toNat_ratio (e : Int) :
    ((2 : ℚ) ^ (-e).toNat) / (2 : ℚ) ^ e.toNat = ((2 : ℚ) ^ e)⁻¹ := by
  rcases le_or_lt 0 e with h | h
  · have h1 : (-e).toNat = 0 := by omega
    have h2 : ((e.toNat : Nat) : Int) = e := Int.toNat_of_nonneg h
    rw [h1, pow_zero, one_div, ← zpow_natCast, h2]
  · have h1 : e.toNat = 0 := by omega
    have h2 : (((-e).toNat : Nat) : Int) = -e := Int.toNat_of_nonneg (by omega)
    rw [h1, pow_zero, div_one, ← zpow_natCast, h2, zpow_neg]

/-- What `roundParts` computes: the quotient scaled by `2 ^ e` lies between
`2 ^ 52` and `2 ^ 53`, and the significand is that scaled quotient rounded
to the nearest integer. -/
theorem roundParts_spec (p q : Nat) (hp : 0 < p) (hq : 0 < q) :
    ∃ (n d : Nat) (e : Int), 0 < d ∧ roundParts p q = (roundNearestEven n d, e)
      ∧ (n : ℚ) / d = ((p : ℚ) / q) / (2 : ℚ) ^ e
      ∧ (2 : ℚ) ^ 52 ≤ (n : ℚ) / d ∧ (n : ℚ) / d < (2 : ℚ) ^ 53 := by
  obtain ⟨p1, p2⟩ := ilog2_spec p hp
  obtain ⟨q1, q2⟩ := ilog2_spec q hq
  have hpq : (0 : ℚ) < p := by exact_mod_cast hp
  have hqq : (0 : ℚ) < q := by exact_mod_cast hq
  have p1q : (2 : ℚ) ^ ilog2 p ≤ p := by exact_mod_cast p1
  have p2q : (p : ℚ) < 2 ^ (ilog2 p + 1) := by exact_mod_cast p2
  have q1q : (2 : ℚ) ^ ilog2 q ≤ q := by exact_mod_cast q1
  have q2q : (q : ℚ) < 2 ^ (ilog2 q + 1) := by exact_mod_cast q2
  have hP : (0 : ℚ) < 2 ^ ilog2 p := by positivity
  have hQ : (0 : ℚ) < 2 ^ ilog2 q := by positivity
  set e0 : Int := (ilog2 p : Int) - (ilog2 q : Int) - 53 with he0
  set n0 : Nat := p * 2 ^ (-e0).toNat with hn0
  set d0 : Nat := q * 2 ^ e0.toNat with hd0
  have hd0pos : 0 < d0 := by positivity
  have hd0q : (0 : ℚ) < d0 := by exact_mod_cast hd0pos
  have h2e : (2 : ℚ) ^ e0 = 2 ^ ilog2 p / 2 ^ ilog2 q / 2 ^ 53 := by
    rw [he0, zpow_sub₀ (by norm_num), zpow_sub₀ (by norm_num), zpow_natCast, zpow_natCast]
    norm_num
  have hratio : (n0 : ℚ) / d0 = ((p : ℚ) / q) / (2 : ℚ) ^ e0 := by
    have := two_pow_toNat_ratio e0
    rw [hn0, hd0]
    push_cast
    rw [mul_div_mul_comm, this, ← div_eq_mul_inv]
  have hval : (n0 : ℚ) / d0 = ((p : ℚ) / 2 ^ ilog2 p) * ((2 : ℚ) ^ ilog2 q / q) * 2 ^ 53 := by
    rw [hratio, h2e]
    field_simp
    ring
  have hu1 : (1 : ℚ) ≤ (p : ℚ) / 2 ^ ilog2 p := by rw [le_div_iff₀ hP]; linarith
  have hu2 : (p : ℚ) / 2 ^ ilog2 p < 2 := by
    rw [div_lt_iff₀ hP]; rw [pow_succ] at p2q; linarith
  have hv1 : (1 : ℚ) / 2 < (2 : ℚ) ^ ilog2 q / q := by
    rw [lt_div_iff₀ hqq]; rw [pow_succ] at q2q; linarith
  have hv2 : (2 : ℚ) ^ ilog2 q / q ≤ 1 := by rw [div_le_iff₀ hqq]; linarith
  have hlo : (2 : ℚ) ^ 52 < (n0 : ℚ) / d0 := by
    rw [hval]
    have : (1 : ℚ) / 2 < ((p : ℚ) / 2 ^ ilog2 p) * ((2 : ℚ) ^ ilog2 q / q) := by nlinarith
    norm_num at this ⊢
    linarith
  have hhi : (n0 : ℚ) / d0 < (2 : ℚ) ^ 54 := by
    rw [hval]
    have : ((p : ℚ) / 2 ^ ilog2 p) * ((2 : ℚ) ^ ilog2 q / q) < 2 := by nlinarith
    norm_num at this ⊢
    linarith
  have hparts : roundParts p q
      = if n0 < 2 ^ 53 * d0 then (roundNearestEven n0 d0, e0)
        else (roundNearestEven n0 (2 * d0), e0 + 1) := rfl
  by_cases hb : n0 < 2 ^ 53 * d0
  · refine ⟨n0, d0, e0, hd0pos, ?_, hratio, le_of_lt hlo, ?_⟩
    · rw [hparts, if_pos hb]
    · rw [div_lt_iff₀ hd0q]; exact_mod_cast hb
  · have hb' : 2 ^ 53 * d0 ≤ n0 := by omega
    have hbq : (2 : ℚ) ^ 53 * d0 ≤ n0 := by exact_mod_cast hb'
    have h53 : (2 : ℚ) ^ 53 ≤ (n0 : ℚ) / d0 := by rw [le_div_iff₀ hd0q]; exact hbq
    have hhalf : ((n0 : ℚ) / ((2 * d0 : Nat) : ℚ)) = (n0 : ℚ) / d0 / 2 := by
      push_cast; field_simp; left; ring
    refine ⟨n0, 2 * d0, e0 + 1, by omega, ?_, ?_, ?_, ?_⟩
    · rw [hparts, if_neg hb]
    · rw [hhalf, hratio, zpow_add₀ (by norm_num), zpow_one]; field_simp; left; ring
    · rw [hhalf]; norm_num at h53 ⊢; linarith
    · rw [hhalf]; norm_num at hhi ⊢; linarith

/-- The rounding of a positive rational. -/
theorem f64round_spec (x : ℚ) (hx : 0 < x) :
    ∃ (n d : Nat) (e : Int), 0 < d ∧ f64round x = (roundNearestEven n d : ℚ) * (2 : ℚ) ^ e
      ∧ (n : ℚ) / d = x / (2 : ℚ) ^ e
      ∧ (2 : ℚ) ^ 52 ≤ (n : ℚ) / d ∧ (n : ℚ) / d < (2 : ℚ) ^ 53 := by
  have hnum : 0 < x.num := Rat.num_pos.mpr hx
  obtain ⟨n, d, e, hd, hparts, hratio, hlo, hhi⟩ :=
    roundParts_spec x.num.natAbs x.den (by omega) x.den_pos
  have hcast : ((x.num.natAbs : Nat) : ℚ) = (x.num : ℚ) := by
    rw [Nat.cast_natAbs, abs_of_pos hnum]
  rw [hcast, Rat.num_div_den] at hratio
  refine ⟨n, d, e, hd, ?_, hratio, hlo, hhi⟩
  unfold f64round
  rw [if_neg (by omega)]
  simp only [hparts, if_pos hnum]

theorem f64round_zero : f64round 0 = 0 := by
  unfold f64round; simp

/-- The significand is between `2 ^ 52` and `2 ^ 53`. -/
theorem roundNearestEven_range (n d : Nat) (hd : 0 < d)
    (hlo : (2 : ℚ) ^ 52 ≤ (n : ℚ) / d) (hhi : (n : ℚ) / d < (2 : ℚ) ^ 53) :
    2 ^ 52 ≤ roundNearestEven n d ∧ roundNearestEven n d ≤ 2 ^ 53 := by
  constructor
  · have h := roundNearestEven_mono (2 ^ 52) 1 n d (by norm_num) hd (by simpa using hlo)
    rwa [roundNearestEven_of_eq (2 ^ 52) 1 (2 ^ 52) (by norm_num) (by norm_num)] at h
  · have h := roundNearestEven_mono n d (2 ^ 53) 1 hd (by norm_num) (by simpa using le_of_lt hhi)
    rwa [roundNearestEven_of_eq (2 ^ 53) 1 (2 ^ 53) (by norm_num) (by norm_num)] at h

theorem f64round_pos (x : ℚ) (hx : 0 < x) : 0 < f64round x := by
  obtain ⟨n, d, e, hd, hval, _, hlo, hhi⟩ := f64round_spec x hx
  obtain ⟨h1, _⟩ := roundNearestEven_range n d hd hlo hhi
  rw [hval]
  have : (0 : ℚ) < (roundNearestEven n d : ℚ) := by
    have : 0 < roundNearestEven n d := lt_of_lt_of_le (by norm_num) h1
    exact_mod_cast this
  positivity

/-- A number with a significand below `2 ^ 53` is a `float64`: rounding
leaves it unchanged. -/
theorem f64round_exact (M : Nat) (E : Int) (hM : 0 < M) (hM53 : M < 2 ^ 53) :
    f64round ((M : ℚ) * (2 : ℚ) ^ E) = (M : ℚ) * (2 : ℚ) ^ E := by
  have hMq : (0 : ℚ) < M := by exact_mod_cast hM
  have hM53q : (M : ℚ) < 2 ^ 53 := by exact_mod_cast hM53
  have hx : (0 : ℚ) < (M : ℚ) * (2 : ℚ) ^ E := by positivity
  obtain ⟨n, d, e, hd, hval, hratio, hlo, hhi⟩ := f64round_spec _ hx
  have he : (0 : ℚ) < 2 ^ e := by positivity
  have hEe : e ≤ E := by
    by_contra hlt
    have hlt : E + 1 ≤ e := by omega
    have hstep : (2 : ℚ) ^ (E + 1) ≤ 2 ^ e := zpow_le_zpow_right₀ (by norm_num) hlt
    rw [zpow_add₀ (by norm_num), zpow_one] at hstep
    rw [hratio, le_div_iff₀ he] at hlo
    have hE : (0 : ℚ) < 2 ^ E := by positivity
    have h1 : (2 : ℚ) ^ 52 * (2 ^ E * 2) ≤ (M : ℚ) * 2 ^ E :=
      le_trans (mul_le_mul_of_nonneg_left hstep (by positivity)) hlo
    have h2 : (M : ℚ) * 2 ^ E < 2 ^ 53 * 2 ^ E := mul_lt_mul_of_pos_right hM53q hE
    have : (2 : ℚ) ^ 52 * (2 ^ E * 2) = 2 ^ 53 * 2 ^ E := by ring
    linarith
  obtain ⟨j, hj⟩ : ∃ j : Nat, E = e + j := ⟨(E - e).toNat, by omega⟩
  have hK : (n : ℚ) / d = ((M * 2 ^ j : Nat) : ℚ) := by
    rw [hratio, hj, zpow_add₀ (by norm_num), zpow_natCast]
    push_cast
    field_simp
    ring
  rw [hval, roundNearestEven_of_eq n d (M * 2 ^ j) hd hK, hj, zpow_add₀ (by norm_num),
    zpow_natCast]
  push_cast
  ring

theorem f64round_one : f64round 1 = 1 := by
  have := f64round_exact 1 0 (by norm_num) (by norm_num)
  simpa using this

/-- The rounding error is at most `2 ^ (-53)` of the exact value. -/
theorem f64round_error (x : ℚ) (hx : 0 < x) : |f64round x - x| ≤ x / 2 ^ 53 := by
  obtain ⟨n, d, e, hd, hval, hratio, hlo, hhi⟩ := f64round_spec x hx
  obtain ⟨a1, a2, _, _⟩ := roundNearestEven_specQ n d hd
  have he : (0 : ℚ) < 2 ^ e := by positivity
  have hx' : x = (n : ℚ) / d * 2 ^ e := by rw [hratio]; field_simp
  have hdiff : f64round x - x = ((roundNearestEven n d : ℚ) - (n : ℚ) / d) * 2 ^ e := by
    rw [hval]
    have : x = (n : ℚ) / d * 2 ^ e := hx'
    linear_combination (-1 : ℚ) * this
  have habs : |(roundNearestEven n d : ℚ) - (n : ℚ) / d| ≤ 1 / 2 := by
    rw [abs_le]; constructor <;> linarith
  rw [hdiff, abs_mul, abs_of_pos he]
  have h1 : |(roundNearestEven n d : ℚ) - (n : ℚ) / d| * 2 ^ e ≤ 1 / 2 * 2 ^ e :=
    mul_le_mul_of_nonneg_right habs (le_of_lt he)
  have h2 : (1 : ℚ) / 2 * 2 ^ e ≤ x / 2 ^ 53 := by
    rw [le_div_iff₀ (by positivity)]
    have : (2 : ℚ) ^ 52 * 2 ^ e ≤ x := by
      rw [hx']; exact mul_le_mul_of_nonneg_right hlo (le_of_lt he)
    have h53 : (2 : ℚ) ^ 53 = 2 * 2 ^ 52 := by norm_num
    rw [h53]
    nlinarith
  linarith
/-! ## Conversion and division -/

@[simp] theorem float64_zero : float64 0 = 0 := by
  unfold float64; simp [f64round_zero]

/-- The conversion of a length up to `2 ^ 53` is exact. -/
theorem float64_natCast (n : Nat) (h : n ≤ 2 ^ 53) : float64 (n : Int) = (n : ℚ) := by
  unfold float64
  rcases Nat.eq_zero_or_pos n with h0 | hpos
  · subst h0; simp [f64round_zero]
  · rcases Nat.lt_or_ge n (2 ^ 53) with hlt | hge
    · have := f64round_exact n 0 hpos hlt
      simpa using this
    · have hn : n = 2 ^ 53 := by omega
      subst hn
      have := f64round_exact 1 53 (by norm_num) (by norm_num)
      norm_num at this ⊢
      exact this

@[simp] theorem float64_one : float64 1 = 1 := by
  simpa using float64_natCast 1 (by norm_num)

@[simp] theorem float64_two : float64 2 = 2 := by
  simpa using float64_natCast 2 (by norm_num)

@[simp] theorem float64_three : float64 3 = 3 := by
  simpa using float64_natCast 3 (by norm_num)

theorem float64_nat_pos (n : Nat) (h : 0 < n) : 0 < float64 (n : Int) := by
  unfold float64
  apply f64round_pos
  exact_mod_cast h

@[simp] theorem f64div_zero_left (y : ℚ) : f64div 0 y = 0 := by
  unfold f64div; simp [f64round_zero]

theorem f64div_self (x : ℚ) (hx : x ≠ 0) : f64div x x = 1 := by
  unfold f64div; rw [div_self hx, f64round_one]

@[simp] theorem f64div_one_one : f64div 1 1 = 1 := f64div_self 1 (by norm_num)

@[simp] theorem f64div_two_two : f64div 2 2 = 1 := f64div_self 2 (by norm_num)

@[simp] theorem f64div_three_three : f64div 3 3 = 1 := f64div_self 3 (by norm_num)

@[simp] theorem f64div_one_two : f64div 1 2 = 1 / 2 := by
  unfold f64div
  have := f64round_exact 1 (-1) (by norm_num) (by norm_num)
  simpa using this

/-- Two thirds is not a `float64`; the quotient is the nearest one. -/
theorem f64div_two_three : f64div 2 3 = 6004799503160661 / 9007199254740992 := by
  unfold f64div f64round
  have hnum : ((2 : ℚ) / 3).num = 2 := by norm_num
  have hden : ((2 : ℚ) / 3).den = 3 := by norm_num
  have hparts : roundParts 2 3 = (6004799503160661, -53) := by decide
  rw [hnum, hden]
  have habs : (2 : Int).natAbs = 2 := by decide
  simp only [habs, hparts]
  norm_num

/-- Up to `2 ^ 53` the stored quotient is the exact quotient rounded
once. -/
theorem f64div_float64_eq (a b : Nat) (ha : a ≤ 2 ^ 53) (hb : b ≤ 2 ^ 53) :
    f64div (float64 (a : Int)) (float64 (b : Int)) = f64round ((a : ℚ) / b) := by
  rw [float64_natCast a ha, float64_natCast b hb]; rfl

theorem mapGet_mapSet (m : ModMap) (k k' : String) (v : moduleDepStat) :
    mapGet (mapSet m k v) k' = if k = k' then some v else mapGet m k' := by
  induction m with
  | nil => simp [mapSet, mapGet]
  | cons p m ih =>
    obtain ⟨k0, v0⟩ := p
    by_cases h : k0 = k
    · subst h
      by_cases h' : k0 = k' <;> simp [mapSet, mapGet, h']
    · by_cases h' : k = k'
      · subst h'
        simp [mapSet, mapGet, h, ih]
      · simp [mapSet, mapGet, h, h', ih]

theorem mapGet_mapSet_self (m : ModMap) (k : String) (v : moduleDepStat) :
    mapGet (mapSet m k v) k = some v := by
  simp [mapGet_mapSet]

theorem mapGet_mapSet_ne (m : ModMap) {k k' : String} (v : moduleDepStat) (h : k ≠ k') :
    mapGet (mapSet m k v) k' = mapGet m k' := by
  simp [mapGet_mapSet, h]

theorem mem_mapKeys_iff (m : ModMap) (k : String) :
    k ∈ mapKeys m ↔ (mapGet m k).isSome = true := by
  induction m with
  | nil => simp [mapKeys, mapGet]
  | cons p m ih =>
    obtain ⟨k0, v0⟩ := p
    by_cases h : k0 = k
    · simp [mapKeys, mapGet, h]
    · have h' : ¬ k = k0 := fun e => h e.symm
      simp only [mapKeys] at ih
      simp [mapKeys, mapGet, h, h', ih]

theorem mapKeys_mapSet (m : ModMap) (k : String) (v : moduleDepStat) :
    mapKeys (mapSet m k v) = if k ∈ mapKeys m then mapKeys m else mapKeys m ++ [k] := by
  induction m with
  | nil => simp [mapSet, mapKeys]
  | cons p m ih =>
    obtain ⟨k0, v0⟩ := p
    simp only [mapKeys] at ih
    by_cases h : k0 = k
    · subst h
      simp [mapSet, mapKeys]
    · have h' : ¬ k = k0 := fun e => h e.symm
      by_cases hm : k ∈ List.map Prod.fst m
      · simp [mapSet, mapKeys, h, h', hm, ih]
      · simp [mapSet, mapKeys, h, h', hm, ih]

theorem mapKeys_mapSet_nodup (m : ModMap) (k : String) (v : moduleDepStat)
    (h : (mapKeys m).Nodup) : (mapKeys (mapSet m k v)).Nodup := by
  rw [mapKeys_mapSet]
  split
  · exact h
  · rename_i hk
    rw [List.nodup_append]
    refine ⟨h, List.nodup_singleton k, ?_⟩
    intro x hx hx'
    simp only [List.mem_singleton] at hx'
    subst hx'
    exact hk hx

theorem lookupOrNew_Module (m : ModMap) (k : String)
    (h : ∀ st, mapGet m k = some st → st.Module = k) : (lookupOrNew m k).Module = k := by
  unfold lookupOrNew
  cases hg : mapGet m k with
  | none => rfl
  | some st => exact h st hg

/-- Record stored for `src` after `updateModuleDep m src dst`, when the
two names differ. -/
theorem mapGet_updateModuleDep_src (m : ModMap) {a b : String} (h : a ≠ b) :
    mapGet (updateModuleDep m a b) a
      = some ((lookupOrNew m a).UpdateFanOut b).UpdateIMetrics := by
  simp [updateModuleDep, mapGet_mapSet, h, Ne.symm h]

/-- Record stored for `dst` after `updateModuleDep m src dst`, when the
two names differ. -/
theorem mapGet_updateModuleDep_dst (m : ModMap) {a b : String} (h : a ≠ b) :
    mapGet (updateModuleDep m a b) b
      = some ((lookupOrNew m b).UpdateFanIn a).UpdateIMetrics := by
  have hl : lookupOrNew (mapSet m a ((lookupOrNew m a).UpdateFanOut b).UpdateIMetrics) b
      = lookupOrNew m b := by
    simp [lookupOrNew, mapGet_mapSet, h]
  simp [updateModuleDep, mapGet_mapSet, hl]

/-- Record stored for `a` after the self-loop `updateModuleDep m a a`. -/
theorem mapGet_updateModuleDep_self (m : ModMap) (a : String) :
    mapGet (updateModuleDep m a a) a
      = some ((((lookupOrNew m a).UpdateFanOut a).UpdateIMetrics).UpdateFanIn a).UpdateIMetrics := by
  simp [updateModuleDep, mapGet_mapSet, lookupOrNew]

/-- Every other key keeps its record. -/
theorem mapGet_updateModuleDep_other (m : ModMap) {a b k : String} (ha : a ≠ k) (hb : b ≠ k) :
    mapGet (updateModuleDep m a b) k = mapGet m k := by
  simp [updateModuleDep, mapGet_mapSet, ha, hb]

@[simp] theorem UpdateIMetrics_FanIn (s : moduleDepStat) : s.UpdateIMetrics.FanIn = s.FanIn := by
  unfold moduleDepStat.UpdateIMetrics; split <;> rfl

@[simp] theorem UpdateIMetrics_FanOut (s : moduleDepStat) :
    s.UpdateIMetrics.FanOut = s.FanOut := by
  unfold moduleDepStat.UpdateIMetrics; split <;> rfl

@[simp] theorem UpdateIMetrics_FanInCount (s : moduleDepStat) :
    s.UpdateIMetrics.FanInCount = s.FanInCount := by
  unfold moduleDepStat.UpdateIMetrics; split <;> rfl

@[simp] theorem UpdateIMetrics_FanOutCount (s : moduleDepStat) :
    s.UpdateIMetrics.FanOutCount = s.FanOutCount := by
  unfold moduleDepStat.UpdateIMetrics; split <;> rfl

@[simp] theorem UpdateIMetrics_Module (s : moduleDepStat) :
    s.UpdateIMetrics.Module = s.Module := by
  unfold moduleDepStat.UpdateIMetrics; split <;> rfl

theorem fanOutOf_eq_lookupOrNew (m : ModMap) (k : String) :
    fanOutOf m k = (lookupOrNew m k).FanOut := by
  unfold fanOutOf lookupOrNew
  cases mapGet m k <;> rfl

theorem fanInOf_eq_lookupOrNew (m : ModMap) (k : String) :
    fanInOf m k = (lookupOrNew m k).FanIn := by
  unfold fanInOf lookupOrNew
  cases mapGet m k <;> rfl

theorem fanOutOf_updateModuleDep (m : ModMap) (a b : String) :
    fanOutOf (updateModuleDep m a b) a = fanOutOf m a ++ [b] := by
  by_cases h : a = b
  · subst h
    simp [fanOutOf, mapGet_updateModuleDep_self, ← fanOutOf_eq_lookupOrNew,
      moduleDepStat.UpdateFanOut, moduleDepStat.UpdateFanIn]
  · simp [fanOutOf, mapGet_updateModuleDep_src m h, ← fanOutOf_eq_lookupOrNew,
      moduleDepStat.UpdateFanOut]

theorem fanInOf_updateModuleDep (m : ModMap) (a b : String) :
    fanInOf (updateModuleDep m a b) b = fanInOf m b ++ [a] := by
  by_cases h : a = b
  · subst h
    simp [fanInOf, mapGet_updateModuleDep_self, ← fanInOf_eq_lookupOrNew,
      moduleDepStat.UpdateFanOut, moduleDepStat.UpdateFanIn]
  · simp [fanInOf, mapGet_updateModuleDep_dst m h, ← fanInOf_eq_lookupOrNew,
      moduleDepStat.UpdateFanIn]

/-- C1: after `updateModuleDep m a b` (also when `a = b`) the record of `a`
exists and its fan-out is the previous fan-out of `a` (empty without a
record) with `b` appended, the record of `b` exists and its fan-in is the
previous fan-in of `b` with `a` appended; so `b` occurs once more in the
fan-out of `a` and `a` once more in the fan-in of `b`. -/
theorem updateModuleDep_appends (m : ModMap) (a b : String) :
    (mapGet (updateModuleDep m a b) a).map (fun st => st.FanOut) = some (fanOutOf m a ++ [b])
    ∧ (mapGet (updateModuleDep m a b) b).map (fun st => st.FanIn) = some (fanInOf m b ++ [a])
    ∧ (fanOutOf (updateModuleDep m a b) a).count b = (fanOutOf m a).count b + 1
    ∧ (fanInOf (updateModuleDep m a b) b).count a = (fanInOf m b).count a + 1 := by
  refine ⟨?_, ?_, ?_, ?_⟩
  · by_cases h : a = b
    · subst h
      simp [mapGet_updateModuleDep_self, fanOutOf_eq_lookupOrNew,
        moduleDepStat.UpdateFanOut, moduleDepStat.UpdateFanIn]
    · simp [mapGet_updateModuleDep_src m h, fanOutOf_eq_lookupOrNew,
        moduleDepStat.UpdateFanOut]
  · by_cases h : a = b
    · subst h
      simp [mapGet_updateModuleDep_self, fanInOf_eq_lookupOrNew,
        moduleDepStat.UpdateFanOut, moduleDepStat.UpdateFanIn]
    · simp [mapGet_updateModuleDep_dst m h, fanInOf_eq_lookupOrNew,
        moduleDepStat.UpdateFanIn]
  · rw [fanOutOf_updateModuleDep]; simp
  · rw [fanInOf_updateModuleDep]; simp


/-! ## Invariants of the accumulator -/

theorem MapOK_nil : MapOK [] := by
  intro k st h
  simp [mapGet] at h

theorem lookupOrNew_PreOK {m : ModMap} (h : MapOK m) (k : String) :
    PreOK k (lookupOrNew m k) := by
  unfold lookupOrNew
  cases hg : mapGet m k with
  | none => simp [PreOK, newModuleDepStat]
  | some st => exact (h k st hg).1

theorem UpdateFanOut_RecordOK {k : String} {s : moduleDepStat} (h : PreOK k s) (b : String) :
    RecordOK k (s.UpdateFanOut b).UpdateIMetrics := by
  obtain ⟨h1, h2, h3⟩ := h
  have hlen : ¬ (((s.UpdateFanOut b).FanIn.length : Int)
      + ((s.UpdateFanOut b).FanOut.length : Int) ≤ 0) := by
    simp only [moduleDepStat.UpdateFanOut, List.length_append, List.length_singleton]
    push_cast
    omega
  refine ⟨⟨?_, ?_, ?_⟩, ?_, ?_⟩
  · simpa [moduleDepStat.UpdateFanOut] using h1
  · simpa [moduleDepStat.UpdateFanOut] using h2
  · simp [moduleDepStat.UpdateFanOut]
  · simp [moduleDepStat.UpdateFanOut]; omega
  · simp only [UpdateIMetrics_FanIn, UpdateIMetrics_FanOut]
    simp only [moduleDepStat.UpdateIMetrics, if_neg hlen]

theorem UpdateFanIn_RecordOK {k : String} {s : moduleDepStat} (h : PreOK k s) (a : String) :
    RecordOK k (s.UpdateFanIn a).UpdateIMetrics := by
  obtain ⟨h1, h2, h3⟩ := h
  have hlen : ¬ (((s.UpdateFanIn a).FanIn.length : Int)
      + ((s.UpdateFanIn a).FanOut.length : Int) ≤ 0) := by
    simp only [moduleDepStat.UpdateFanIn, List.length_append, List.length_singleton]
    push_cast
    omega
  refine ⟨⟨?_, ?_, ?_⟩, ?_, ?_⟩
  · simpa [moduleDepStat.UpdateFanIn] using h1
  · simp [moduleDepStat.UpdateFanIn]
  · simpa [moduleDepStat.UpdateFanIn] using h3
  · simp [moduleDepStat.UpdateFanIn]; omega
  · simp only [UpdateIMetrics_FanIn, UpdateIMetrics_FanOut]
    simp only [moduleDepStat.UpdateIMetrics, if_neg hlen]

theorem MapOK_updateModuleDep {m : ModMap} (h : MapOK m) (a b : String) :
    MapOK (updateModuleDep m a b) := by
  intro k st hk
  by_cases hab : a = b
  · subst hab
    by_cases hka : a = k
    · subst hka
      rw [mapGet_updateModuleDep_self] at hk
      cases hk
      exact UpdateFanIn_RecordOK (UpdateFanOut_RecordOK (lookupOrNew_PreOK h a) a).1 a
    · rw [mapGet_updateModuleDep_other m hka hka] at hk
      exact h k st hk
  · by_cases hka : a = k
    · subst hka
      rw [mapGet_updateModuleDep_src m hab] at hk
      cases hk
      exact UpdateFanOut_RecordOK (lookupOrNew_PreOK h a) b
    · by_cases hkb : b = k
      · subst hkb
        rw [mapGet_updateModuleDep_dst m hab] at hk
        cases hk
        exact UpdateFanIn_RecordOK (lookupOrNew_PreOK h b) a
      · rw [mapGet_updateModuleDep_other m hka hkb] at hk
        exact h k st hk

theorem MapOK_processEdges {m : ModMap} (h : MapOK m) (edges : List (String × String)) :
    MapOK (processEdges m edges) := by
  induction edges generalizing m with
  | nil => exact h
  | cons e es ih => exact ih (MapOK_updateModuleDep h e.1 e.2)

/-- C2: after every prefix of every edge sequence processed from the empty
mapping, each stored record has `FanInCount = len(FanIn)` and
`FanOutCount = len(FanOut)`. -/
theorem counts_eq_lengths (edges : List (String × String)) (n : Nat) (k : String)
    (st : moduleDepStat) (h : mapGet (processEdges [] (edges.take n)) k = some st) :
    st.FanInCount = (st.FanIn.length : Int) ∧ st.FanOutCount = (st.FanOut.length : Int) :=
  (MapOK_processEdges MapOK_nil (edges.take n) k st h).1.2

theorem counts_eq_lengths_witness :
    mapGet (processEdges [] ([("A", "B"), ("A", "B")].take 2)) "A"
        = some ⟨"A", [], ["B", "B"], 0, 2, 1⟩
      ∧ ((0 : Int) = (([] : depList).length : Int)
        ∧ (2 : Int) = ((["B", "B"] : depList).length : Int)) := by
  have h : mapGet (processEdges [] ([("A", "B"), ("A", "B")].take 2)) "A"
      = some ⟨"A", [], ["B", "B"], 0, 2, 1⟩ := by
    simp [processEdges, updateModuleDep, lookupOrNew, mapGet, mapSet, newModuleDepStat,
      moduleDepStat.UpdateFanOut, moduleDepStat.UpdateFanIn, moduleDepStat.UpdateIMetrics]
  exact ⟨h, counts_eq_lengths _ 2 "A" _ h⟩

/-- C3, counterexample: after the edges (A, B), (A, C), (D, A) the record of
A has counts 1 and 2 and its instability is the `float64` nearest to two
thirds, `6004799503160661 / 2 ^ 53`, not the exact rational `2 / 3`. -/
theorem instability_rounded :
    ∃ st : moduleDepStat,
      mapGet (processEdges [] ([("A", "B"), ("A", "C"), ("D", "A")].take 3)) "A" = some st
      ∧ st.FanInCount = 1 ∧ st.FanOutCount = 2
      ∧ 0 < st.FanInCount + st.FanOutCount
      ∧ st.I = 6004799503160661 / 9007199254740992
      ∧ st.I ≠ (st.FanOutCount : ℚ) / ((st.FanInCount + st.FanOutCount : Int) : ℚ) := by
  refine ⟨⟨"A", ["D"], ["B", "C"], 1, 2, 6004799503160661 / 9007199254740992⟩, ?_, rfl, rfl,
    by decide, rfl, ?_⟩
  · simp [processEdges, updateModuleDep, lookupOrNew, mapGet, mapSet, newModuleDepStat,
      moduleDepStat.UpdateFanOut, moduleDepStat.UpdateFanIn, moduleDepStat.UpdateIMetrics,
      f64div_two_three]
  · norm_num

/-- C3, amended: after every prefix of every edge sequence processed from
the empty mapping, each stored record with `FanInCount + FanOutCount > 0`
has `I = float64(FanOutCount) / float64(FanInCount + FanOutCount)`, the
`float64` quotient of its current counts. For counts up to `2 ^ 53` this is
the exact quotient rounded once to the nearest `float64`: it differs from
the exact quotient by at most `2 ^ (-53)` of it, and equals it whenever the
exact quotient has a significand below `2 ^ 53`. -/
theorem instability_current (edges : List (String × String)) (n : Nat) (k : String)
    (st : moduleDepStat) (h : mapGet (processEdges [] (edges.take n)) k = some st)
    (_hpos : 0 < st.FanInCount + st.FanOutCount) :
    st.I = f64div (float64 st.FanOutCount) (float64 (st.FanInCount + st.FanOutCount))
    ∧ (st.FanInCount + st.FanOutCount ≤ 2 ^ 53 →
        st.I = f64round ((st.FanOutCount : ℚ) / ((st.FanInCount + st.FanOutCount : Int) : ℚ))
        ∧ |st.I - (st.FanOutCount : ℚ) / ((st.FanInCount + st.FanOutCount : Int) : ℚ)|
            ≤ (st.FanOutCount : ℚ) / ((st.FanInCount + st.FanOutCount : Int) : ℚ) / 2 ^ 53
        ∧ ∀ (M : Nat) (E : Int), M < 2 ^ 53 →
            (st.FanOutCount : ℚ) / ((st.FanInCount + st.FanOutCount : Int) : ℚ)
                = (M : ℚ) * (2 : ℚ) ^ E →
            st.I = (st.FanOutCount : ℚ) / ((st.FanInCount + st.FanOutCount : Int) : ℚ)) := by
  obtain ⟨⟨_, h2, h3⟩, h4, h5⟩ := MapOK_processEdges MapOK_nil (edges.take n) k st h
  have hI : st.I = f64div (float64 st.FanOutCount)
      (float64 (st.FanInCount + st.FanOutCount)) := by rw [h5, h2, h3]
  refine ⟨hI, fun hb => ?_⟩
  have hbn : st.FanIn.length + st.FanOut.length ≤ 2 ^ 53 := by
    rw [h2, h3] at hb
    exact_mod_cast hb
  have hround : st.I
      = f64round ((st.FanOutCount : ℚ) / ((st.FanInCount + st.FanOutCount : Int) : ℚ)) := by
    rw [h5, h2, h3]
    have := f64div_float64_eq st.FanOut.length (st.FanIn.length + st.FanOut.length)
      (by omega) hbn
    push_cast at this ⊢
    exact this
  refine ⟨hround, ?_, ?_⟩
  · rw [hround]
    rcases Nat.eq_zero_or_pos st.FanOut.length with h0 | hpos
    · rw [h3, h0]; simp [f64round_zero]
    · apply f64round_error
      rw [h2, h3]
      have h1 : (0 : ℚ) < (st.FanOut.length : ℚ) := by exact_mod_cast hpos
      have h2 : (0 : ℚ) < ((st.FanIn.length : ℚ) + (st.FanOut.length : ℚ)) := by positivity
      push_cast
      exact div_pos h1 h2
  · intro M E hM hME
    rw [hround, hME]
    rcases Nat.eq_zero_or_pos M with h0 | hpos
    · subst h0; simp [f64round_zero]
    · exact f64round_exact M E hpos hM

theorem instability_current_witness :
    (mapGet (processEdges [] ([("A", "B")].take 1)) "A" = some ⟨"A", [], ["B"], 0, 1, 1⟩
      ∧ mapGet (processEdges [] ([("A", "B")].take 1)) "B" = some ⟨"B", ["A"], [], 1, 0, 0⟩)
    ∧ (0 : Int) < 0 + 1
    ∧ (1 : ℚ) = f64div (float64 1) (float64 (0 + 1)) := by
  have hA : mapGet (processEdges [] ([("A", "B")].take 1)) "A"
      = some ⟨"A", [], ["B"], 0, 1, 1⟩ := by
    simp [processEdges, updateModuleDep, lookupOrNew, mapGet, mapSet, newModuleDepStat,
      moduleDepStat.UpdateFanOut, moduleDepStat.UpdateFanIn, moduleDepStat.UpdateIMetrics]
  have hB : mapGet (processEdges [] ([("A", "B")].take 1)) "B"
      = some ⟨"B", ["A"], [], 1, 0, 0⟩ := by
    simp [processEdges, updateModuleDep, lookupOrNew, mapGet, mapSet, newModuleDepStat,
      moduleDepStat.UpdateFanOut, moduleDepStat.UpdateFanIn, moduleDepStat.UpdateIMetrics]
  exact ⟨⟨hA, hB⟩, by decide, (instability_current _ 1 "A" _ hA (by decide)).1⟩



/-! ## Key set of the accumulated mapping -/

theorem mem_edgeNames (edges : List (String × String)) (k : String) :
    k ∈ edgeNames edges ↔ ∃ e ∈ edges, e.1 = k ∨ e.2 = k := by
  simp only [edgeNames, List.mem_flatMap, List.mem_cons, List.mem_singleton,
    List.not_mem_nil, or_false]
  constructor
  · rintro ⟨e, he, h⟩
    exact ⟨e, he, h.imp Eq.symm Eq.symm⟩
  · rintro ⟨e, he, h⟩
    exact ⟨e, he, h.imp Eq.symm Eq.symm⟩

theorem mapKeys_updateModuleDep_nodup (m : ModMap) (a b : String) (h : (mapKeys m).Nodup) :
    (mapKeys (updateModuleDep m a b)).Nodup := by
  unfold updateModuleDep
  exact mapKeys_mapSet_nodup _ _ _ (mapKeys_mapSet_nodup _ _ _ h)

theorem mem_mapKeys_updateModuleDep (m : ModMap) (a b k : String) :
    k ∈ mapKeys (updateModuleDep m a b) ↔ k ∈ mapKeys m ∨ k = a ∨ k = b := by
  simp only [mem_mapKeys_iff]
  by_cases hab : a = b
  · subst hab
    by_cases hka : a = k
    · subst hka
      simp [mapGet_updateModuleDep_self]
    · have hka' : ¬ k = a := fun e => hka e.symm
      simp [mapGet_updateModuleDep_other m hka hka, hka']
  · by_cases hka : a = k
    · subst hka
      simp [mapGet_updateModuleDep_src m hab]
    · by_cases hkb : b = k
      · subst hkb
        simp [mapGet_updateModuleDep_dst m hab]
      · have hka' : ¬ k = a := fun e => hka e.symm
        have hkb' : ¬ k = b := fun e => hkb e.symm
        simp [mapGet_updateModuleDep_other m hka hkb, hka', hkb']

theorem mapKeys_processEdges_nodup (m : ModMap) (edges : List (String × String))
    (h : (mapKeys m).Nodup) : (mapKeys (processEdges m edges)).Nodup := by
  induction edges generalizing m with
  | nil => exact h
  | cons e es ih => exact ih _ (mapKeys_updateModuleDep_nodup m e.1 e.2 h)

theorem mem_mapKeys_processEdges (m : ModMap) (edges : List (String × String)) (k : String) :
    k ∈ mapKeys (processEdges m edges) ↔ k ∈ mapKeys m ∨ k ∈ edgeNames edges := by
  induction edges generalizing m with
  | nil => simp [processEdges, edgeNames]
  | cons e es ih =>
    have := ih (updateModuleDep m e.1 e.2)
    simp only [processEdges, List.foldl_cons] at this ⊢
    rw [this, mem_mapKeys_updateModuleDep]
    simp only [edgeNames, List.flatMap_cons, List.mem_append, List.mem_cons,
      List.mem_singleton, List.not_mem_nil, or_false]
    tauto

/-- C10: for every edge sequence processed from the empty mapping, the keys
of the result are pairwise distinct, a name is a key exactly when it is the
source or the destination of some edge, a key has a record exactly when it
is listed, and the record stored under `k` has `Module = k`. -/
theorem keys_are_edge_names (edges : List (String × String)) :
    (mapKeys (processEdges [] edges)).Nodup
    ∧ (∀ k, k ∈ mapKeys (processEdges [] edges) ↔ ∃ e ∈ edges, e.1 = k ∨ e.2 = k)
    ∧ (∀ k, (mapGet (processEdges [] edges) k).isSome = true
          ↔ ∃ e ∈ edges, e.1 = k ∨ e.2 = k)
    ∧ (∀ k st, mapGet (processEdges [] edges) k = some st → st.Module = k) := by
  have hk : ∀ k, k ∈ mapKeys (processEdges [] edges) ↔ ∃ e ∈ edges, e.1 = k ∨ e.2 = k := by
    intro k
    rw [mem_mapKeys_processEdges, mem_edgeNames]
    simp [mapKeys]
  refine ⟨mapKeys_processEdges_nodup [] edges (by simp [mapKeys]), hk, ?_, ?_⟩
  · intro k
    rw [← mem_mapKeys_iff]
    exact hk k
  · intro k st h
    exact (MapOK_processEdges MapOK_nil edges k st h).1.1

theorem keys_are_edge_names_witness :
    mapKeys (processEdges [] [("A", "B"), ("C", "B")]) = ["A", "B", "C"]
    ∧ (mapGet (processEdges [] [("A", "B"), ("C", "B")]) "B").map (fun st => st.Module)
        = some "B" := by
  constructor
  · decide
  · decide


/-! ## The accumulated lists as a function of the whole edge sequence -/

theorem fanOutOf_updateModuleDep_ne (m : ModMap) {a b x : String} (h : a ≠ x) :
    fanOutOf (updateModuleDep m a b) x = fanOutOf m x := by
  by_cases hb : b = x
  · subst hb
    simp [fanOutOf, mapGet_updateModuleDep_dst m h, ← fanOutOf_eq_lookupOrNew,
      moduleDepStat.UpdateFanIn]
  · simp only [fanOutOf, mapGet_updateModuleDep_other m h hb]

theorem fanInOf_updateModuleDep_ne (m : ModMap) {a b x : String} (h : b ≠ x) :
    fanInOf (updateModuleDep m a b) x = fanInOf m x := by
  by_cases ha : a = x
  · subst ha
    have hab : a ≠ b := fun e => h e.symm
    simp [fanInOf, mapGet_updateModuleDep_src m hab, ← fanInOf_eq_lookupOrNew,
      moduleDepStat.UpdateFanOut]
  · simp only [fanInOf, mapGet_updateModuleDep_other m ha h]

theorem fanOutOf_processEdges (m : ModMap) (edges : List (String × String)) (x : String) :
    fanOutOf (processEdges m edges) x
      = fanOutOf m x ++ (edges.filter (fun e => e.1 = x)).map Prod.snd := by
  induction edges generalizing m with
  | nil => simp [processEdges]
  | cons e es ih =>
    have := ih (updateModuleDep m e.1 e.2)
    simp only [processEdges, List.foldl_cons] at this ⊢
    rw [this]
    by_cases h : e.1 = x
    · subst h
      rw [fanOutOf_updateModuleDep]
      simp
    · rw [fanOutOf_updateModuleDep_ne m h]
      simp [h]

theorem fanInOf_processEdges (m : ModMap) (edges : List (String × String)) (x : String) :
    fanInOf (processEdges m edges) x
      = fanInOf m x ++ (edges.filter (fun e => e.2 = x)).map Prod.fst := by
  induction edges generalizing m with
  | nil => simp [processEdges]
  | cons e es ih =>
    have := ih (updateModuleDep m e.1 e.2)
    simp only [processEdges, List.foldl_cons] at this ⊢
    rw [this]
    by_cases h : e.2 = x
    · subst h
      rw [fanInOf_updateModuleDep]
      simp
    · rw [fanInOf_updateModuleDep_ne m h]
      simp [h]

/-- C13: after processing the edge sequence `edges` from the empty mapping,
the record of every name `x` in the result has as `FanOut` the destinations
of the edges with source `x`, and as `FanIn` the sources of the edges with
destination `x`, both in arrival order with repeats kept. -/
theorem lists_follow_stream (edges : List (String × String)) (x : String)
    (st : moduleDepStat) (h : mapGet (processEdges [] edges) x = some st) :
    st.FanOut = (edges.filter (fun e => e.1 = x)).map Prod.snd
    ∧ st.FanIn = (edges.filter (fun e => e.2 = x)).map Prod.fst := by
  have h1 := fanOutOf_processEdges [] edges x
  have h2 := fanInOf_processEdges [] edges x
  simp only [fanOutOf, fanInOf, h, mapGet, List.nil_append] at h1 h2
  exact ⟨h1, h2⟩

theorem lists_follow_stream_witness :
    mapGet (processEdges [] [("A", "B"), ("A", "B")]) "A"
        = some ⟨"A", [], ["B", "B"], 0, 2, 1⟩
    ∧ (["B", "B"] = ([("A", "B"), ("A", "B")].filter (fun e => e.1 = "A")).map Prod.snd
      ∧ ([] : depList)
          = ([("A", "B"), ("A", "B")].filter (fun e => e.2 = "A")).map Prod.fst) := by
  have h : mapGet (processEdges [] [("A", "B"), ("A", "B")]) "A"
      = some ⟨"A", [], ["B", "B"], 0, 2, 1⟩ := by
    simp [processEdges, updateModuleDep, lookupOrNew, mapGet, mapSet, newModuleDepStat,
      moduleDepStat.UpdateFanOut, moduleDepStat.UpdateFanIn, moduleDepStat.UpdateIMetrics]
  exact ⟨h, lists_follow_stream _ "A" _ h⟩

/-! ## Self-loops -/

/-- C14: `updateModuleDep` on the empty mapping with the edge `(a, a)` gives
the mapping with the single key `a`, whose record has `FanOut = [a]`,
`FanIn = [a]`, both counts 1 and instability `1/2`; and on any mapping the
edge `(a, a)` appends `a` to the fan-out and to the fan-in of the one record
of `a`. -/
theorem self_loop (a : String) :
    updateModuleDep [] a a
        = [(a, { Module := a, FanIn := [a], FanOut := [a], FanInCount := 1,
                 FanOutCount := 1, I := 1 / 2 })]
    ∧ ∀ m : ModMap, ∃ st, mapGet (updateModuleDep m a a) a = some st
        ∧ st.FanOut = fanOutOf m a ++ [a] ∧ st.FanIn = fanInOf m a ++ [a] := by
  constructor
  · simp [updateModuleDep, lookupOrNew, mapGet, mapSet, newModuleDepStat,
      moduleDepStat.UpdateFanOut, moduleDepStat.UpdateFanIn, moduleDepStat.UpdateIMetrics]
  · intro m
    refine ⟨_, mapGet_updateModuleDep_self m a, ?_, ?_⟩
    · simp [fanOutOf_eq_lookupOrNew, moduleDepStat.UpdateFanOut, moduleDepStat.UpdateFanIn]
    · simp [fanInOf_eq_lookupOrNew, moduleDepStat.UpdateFanOut, moduleDepStat.UpdateFanIn]

/-! ## Range of the instability -/

theorem UpdateIMetrics_of_not_guard (s : moduleDepStat) (h : ¬ guardTaken s) :
    s.UpdateIMetrics
      = { s with I := f64div (float64 (s.FanOut.length : Int))
                        (float64 ((s.FanIn.length : Int) + (s.FanOut.length : Int))) } := by
  unfold guardTaken at h
  simp only [moduleDepStat.UpdateIMetrics, if_neg h]

theorem UpdateIMetrics_of_guard (s : moduleDepStat) (h : guardTaken s) :
    s.UpdateIMetrics = s := by
  unfold guardTaken at h
  simp only [moduleDepStat.UpdateIMetrics, if_pos h]

/-- C16: every record of a mapping reached from the empty mapping has
`FanInCount + FanOutCount >= 1`; and in `updateModuleDep`, on any mapping,
each of the two records handed to `UpdateIMetrics` has
`len(FanIn) + len(FanOut) >= 1`, so the early return is not taken and the
denominator is not zero, as a number and as converted to `float64`. -/
theorem guard_unreachable :
    (∀ (edges : List (String × String)) (k : String) (st : moduleDepStat),
        mapGet (processEdges [] edges) k = some st → 1 ≤ st.FanInCount + st.FanOutCount)
    ∧ ∀ (m : ModMap) (src dst : String),
        updateModuleDep m src dst
            = mapSet (mapSet m src (firstMetricsArg m src dst).UpdateIMetrics) dst
                (secondMetricsArg m src dst).UpdateIMetrics
        ∧ 1 ≤ (firstMetricsArg m src dst).FanIn.length
              + (firstMetricsArg m src dst).FanOut.length
        ∧ 1 ≤ (secondMetricsArg m src dst).FanIn.length
              + (secondMetricsArg m src dst).FanOut.length
        ∧ ¬ guardTaken (firstMetricsArg m src dst)
        ∧ ¬ guardTaken (secondMetricsArg m src dst)
        ∧ (((firstMetricsArg m src dst).FanIn.length
              + (firstMetricsArg m src dst).FanOut.length : Nat) : ℚ) ≠ 0
        ∧ (((secondMetricsArg m src dst).FanIn.length
              + (secondMetricsArg m src dst).FanOut.length : Nat) : ℚ) ≠ 0
        ∧ float64 (((firstMetricsArg m src dst).FanIn.length : Int)
              + ((firstMetricsArg m src dst).FanOut.length : Int)) ≠ 0
        ∧ float64 (((secondMetricsArg m src dst).FanIn.length : Int)
              + ((secondMetricsArg m src dst).FanOut.length : Int)) ≠ 0 := by
  constructor
  · intro edges k st h
    obtain ⟨⟨_, h2, h3⟩, hpos, _⟩ := MapOK_processEdges MapOK_nil edges k st h
    rw [h2, h3]
    exact_mod_cast hpos
  · intro m src dst
    have h1 : 1 ≤ (firstMetricsArg m src dst).FanIn.length
        + (firstMetricsArg m src dst).FanOut.length := by
      simp only [firstMetricsArg, moduleDepStat.UpdateFanOut, List.length_append,
        List.length_singleton]
      omega
    have h2 : 1 ≤ (secondMetricsArg m src dst).FanIn.length
        + (secondMetricsArg m src dst).FanOut.length := by
      simp only [secondMetricsArg, moduleDepStat.UpdateFanIn, List.length_append,
        List.length_singleton]
      omega
    refine ⟨rfl, h1, h2, ?_, ?_, ?_, ?_, ?_, ?_⟩
    · unfold guardTaken; omega
    · unfold guardTaken; omega
    · exact_mod_cast (by omega : (firstMetricsArg m src dst).FanIn.length
        + (firstMetricsArg m src dst).FanOut.length ≠ 0)
    · exact_mod_cast (by omega : (secondMetricsArg m src dst).FanIn.length
        + (secondMetricsArg m src dst).FanOut.length ≠ 0)
    · have := float64_nat_pos ((firstMetricsArg m src dst).FanIn.length
        + (firstMetricsArg m src dst).FanOut.length) (by omega)
      push_cast at this
      exact ne_of_gt this
    · have := float64_nat_pos ((secondMetricsArg m src dst).FanIn.length
        + (secondMetricsArg m src dst).FanOut.length) (by omega)
      push_cast at this
      exact ne_of_gt this

theorem guard_unreachable_witness :
    mapGet (processEdges [] [("A", "A")]) "A" = some ⟨"A", ["A"], ["A"], 1, 1, 1 / 2⟩
    ∧ (1 : Int) ≤ 1 + 1 := by
  have h : mapGet (processEdges [] [("A", "A")]) "A"
      = some ⟨"A", ["A"], ["A"], 1, 1, 1 / 2⟩ := by
    simp [processEdges, updateModuleDep, lookupOrNew, mapGet, mapSet, newModuleDepStat,
      moduleDepStat.UpdateFanOut, moduleDepStat.UpdateFanIn, moduleDepStat.UpdateIMetrics]
  exact ⟨h, guard_unreachable.1 _ "A" _ h⟩

/-! ## `UpdateIMetrics` on an arbitrary record -/

/-- C17 as stated fails: with cached counts `0, 0` but one name in `FanIn`
the method overwrites `I = 5` by `0`, and with cached counts `1, 1` but
empty lists it leaves `I = 5` where the counts give `1/2`. -/
theorem UpdateIMetrics_reads_lengths :
    ((⟨"m", ["x"], [], 0, 0, 5⟩ : moduleDepStat).FanInCount
        + (⟨"m", ["x"], [], 0, 0, 5⟩ : moduleDepStat).FanOutCount = 0
      ∧ (⟨"m", ["x"], [], 0, 0, 5⟩ : moduleDepStat).UpdateIMetrics.I = 0
      ∧ (⟨"m", ["x"], [], 0, 0, 5⟩ : moduleDepStat).UpdateIMetrics.I
          ≠ (⟨"m", ["x"], [], 0, 0, 5⟩ : moduleDepStat).I)
    ∧ ((⟨"m", [], [], 1, 1, 5⟩ : moduleDepStat).FanInCount
        + (⟨"m", [], [], 1, 1, 5⟩ : moduleDepStat).FanOutCount ≠ 0
      ∧ (⟨"m", [], [], 1, 1, 5⟩ : moduleDepStat).UpdateIMetrics.I = 5
      ∧ (⟨"m", [], [], 1, 1, 5⟩ : moduleDepStat).UpdateIMetrics.I
          ≠ (((⟨"m", [], [], 1, 1, 5⟩ : moduleDepStat).FanOutCount : Int) : ℚ)
            / ((((⟨"m", [], [], 1, 1, 5⟩ : moduleDepStat).FanInCount
                + (⟨"m", [], [], 1, 1, 5⟩ : moduleDepStat).FanOutCount : Int)) : ℚ)) := by
  refine ⟨⟨by decide, ?_, ?_⟩, by decide, ?_, ?_⟩
  · simp [moduleDepStat.UpdateIMetrics]
  · simp [moduleDepStat.UpdateIMetrics]
  · simp [moduleDepStat.UpdateIMetrics]
  · simp [moduleDepStat.UpdateIMetrics]
    norm_num

/-- C17, amended: `UpdateIMetrics` is a function of the lengths of the two
lists: when `len(FanIn) + len(FanOut) = 0` it returns the record unchanged,
otherwise it sets `I` to the `float64` quotient
`float64(len(FanOut)) / float64(len(FanIn) + len(FanOut))`; it changes no
field other than `I`; and on a record whose cached counts equal the lengths
this is the rule stated in the counts, with the `float64` quotient. -/
theorem UpdateIMetrics_spec (s : moduleDepStat) :
    (s.FanIn.length + s.FanOut.length = 0 → s.UpdateIMetrics = s)
    ∧ (s.FanIn.length + s.FanOut.length ≠ 0 →
        s.UpdateIMetrics.I
          = f64div (float64 (s.FanOut.length : Int))
              (float64 ((s.FanIn.length : Int) + (s.FanOut.length : Int))))
    ∧ (s.UpdateIMetrics.Module = s.Module ∧ s.UpdateIMetrics.FanIn = s.FanIn
        ∧ s.UpdateIMetrics.FanOut = s.FanOut
        ∧ s.UpdateIMetrics.FanInCount = s.FanInCount
        ∧ s.UpdateIMetrics.FanOutCount = s.FanOutCount)
    ∧ (s.FanInCount = (s.FanIn.length : Int) → s.FanOutCount = (s.FanOut.length : Int) →
        (s.FanInCount + s.FanOutCount = 0 → s.UpdateIMetrics.I = s.I)
        ∧ (s.FanInCount + s.FanOutCount ≠ 0 →
            s.UpdateIMetrics.I
              = f64div (float64 s.FanOutCount) (float64 (s.FanInCount + s.FanOutCount)))) := by
  have hzero : s.FanIn.length + s.FanOut.length = 0 → s.UpdateIMetrics = s := by
    intro h
    apply UpdateIMetrics_of_guard
    unfold guardTaken
    omega
  have hpos : s.FanIn.length + s.FanOut.length ≠ 0 →
      s.UpdateIMetrics.I
        = f64div (float64 (s.FanOut.length : Int))
            (float64 ((s.FanIn.length : Int) + (s.FanOut.length : Int))) := by
    intro h
    rw [UpdateIMetrics_of_not_guard s (by unfold guardTaken; omega)]
  refine ⟨hzero, hpos, ⟨by simp, by simp, by simp, by simp, by simp⟩, ?_⟩
  intro h1 h2
  constructor
  · intro h
    rw [hzero (by omega)]
  · intro h
    rw [hpos (by omega), h1, h2]

/-! ## Frame of one update -/

/-- C18: `updateModuleDep m a b` leaves the record of every key other than
`a` and `b` unchanged, removes no key and adds at most `a` and `b`; when
`a != b` it leaves the `Module` field and the fan-in (list and count) of the
record of `a` unchanged, and the `Module` field and the fan-out (list and
count) of the record of `b` unchanged. -/
theorem updateModuleDep_frame (m : ModMap) (a b : String) :
    (∀ k, k ≠ a → k ≠ b → mapGet (updateModuleDep m a b) k = mapGet m k)
    ∧ (∀ k, k ∈ mapKeys m → k ∈ mapKeys (updateModuleDep m a b))
    ∧ (∀ k, k ∈ mapKeys (updateModuleDep m a b) → k ∈ mapKeys m ∨ k = a ∨ k = b)
    ∧ (a ≠ b →
        fanInOf (updateModuleDep m a b) a = fanInOf m a
        ∧ fanOutOf (updateModuleDep m a b) b = fanOutOf m b
        ∧ (∀ st, mapGet m a = some st →
            ∃ st', mapGet (updateModuleDep m a b) a = some st'
              ∧ st'.Module = st.Module ∧ st'.FanIn = st.FanIn
              ∧ st'.FanInCount = st.FanInCount)
        ∧ (∀ st, mapGet m b = some st →
            ∃ st', mapGet (updateModuleDep m a b) b = some st'
              ∧ st'.Module = st.Module ∧ st'.FanOut = st.FanOut
              ∧ st'.FanOutCount = st.FanOutCount)) := by
  refine ⟨?_, ?_, ?_, ?_⟩
  · intro k ha hb
    exact mapGet_updateModuleDep_other m (Ne.symm ha) (Ne.symm hb)
  · intro k hk
    rw [mem_mapKeys_updateModuleDep]
    exact Or.inl hk
  · intro k hk
    exact (mem_mapKeys_updateModuleDep m a b k).mp hk
  · intro hab
    refine ⟨fanInOf_updateModuleDep_ne m (Ne.symm hab), fanOutOf_updateModuleDep_ne m hab,
      ?_, ?_⟩
    · intro st hst
      refine ⟨_, mapGet_updateModuleDep_src m hab, ?_, ?_, ?_⟩ <;>
        simp [lookupOrNew, hst, moduleDepStat.UpdateFanOut]
    · intro st hst
      refine ⟨_, mapGet_updateModuleDep_dst m hab, ?_, ?_, ?_⟩ <;>
        simp [lookupOrNew, hst, moduleDepStat.UpdateFanIn]

namespace GoSort

variable {α : Type}

theorem length_swapAt (l : List α) (i j : Nat) : (swapAt l i j).length = l.length := by
  unfold swapAt
  split <;> simp

theorem cons_set_perm (t : List α) (a : α) (j : Nat) (h : j < t.length) :
    (t[j] :: t.set j a).Perm (a :: t) := by
  induction t generalizing j with
  | nil => simp at h
  | cons b t ih =>
    cases j with
    | zero => simpa using List.Perm.swap a b t
    | succ k =>
      have hk : k < t.length := by simpa using h
      have h1 := ih k hk
      simp only [List.getElem_cons_succ, List.set_cons_succ]
      exact (List.Perm.swap b t[k] (t.set k a)).trans
        ((h1.cons b).trans (List.Perm.swap a b t))

theorem set_set_perm_aux (l : List α) (i j : Nat) (hi : i < l.length) (hj : j < l.length) :
    ((l.set i l[j]).set j l[i]).Perm l := by
  induction l generalizing i j with
  | nil => simp at hi
  | cons a t ih =>
    cases i with
    | zero =>
      cases j with
      | zero => simp
      | succ k =>
        have hk : k < t.length := by simpa using hj
        simpa using cons_set_perm t a k hk
    | succ i' =>
      cases j with
      | zero =>
        have hk : i' < t.length := by simpa using hi
        simpa using cons_set_perm t a i' hk
      | succ k =>
        have hi' : i' < t.length := by simpa using hi
        have hk : k < t.length := by simpa using hj
        simpa using ih i' k hi' hk

theorem swapAt_perm (l : List α) (i j : Nat) : (swapAt l i j).Perm l := by
  unfold swapAt
  split
  · rename_i x y hx hy
    obtain ⟨hi, rfl⟩ := List.getElem?_eq_some_iff.mp hx
    obtain ⟨hj, rfl⟩ := List.getElem?_eq_some_iff.mp hy
    exact set_set_perm_aux l i j hi hj
  · exact List.Perm.refl l

theorem nth_swapAt [Inhabited α] (l : List α) {i j : Nat} (hi : i < l.length)
    (hj : j < l.length) (k : Nat) :
    nth (swapAt l i j) k = if k = j then nth l i else if k = i then nth l j else nth l k := by
  unfold swapAt nth
  rw [List.getElem?_eq_getElem hi, List.getElem?_eq_getElem hj]
  simp only [List.getD_eq_getElem?_getD, List.getElem?_set]
  by_cases h1 : k = j
  · subst h1
    simp [hi, hj]
  · by_cases h2 : k = i
    · subst h2
      simp [hi, hj, h1, Ne.symm h1]
    · simp [h1, h2, Ne.symm h1, Ne.symm h2]

theorem lessAt_eq [Inhabited α] (less : α → α → Bool) (l : List α) {i j : Nat}
    (hi : i < l.length) (hj : j < l.length) :
    lessAt less l i j = less (nth l i) (nth l j) := by
  unfold lessAt nth
  rw [List.getElem?_eq_getElem hi, List.getElem?_eq_getElem hj]
  simp [List.getD_eq_getElem?_getD, hi, hj]

theorem less_refl (less : α → α → Bool)
    (htot : ∀ x y, less x y = true ∨ less y x = true) (x : α) : less x x = true := by
  rcases htot x x with h | h <;> exact h

theorem not_less_imp (less : α → α → Bool)
    (htot : ∀ x y, less x y = true ∨ less y x = true) {x y : α}
    (h : ¬ less x y = true) : less y x = true := by
  rcases htot x y with h' | h'
  · exact absurd h' h
  · exact h'

/-- The loop of `maxDepth` ends before its iteration bound is used up: any
bound of at least `i` gives the same result. -/
theorem maxDepthLoop_fuel (f1 f2 i depth : Nat) (h1 : i ≤ f1) (h2 : i ≤ f2) :
    maxDepthLoop f1 i depth = maxDepthLoop f2 i depth := by
  induction f1 generalizing f2 i depth with
  | zero =>
    have : i = 0 := by omega
    subst this
    cases f2 <;> simp [maxDepthLoop]
  | succ f1 ih =>
    cases f2 with
    | zero =>
      have : i = 0 := by omega
      subst this
      simp [maxDepthLoop]
    | succ f2 =>
      simp only [maxDepthLoop]
      split
      · have h : i >>> 1 = i / 2 := by simp [Nat.shiftRight_eq_div_pow]
        exact ih f2 (i >>> 1) (depth + 1) (by omega) (by omega)
      · rfl

section within

variable [Inhabited α]

theorem Within.refl (a b : Nat) (l : List α) : Within a b l l :=
  ⟨rfl, List.Perm.refl l, fun _ _ => rfl, fun k h1 h2 => ⟨k, h1, h2, rfl⟩⟩

theorem Within.trans {a b : Nat} {l1 l2 l3 : List α} (h1 : Within a b l1 l2)
    (h2 : Within a b l2 l3) : Within a b l1 l3 := by
  refine ⟨h2.len.trans h1.len, h2.perm.trans h1.perm, ?_, ?_⟩
  · intro k hk
    rw [h2.out k hk, h1.out k hk]
  · intro k hk1 hk2
    obtain ⟨k', hk1', hk2', e⟩ := h2.src k hk1 hk2
    obtain ⟨k'', hk1'', hk2'', e'⟩ := h1.src k' hk1' hk2'
    exact ⟨k'', hk1'', hk2'', e.trans e'⟩

theorem Within.swap {a b i j : Nat} (l : List α) (hai : a ≤ i) (hib : i < b) (haj : a ≤ j)
    (hjb : j < b) (hb : b ≤ l.length) : Within a b l (swapAt l i j) := by
  have hi : i < l.length := by omega
  have hj : j < l.length := by omega
  refine ⟨length_swapAt l i j, swapAt_perm l i j, ?_, ?_⟩
  · intro k hk
    rw [nth_swapAt l hi hj]
    have h1 : k ≠ j := by omega
    have h2 : k ≠ i := by omega
    simp [h1, h2]
  · intro k hk1 hk2
    rw [nth_swapAt l hi hj]
    by_cases h1 : k = j
    · exact ⟨i, hai, hib, by simp [h1]⟩
    · by_cases h2 : k = i
      · subst h2
        exact ⟨j, haj, hjb, by simp [h1]⟩
      · exact ⟨k, hk1, hk2, by simp [h1, h2]⟩

theorem Within.mono {a b a' b' : Nat} {l1 l2 : List α} (h : Within a b l1 l2) (ha : a' ≤ a)
    (hb : b ≤ b') : Within a' b' l1 l2 := by
  refine ⟨h.len, h.perm, ?_, ?_⟩
  · intro k hk
    exact h.out k (by omega)
  · intro k hk1 hk2
    by_cases hin : a ≤ k ∧ k < b
    · obtain ⟨k', h1, h2, e⟩ := h.src k hin.1 hin.2
      exact ⟨k', by omega, by omega, e⟩
    · exact ⟨k, hk1, hk2, h.out k (by omega)⟩

theorem Within.forall {a b : Nat} {l1 l2 : List α} (h : Within a b l1 l2) (P : α → Prop)
    (hP : ∀ k, a ≤ k → k < b → P (nth l1 k)) : ∀ k, a ≤ k → k < b → P (nth l2 k) := by
  intro k hk1 hk2
  obtain ⟨k', h1, h2, e⟩ := h.src k hk1 hk2
  rw [e]
  exact hP k' h1 h2

/-! ### `insertionSort` -/

theorem insertionInner_spec (less : α → α → Bool)
    (htot : ∀ x y, less x y = true ∨ less y x = true)
    (htr : ∀ x y z, less x y = true → less y z = true → less x z = true)
    (a i : Nat) (j : Nat) (l : List α) (haj : a ≤ j) (hji : j ≤ i) (hi : i < l.length)
    (h1 : ∀ p q, a ≤ p → p < q → q ≤ i → p ≠ j → q ≠ j → less (nth l p) (nth l q) = true)
    (h2 : ∀ q, j < q → q ≤ i → less (nth l j) (nth l q) = true) :
    Within a (i + 1) l (insertionInner less a j l)
      ∧ SortedSeg less (insertionInner less a j l) a (i + 1) := by
  induction j generalizing l with
  | zero =>
    refine ⟨Within.refl _ _ _, ?_⟩
    intro p q hp hpq hq
    simp only [insertionInner]
    by_cases hp0 : p = 0
    · subst hp0
      exact h2 q hpq (by omega)
    · exact h1 p q hp hpq (by omega) hp0 (by omega)
  | succ j ih =>
    simp only [insertionInner]
    have hj1 : j + 1 < l.length := by omega
    have hj0 : j < l.length := by omega
    rw [lessAt_eq less l hj1 hj0]
    by_cases hg : (decide (j + 1 > a) && less (nth l (j + 1)) (nth l j)) = true
    · rw [if_pos hg]
      simp only [Bool.and_eq_true, decide_eq_true_eq] at hg
      obtain ⟨hgt, hless⟩ := hg
      have hw : Within a (i + 1) l (swapAt l (j + 1) j) :=
        Within.swap l (by omega) (by omega) (by omega) (by omega) (by omega)
      have hlen : i < (swapAt l (j + 1) j).length := by rw [length_swapAt]; exact hi
      have key := ih (swapAt l (j + 1) j) (by omega) (by omega) hlen ?_ ?_
      · exact ⟨hw.trans key.1, key.2⟩
      · intro p q hp hpq hq hpj hqj
        rw [nth_swapAt l hj1 hj0, nth_swapAt l hj1 hj0]
        simp only [hpj, hqj, if_false]
        by_cases hp1 : p = j + 1
        · have hq1 : q ≠ j + 1 := by omega
          simp only [hp1, hq1, if_true, if_false]
          exact h1 j q (by omega) (by omega) hq (by omega) hq1
        · by_cases hq1 : q = j + 1
          · simp only [hp1, hq1, if_true, if_false]
            exact h1 p j hp (by omega) (by omega) hp1 (by omega)
          · simp only [hp1, hq1, if_false]
            exact h1 p q hp hpq hq hp1 hq1
      · intro q hjq hq
        rw [nth_swapAt l hj1 hj0, nth_swapAt l hj1 hj0]
        simp only [if_true]
        by_cases hq1 : q = j + 1
        · have : q ≠ j := by omega
          simp only [hq1, this, if_true, if_false]
          simpa using hless
        · have : q ≠ j := by omega
          simp only [hq1, this, if_false]
          exact h2 q (by omega) hq
    · rw [if_neg hg]
      refine ⟨Within.refl _ _ _, ?_⟩
      simp only [Bool.and_eq_true, decide_eq_true_eq, not_and] at hg
      intro p q hp hpq hq
      by_cases hp1 : p = j + 1
      · subst hp1
        exact h2 q hpq (by omega)
      · by_cases hq1 : q = j + 1
        · subst hq1
          have hgt : j + 1 > a := by omega
          have hnl := hg hgt
          have hjl : less (nth l j) (nth l (j + 1)) = true := by
            rcases htot (nth l j) (nth l (j + 1)) with h | h
            · exact h
            · exact absurd h hnl
          by_cases hpj : p = j
          · subst hpj
            exact hjl
          · exact htr _ _ _ (h1 p j hp (by omega) (by omega) hp1 (by omega)) hjl
        · exact h1 p q hp hpq (by omega) hp1 hq1



theorem insertionOuter_spec (less : α → α → Bool)
    (htot : ∀ x y, less x y = true ∨ less y x = true)
    (htr : ∀ x y z, less x y = true → less y z = true → less x z = true)
    (a b : Nat) (fuel i : Nat) (l : List α) (hai : a < i) (hib : i ≤ b) (hb : b ≤ l.length)
    (hfuel : b ≤ i + fuel) (hs : SortedSeg less l a i) :
    Within a b l (insertionOuter less a b fuel i l)
      ∧ SortedSeg less (insertionOuter less a b fuel i l) a b := by
  induction fuel generalizing i l with
  | zero =>
    have : i = b := by omega
    subst this
    exact ⟨Within.refl _ _ _, hs⟩
  | succ fuel ih =>
    simp only [insertionOuter]
    by_cases hlt : i < b
    · rw [if_pos hlt]
      have key := insertionInner_spec less htot htr a i i l (by omega) (Nat.le_refl i)
        (by omega) (fun p q hp hpq hq _ hqi => hs p q hp hpq (by omega))
        (fun q hq hq' => absurd hq (by omega))
      have hlen := key.1.len
      have key2 := ih (i + 1) (insertionInner less a i l) (by omega) (by omega)
        (by rw [hlen]; exact hb) (by omega) key.2
      exact ⟨(key.1.mono (Nat.le_refl a) (by omega)).trans key2.1, key2.2⟩
    · rw [if_neg hlt]
      have : i = b := by omega
      subst this
      exact ⟨Within.refl _ _ _, hs⟩

theorem insertionSort_spec (less : α → α → Bool)
    (htot : ∀ x y, less x y = true ∨ less y x = true)
    (htr : ∀ x y z, less x y = true → less y z = true → less x z = true)
    (l : List α) (a b : Nat) (hab : a ≤ b) (hb : b ≤ l.length) :
    Within a b l (insertionSort less l a b) ∧ SortedSeg less (insertionSort less l a b) a b := by
  unfold insertionSort
  by_cases h : a = b
  · subst h
    simp only [Nat.sub_self, insertionOuter]
    exact ⟨Within.refl _ _ _, fun i j h1 h2 h3 => absurd h3 (by omega)⟩
  · exact insertionOuter_spec less htot htr a b (b - a) (a + 1) l (by omega) (by omega) hb
      (by omega) (fun i j h1 h2 h3 => absurd h3 (by omega))

/-! ### `heapSort` -/

theorem siftDownLoop_spec (less : α → α → Bool)
    (htot : ∀ x y, less x y = true ∨ less y x = true)
    (htr : ∀ x y z, less x y = true → less y z = true → less x z = true)
    (hi first lo : Nat) (fuel root : Nat) (l : List α) (hlo : lo ≤ root)
    (hlen : first + hi ≤ l.length) (hfuel : hi ≤ root + fuel)
    (hA : ∀ r c, lo ≤ r → r ≠ root → c < hi → (c = 2 * r + 1 ∨ c = 2 * r + 2) →
      less (nth l (first + c)) (nth l (first + r)) = true)
    (hB : ∀ p c, lo ≤ p → (root = 2 * p + 1 ∨ root = 2 * p + 2) → c < hi →
      (c = 2 * root + 1 ∨ c = 2 * root + 2) →
      less (nth l (first + c)) (nth l (first + p)) = true) :
    Within (first + lo) (first + hi) l (siftDownLoop less hi first fuel root l)
      ∧ HeapFrom less (siftDownLoop less hi first fuel root l) first lo hi := by
  induction fuel generalizing root l with
  | zero =>
    refine ⟨Within.refl _ _ _, ?_⟩
    intro r c hr hc hrc
    simp only [siftDownLoop]
    by_cases hrr : r = root
    · omega
    · exact hA r c hr hrr hc hrc
  | succ fuel ih =>
    simp only [siftDownLoop]
    by_cases hch : 2 * root + 1 ≥ hi
    · rw [if_pos hch]
      refine ⟨Within.refl _ _ _, ?_⟩
      intro r c hr hc hrc
      by_cases hrr : r = root
      · omega
      · exact hA r c hr hrr hc hrc
    · rw [if_neg hch]
      have hc0 : first + (2 * root + 1) < l.length := by omega
      have hr0 : first + root < l.length := by omega
      -- the selected child
      obtain ⟨ch, hchdef, hchlt, hchchild, hchmax⟩ :
          ∃ ch, ch = (if (decide (2 * root + 1 + 1 < hi)
              && lessAt less l (first + (2 * root + 1)) (first + (2 * root + 1) + 1)) = true
              then 2 * root + 1 + 1 else 2 * root + 1)
            ∧ ch < hi ∧ (ch = 2 * root + 1 ∨ ch = 2 * root + 2)
            ∧ ∀ c, c < hi → (c = 2 * root + 1 ∨ c = 2 * root + 2) →
                less (nth l (first + c)) (nth l (first + ch)) = true := by
        by_cases hsel : (decide (2 * root + 1 + 1 < hi)
            && lessAt less l (first + (2 * root + 1)) (first + (2 * root + 1) + 1)) = true
        · refine ⟨2 * root + 2, by rw [if_pos hsel], ?_, Or.inr rfl, ?_⟩
          · simp only [Bool.and_eq_true, decide_eq_true_eq] at hsel
            omega
          · simp only [Bool.and_eq_true, decide_eq_true_eq] at hsel
            obtain ⟨h2, h3⟩ := hsel
            rw [lessAt_eq less l hc0 (by omega)] at h3
            intro c hc hcc
            rcases hcc with rfl | rfl
            · exact h3
            · exact less_refl less htot _
        · refine ⟨2 * root + 1, by rw [if_neg hsel], by omega, Or.inl rfl, ?_⟩
          intro c hc hcc
          rcases hcc with rfl | rfl
          · exact less_refl less htot _
          · simp only [Bool.and_eq_true, decide_eq_true_eq, not_and] at hsel
            have h3 := hsel (by omega)
            rw [lessAt_eq less l hc0 (by omega)] at h3
            rcases htot (nth l (first + (2 * root + 1))) (nth l (first + (2 * root + 1) + 1))
              with h | h
            · exact absurd h h3
            · exact h
      rw [← hchdef]
      have hch0 : first + ch < l.length := by omega
      rw [lessAt_eq less l hr0 hch0]
      by_cases hstop : (!less (nth l (first + root)) (nth l (first + ch))) = true
      · rw [if_pos hstop]
        refine ⟨Within.refl _ _ _, ?_⟩
        simp only [Bool.not_eq_true', ] at hstop
        have hle : less (nth l (first + ch)) (nth l (first + root)) = true := by
          rcases htot (nth l (first + ch)) (nth l (first + root)) with h | h
          · exact h
          · rw [hstop] at h; exact absurd h (by simp)
        intro r c hr hc hrc
        by_cases hrr : r = root
        · subst hrr
          exact htr _ _ _ (hchmax c hc hrc) hle
        · exact hA r c hr hrr hc hrc
      · rw [if_neg hstop]
        simp only [Bool.not_eq_true', Bool.not_eq_false] at hstop
        have hw : Within (first + lo) (first + hi) l (swapAt l (first + root) (first + ch)) :=
          Within.swap l (by omega) (by omega) (by omega) (by omega) hlen
        have hlen' : first + hi ≤ (swapAt l (first + root) (first + ch)).length := by
          rw [length_swapAt]; exact hlen
        have key := ih ch (swapAt l (first + root) (first + ch)) (by omega) hlen' (by omega)
          ?_ ?_
        · exact ⟨hw.trans key.1, key.2⟩
        · intro r c hr hrch hc hrc
          rw [nth_swapAt l hr0 hch0, nth_swapAt l hr0 hch0]
          by_cases hrr : r = root
          · subst hrr
            have e1 : first + r ≠ first + ch := by omega
            simp only [e1, if_false, if_true]
            by_cases hcc : c = ch
            · subst hcc
              simp only [if_true]
              exact hstop
            · have e2 : first + c ≠ first + ch := by omega
              have e3 : first + c ≠ first + r := by omega
              simp only [e2, e3, if_false]
              exact hchmax c hc hrc
          · have e1 : first + r ≠ first + ch := by omega
            have e2 : first + r ≠ first + root := by omega
            have e3 : first + c ≠ first + ch := by omega
            simp only [e1, e2, e3, if_false]
            by_cases hcr : c = root
            · subst hcr
              simp only [if_true]
              exact hB r ch hr hrc hchlt hchchild
            · have e4 : first + c ≠ first + root := by omega
              simp only [e4, if_false]
              exact hA r c hr hrr hc hrc
        · intro p c hp hpch hc hcch
          have hpr : p = root := by omega
          subst hpr
          rw [nth_swapAt l hr0 hch0, nth_swapAt l hr0 hch0]
          have e1 : first + c ≠ first + ch := by omega
          have e2 : first + c ≠ first + p := by omega
          have e3 : first + p ≠ first + ch := by omega
          simp only [e1, e2, e3, if_false, if_true]
          exact hA ch c (by omega) (by omega) hc hcch



theorem siftDown_spec (less : α → α → Bool)
    (htot : ∀ x y, less x y = true ∨ less y x = true)
    (htr : ∀ x y z, less x y = true → less y z = true → less x z = true)
    (l : List α) (lo hi first : Nat) (hlen : first + hi ≤ l.length)
    (hA : HeapFrom less l first (lo + 1) hi) :
    Within (first + lo) (first + hi) l (siftDown less l lo hi first)
      ∧ HeapFrom less (siftDown less l lo hi first) first lo hi := by
  unfold siftDown
  refine siftDownLoop_spec less htot htr hi first lo hi lo l (Nat.le_refl lo) hlen (by omega)
    ?_ ?_
  · intro r c hr hrr hc hrc
    exact hA r c (by omega) hc hrc
  · intro p c hp hpc
    omega

theorem heapBuild_spec (less : α → α → Bool)
    (htot : ∀ x y, less x y = true ∨ less y x = true)
    (htr : ∀ x y z, less x y = true → less y z = true → less x z = true)
    (hi first : Nat) (n : Nat) (l : List α) (hlen : first + hi ≤ l.length)
    (hH : HeapFrom less l first n hi) :
    Within first (first + hi) l (heapBuild less hi first n l)
      ∧ HeapFrom less (heapBuild less hi first n l) first 0 hi := by
  induction n generalizing l with
  | zero => exact ⟨Within.refl _ _ _, hH⟩
  | succ i ih =>
    simp only [heapBuild]
    have key := siftDown_spec less htot htr l i hi first hlen hH
    have key2 := ih (siftDown less l i hi first) (by rw [key.1.len]; exact hlen) key.2
    exact ⟨(key.1.mono (by omega) (Nat.le_refl _)).trans key2.1, key2.2⟩

theorem heap_root_max (less : α → α → Bool)
    (htot : ∀ x y, less x y = true ∨ less y x = true)
    (htr : ∀ x y z, less x y = true → less y z = true → less x z = true)
    (l : List α) (first n : Nat) (hH : HeapFrom less l first 0 n) :
    ∀ k, k < n → less (nth l (first + k)) (nth l (first + 0)) = true := by
  intro k
  induction k using Nat.strong_induction_on with
  | _ k ih =>
    intro hk
    by_cases h0 : k = 0
    · subst h0
      exact less_refl less htot _
    · have hp : (k - 1) / 2 < k := by omega
      have h1 := ih ((k - 1) / 2) hp (by omega)
      have h2 := hH ((k - 1) / 2) k (Nat.zero_le _) hk (by omega)
      exact htr _ _ _ h2 h1

theorem heapPop_spec (less : α → α → Bool)
    (htot : ∀ x y, less x y = true ∨ less y x = true)
    (htr : ∀ x y z, less x y = true → less y z = true → less x z = true)
    (hi first : Nat) (n : Nat) (l : List α) (hn : n ≤ hi) (hlen : first + hi ≤ l.length)
    (hH : HeapFrom less l first 0 n)
    (hS : SortedSeg less l (first + n) (first + hi))
    (hLe : ∀ k j, k < n → n ≤ j → j < hi →
      less (nth l (first + k)) (nth l (first + j)) = true) :
    Within first (first + hi) l (heapPop less first n l)
      ∧ SortedSeg less (heapPop less first n l) first (first + hi) := by
  induction n generalizing l with
  | zero => exact ⟨Within.refl _ _ _, by simpa using hS⟩
  | succ i ih =>
    simp only [heapPop]
    have hf0 : first < l.length := by omega
    have hfi : first + i < l.length := by omega
    have hmax := heap_root_max less htot htr l first (i + 1) hH
    simp only [Nat.add_zero] at hmax
    -- after the exchange of the root with the last heap element
    have hw1 : Within first (first + hi) l (swapAt l first (first + i)) :=
      Within.swap l (Nat.le_refl _) (by omega) (by omega) (by omega) hlen
    have hlen1 : first + hi ≤ (swapAt l first (first + i)).length := by
      rw [length_swapAt]; exact hlen
    have hn1 : ∀ k, nth (swapAt l first (first + i)) k
        = if k = first + i then nth l first else if k = first then nth l (first + i)
          else nth l k := fun k => nth_swapAt l hf0 hfi k
    have hheap1 : HeapFrom less (swapAt l first (first + i)) first (0 + 1) i := by
      intro r c hr hc hrc
      rw [hn1, hn1]
      have e1 : first + c ≠ first + i := by omega
      have e2 : first + c ≠ first := by omega
      have e3 : first + r ≠ first + i := by omega
      have e4 : first + r ≠ first := by omega
      simp only [e1, e2, e3, e4, if_false]
      exact hH r c (Nat.zero_le _) (by omega) hrc
    have key := siftDown_spec less htot htr (swapAt l first (first + i)) 0 i first
      (by omega) hheap1
    simp only [Nat.add_zero] at key
    have hw2 : Within first (first + hi) (swapAt l first (first + i))
        (siftDown less (swapAt l first (first + i)) 0 i first) :=
      key.1.mono (Nat.le_refl _) (by omega)
    -- elements at and above `first + i` are unchanged by `siftDown`
    have hout : ∀ k, first + i ≤ k →
        nth (siftDown less (swapAt l first (first + i)) 0 i first) k
          = nth (swapAt l first (first + i)) k := fun k hk => key.1.out k (Or.inr hk)
    -- every element below `first + i` is `less` than the old root
    have hbelow : ∀ k, first ≤ k → k < first + i →
        less (nth (siftDown less (swapAt l first (first + i)) 0 i first) k) (nth l first)
          = true := by
      refine key.1.forall (fun x => less x (nth l first) = true) ?_
      intro k hk1 hk2
      rw [hn1]
      have e1 : k ≠ first + i := by omega
      simp only [e1, if_false]
      by_cases e2 : k = first
      · simp only [e2, if_true]
        exact hmax i (by omega)
      · simp only [e2, if_false]
        have := hmax (k - first) (by omega)
        rwa [show first + (k - first) = k by omega] at this
    have hbelow2 : ∀ k j, first ≤ k → k < first + i → i + 1 ≤ j → j < hi →
        less (nth (siftDown less (swapAt l first (first + i)) 0 i first) k)
          (nth l (first + j)) = true := by
      intro k j hk1 hk2 hj1 hj2
      refine key.1.forall (fun x => less x (nth l (first + j)) = true) ?_ k hk1 hk2
      intro k' hk1' hk2'
      rw [hn1]
      have e1 : k' ≠ first + i := by omega
      simp only [e1, if_false]
      by_cases e2 : k' = first
      · simp only [e2, if_true]
        exact hLe i j (by omega) hj1 hj2
      · simp only [e2, if_false]
        have := hLe (k' - first) j (by omega) hj1 hj2
        rwa [show first + (k' - first) = k' by omega] at this
    have key2 := ih (siftDown less (swapAt l first (first + i)) 0 i first) (by omega)
      (by rw [key.1.len]; exact hlen1) key.2 ?_ ?_
    · exact ⟨hw1.trans (hw2.trans key2.1), key2.2⟩
    · intro p q hp hpq hq
      rw [hout p hp, hout q (by omega), hn1, hn1]
      have e1 : q ≠ first + i := by omega
      have e2 : q ≠ first := by omega
      simp only [e1, e2, if_false]
      by_cases e3 : p = first + i
      · simp only [e3, if_true]
        have := hLe 0 (q - first) (by omega) (by omega) (by omega)
        rwa [Nat.add_zero, show first + (q - first) = q by omega] at this
      · have e4 : p ≠ first := by omega
        simp only [e3, e4, if_false]
        exact hS p q (by omega) hpq hq
    · intro k j hk hj1 hj2
      by_cases e : j = i
      · subst e
        rw [hout (first + j) (Nat.le_refl _), hn1]
        simp only [if_true]
        exact hbelow (first + k) (by omega) (by omega)
      · rw [hout (first + j) (by omega), hn1]
        have e1 : first + j ≠ first + i := by omega
        have e2 : first + j ≠ first := by omega
        simp only [e1, e2, if_false]
        exact hbelow2 (first + k) j (by omega) (by omega) (by omega) hj2

theorem heapSort_spec (less : α → α → Bool)
    (htot : ∀ x y, less x y = true ∨ less y x = true)
    (htr : ∀ x y z, less x y = true → less y z = true → less x z = true)
    (l : List α) (a b : Nat) (hab : a ≤ b) (hb : b ≤ l.length) :
    Within a b l (heapSort less l a b) ∧ SortedSeg less (heapSort less l a b) a b := by
  unfold heapSort
  simp only
  have hlen : a + (b - a) ≤ l.length := by omega
  have hb1 := heapBuild_spec less htot htr (b - a) a ((b - a - 1) / 2 + 1) l hlen
    (by intro r c hr hc hrc; omega)
  have hb2 := heapPop_spec less htot htr (b - a) a (b - a)
    (heapBuild less (b - a) a ((b - a - 1) / 2 + 1) l) (Nat.le_refl _)
    (by rw [hb1.1.len]; exact hlen) hb1.2
    (by intro i j h1 h2 h3; omega) (by intro k j h1 h2 h3; omega)
  have e : a + (b - a) = b := by omega
  rw [e] at hb1 hb2
  exact ⟨hb1.1.trans hb2.1, hb2.2⟩



/-! ### `doPivot` -/

theorem medianOfThree_within (less : α → α → Bool) (l : List α) (a b m1 m0 m2 : Nat)
    (hb : b ≤ l.length) (h1 : a ≤ m1 ∧ m1 < b) (h0 : a ≤ m0 ∧ m0 < b)
    (h2 : a ≤ m2 ∧ m2 < b) : Within a b l (medianOfThree less l m1 m0 m2) := by
  unfold medianOfThree
  have sw : ∀ (l' : List α) (i j : Nat), Within a b l l' → a ≤ i ∧ i < b → a ≤ j ∧ j < b →
      Within a b l (swapAt l' i j) := by
    intro l' i j hw hi hj
    exact hw.trans (Within.swap l' hi.1 hi.2 hj.1 hj.2 (by rw [hw.len]; exact hb))
  obtain ⟨l1, hl1, hw1⟩ : ∃ l1 : List α,
      l1 = (if lessAt less l m1 m0 = true then swapAt l m1 m0 else l) ∧ Within a b l l1 := by
    refine ⟨_, rfl, ?_⟩
    split
    · exact sw l m1 m0 (Within.refl _ _ _) h1 h0
    · exact Within.refl _ _ _
  simp only
  rw [← hl1]
  by_cases hc : lessAt less l1 m2 m1 = true
  · rw [if_pos hc]
    by_cases hc2 : lessAt less (swapAt l1 m2 m1) m1 m0 = true
    · rw [if_pos hc2]
      exact sw _ m1 m0 (sw _ m2 m1 hw1 h2 h1) h1 h0
    · rw [if_neg hc2]
      exact sw _ m2 m1 hw1 h2 h1
  · rw [if_neg hc]
    exact hw1

theorem medianOfThree_le (less : α → α → Bool)
    (htot : ∀ x y, less x y = true ∨ less y x = true)
    (l : List α) (m1 m0 m2 : Nat) (h1 : m1 < l.length) (h0 : m0 < l.length)
    (h2 : m2 < l.length) (h10 : m1 ≠ m0) (h12 : m1 ≠ m2) (h02 : m0 ≠ m2) :
    less (nth (medianOfThree less l m1 m0 m2) m1) (nth (medianOfThree less l m1 m0 m2) m2)
      = true := by
  unfold medianOfThree
  -- first exchange
  obtain ⟨l1, hl1, hlen1, hle1⟩ : ∃ l1 : List α,
      l1 = (if lessAt less l m1 m0 = true then swapAt l m1 m0 else l)
        ∧ l1.length = l.length ∧ less (nth l1 m0) (nth l1 m1) = true := by
    refine ⟨_, rfl, ?_, ?_⟩
    · split
      · exact length_swapAt _ _ _
      · rfl
    · rw [lessAt_eq less l h1 h0]
      split
      · rename_i h
        simp only [nth_swapAt l h1 h0]
        simp only [h10, if_true, if_false]
        exact h
      · rename_i h
        exact not_less_imp less htot h
  simp only
  rw [← hl1]
  have g1 : m1 < l1.length := by omega
  have g0 : m0 < l1.length := by omega
  have g2 : m2 < l1.length := by omega
  rw [lessAt_eq less l1 g2 g1]
  by_cases hc : less (nth l1 m2) (nth l1 m1) = true
  · rw [if_pos hc]
    have e2 : (swapAt l1 m2 m1).length = l1.length := length_swapAt _ _ _
    rw [lessAt_eq less (swapAt l1 m2 m1) (by omega) (by omega)]
    split
    · have q1 : m1 < (swapAt l1 m2 m1).length := by omega
      have q0 : m0 < (swapAt l1 m2 m1).length := by omega
      simp only [nth_swapAt (swapAt l1 m2 m1) q1 q0, nth_swapAt l1 g2 g1]
      have e3 : m2 ≠ m0 := Ne.symm h02
      have e4 : m2 ≠ m1 := Ne.symm h12
      have e5 : m0 ≠ m1 := Ne.symm h10
      simp only [h10, h02, e3, e4, e5, if_true, if_false]
      exact hle1
    · simp only [nth_swapAt l1 g2 g1]
      have e4 : m2 ≠ m1 := Ne.symm h12
      simp only [e4, h12, if_true, if_false]
      exact hc
  · rw [if_neg hc]
    exact not_less_imp less htot hc

theorem pivotScanA_spec (less : α → α → Bool) (l : List α) (pivot c : Nat) (fuel a : Nat)
    (hac : a ≤ c) (hc : c ≤ l.length) (hp : pivot < l.length) :
    a ≤ pivotScanA less l pivot c fuel a ∧ pivotScanA less l pivot c fuel a ≤ c
      ∧ ∀ k, a ≤ k → k < pivotScanA less l pivot c fuel a →
          less (nth l k) (nth l pivot) = true := by
  induction fuel generalizing a with
  | zero =>
    simp only [pivotScanA]
    exact ⟨Nat.le_refl _, hac, fun k h1 h2 => absurd h2 (by omega)⟩
  | succ fuel ih =>
    simp only [pivotScanA]
    by_cases hg : (decide (a < c) && lessAt less l a pivot) = true
    · rw [if_pos hg]
      simp only [Bool.and_eq_true, decide_eq_true_eq] at hg
      obtain ⟨h1, h2⟩ := hg
      rw [lessAt_eq less l (by omega) hp] at h2
      obtain ⟨i1, i2, i3⟩ := ih (a + 1) (by omega)
      refine ⟨by omega, i2, ?_⟩
      intro k hk1 hk2
      by_cases e : k = a
      · subst e; exact h2
      · exact i3 k (by omega) hk2
    · rw [if_neg hg]
      exact ⟨Nat.le_refl _, hac, fun k h1 h2 => absurd h2 (by omega)⟩

theorem pivotScanB_spec (less : α → α → Bool)
    (htot : ∀ x y, less x y = true ∨ less y x = true)
    (l : List α) (pivot c : Nat) (fuel b : Nat)
    (hbc : b ≤ c) (hc : c ≤ l.length) (hp : pivot < l.length) (hfuel : c ≤ b + fuel) :
    b ≤ pivotScanB less l pivot c fuel b ∧ pivotScanB less l pivot c fuel b ≤ c
      ∧ (∀ k, b ≤ k → k < pivotScanB less l pivot c fuel b →
          less (nth l k) (nth l pivot) = true)
      ∧ (pivotScanB less l pivot c fuel b < c →
          less (nth l pivot) (nth l (pivotScanB less l pivot c fuel b)) = true) := by
  induction fuel generalizing b with
  | zero =>
    simp only [pivotScanB]
    exact ⟨Nat.le_refl _, hbc, fun k h1 h2 => absurd h2 (by omega), fun h => absurd h (by omega)⟩
  | succ fuel ih =>
    simp only [pivotScanB]
    by_cases hg : (decide (b < c) && !lessAt less l pivot b) = true
    · rw [if_pos hg]
      simp only [Bool.and_eq_true, decide_eq_true_eq, Bool.not_eq_true'] at hg
      obtain ⟨h1, h2⟩ := hg
      rw [lessAt_eq less l hp (by omega)] at h2
      obtain ⟨i1, i2, i3, i4⟩ := ih (b + 1) (by omega) (by omega)
      refine ⟨by omega, i2, ?_, i4⟩
      intro k hk1 hk2
      by_cases e : k = b
      · subst e
        exact not_less_imp less htot (by rw [h2]; simp)
      · exact i3 k (by omega) hk2
    · rw [if_neg hg]
      refine ⟨Nat.le_refl _, hbc, fun k h1 h2 => absurd h2 (by omega), ?_⟩
      intro hlt
      simp only [Bool.and_eq_true, decide_eq_true_eq, Bool.not_eq_true', not_and,
        Bool.not_eq_false] at hg
      have := hg hlt
      rwa [lessAt_eq less l hp (by omega)] at this

theorem pivotScanC_spec (less : α → α → Bool)
    (l : List α) (pivot b : Nat) (c : Nat)
    (hbc : b ≤ c) (hc : c ≤ l.length) (hp : pivot < l.length) :
    b ≤ pivotScanC less l pivot b c ∧ pivotScanC less l pivot b c ≤ c
      ∧ (∀ k, pivotScanC less l pivot b c ≤ k → k < c →
          less (nth l pivot) (nth l k) = true)
      ∧ (b < pivotScanC less l pivot b c →
          less (nth l pivot) (nth l (pivotScanC less l pivot b c - 1)) = false) := by
  induction c with
  | zero =>
    simp only [pivotScanC]
    exact ⟨hbc, Nat.le_refl _, fun k h1 h2 => absurd h2 (by omega), fun h => absurd h (by omega)⟩
  | succ c ih =>
    simp only [pivotScanC]
    by_cases hg : (decide (b < c + 1) && lessAt less l pivot c) = true
    · rw [if_pos hg]
      simp only [Bool.and_eq_true, decide_eq_true_eq] at hg
      obtain ⟨h1, h2⟩ := hg
      rw [lessAt_eq less l hp (by omega)] at h2
      obtain ⟨i1, i2, i3, i4⟩ := ih (by omega) (by omega)
      refine ⟨i1, by omega, ?_, i4⟩
      intro k hk1 hk2
      by_cases e : k = c
      · subst e; exact h2
      · exact i3 k hk1 (by omega)
    · rw [if_neg hg]
      refine ⟨hbc, Nat.le_refl _, fun k h1 h2 => absurd h2 (by omega), ?_⟩
      intro hlt
      simp only [Bool.and_eq_true, decide_eq_true_eq, not_and] at hg
      have := hg hlt
      rw [lessAt_eq less l hp (by omega)] at this
      simpa using this



theorem pivotLoop_spec (less : α → α → Bool)
    (htot : ∀ x y, less x y = true ∨ less y x = true)
    (pivot hi : Nat) (fuel : Nat) (l : List α) (b c : Nat)
    (hpb : pivot < b) (hbc : b ≤ c) (hchi : c ≤ hi) (hhi : hi ≤ l.length)
    (hfuel : c - b < fuel)
    (hL : ∀ k, pivot < k → k < b → less (nth l k) (nth l pivot) = true)
    (hR : ∀ k, c ≤ k → k < hi → less (nth l pivot) (nth l k) = true) :
    ∃ l' b', pivotLoop less pivot fuel l b c = (l', b', b')
      ∧ Within (pivot + 1) c l l' ∧ b ≤ b' ∧ b' ≤ c
      ∧ (∀ k, pivot < k → k < b' → less (nth l' k) (nth l' pivot) = true)
      ∧ (∀ k, b' ≤ k → k < hi → less (nth l' pivot) (nth l' k) = true) := by
  induction fuel generalizing l b c with
  | zero => omega
  | succ fuel ih =>
    simp only [pivotLoop]
    have hp : pivot < l.length := by omega
    obtain ⟨s1, s2, s3, s4⟩ :=
      pivotScanB_spec less htot l pivot c (c - b) b hbc (by omega) hp (by omega)
    generalize pivotScanB less l pivot c (c - b) b = b1 at s1 s2 s3 s4 ⊢
    obtain ⟨t1, t2, t3, t4⟩ := pivotScanC_spec less l pivot b1 c s2 (by omega) hp
    generalize pivotScanC less l pivot b1 c = c1 at t1 t2 t3 t4 ⊢
    by_cases hge : b1 ≥ c1
    · rw [if_pos hge]
      have e : c1 = b1 := by omega
      subst e
      refine ⟨l, c1, rfl, Within.refl _ _ _, s1, s2, ?_, ?_⟩
      · intro k hk1 hk2
        by_cases hkb : k < b
        · exact hL k hk1 hkb
        · exact s3 k (by omega) hk2
      · intro k hk1 hk2
        by_cases hkc : k < c
        · exact t3 k hk1 hkc
        · exact hR k (by omega) hk2
    · rw [if_neg hge]
      have hlt : b1 < c1 := by omega
      have f1 := s4 (by omega)
      have f2 := t4 hlt
      have hne : b1 ≠ c1 - 1 := by
        intro e
        rw [← e, f1] at f2
        exact absurd f2 (by simp)
      have f3 : less (nth l (c1 - 1)) (nth l pivot) = true :=
        not_less_imp less htot (by rw [f2]; simp)
      have hb1 : b1 < l.length := by omega
      have hc1 : c1 - 1 < l.length := by omega
      have hn : ∀ k, nth (swapAt l b1 (c1 - 1)) k
          = if k = c1 - 1 then nth l b1 else if k = b1 then nth l (c1 - 1) else nth l k :=
        fun k => nth_swapAt l hb1 hc1 k
      have hw : Within (pivot + 1) c l (swapAt l b1 (c1 - 1)) :=
        Within.swap l (by omega) (by omega) (by omega) (by omega) (by omega)
      have hpiv : nth (swapAt l b1 (c1 - 1)) pivot = nth l pivot := by
        rw [hn]
        have e1 : pivot ≠ c1 - 1 := by omega
        have e2 : pivot ≠ b1 := by omega
        simp only [e1, e2, if_false]
      have key := ih (swapAt l b1 (c1 - 1)) (b1 + 1) (c1 - 1)
        (by omega) (by omega) (by omega) (by rw [length_swapAt]; exact hhi) (by omega) ?_ ?_
      · obtain ⟨l', b', h1, h2, h3, h4, h5, h6⟩ := key
        refine ⟨l', b', h1, hw.trans (h2.mono (Nat.le_refl _) (by omega)), by omega, by omega,
          h5, h6⟩
      · intro k hk1 hk2
        rw [hpiv, hn]
        have e1 : k ≠ c1 - 1 := by omega
        simp only [e1, if_false]
        by_cases e2 : k = b1
        · simp only [e2, if_true]
          exact f3
        · simp only [e2, if_false]
          by_cases hkb : k < b
          · exact hL k hk1 hkb
          · exact s3 k (by omega) (by omega)
      · intro k hk1 hk2
        rw [hpiv, hn]
        by_cases e1 : k = c1 - 1
        · simp only [e1, if_true]
          exact f1
        · have e2 : k ≠ b1 := by omega
          simp only [e1, e2, if_false]
          by_cases hkc : k < c
          · exact t3 k (by omega) hkc
          · exact hR k (by omega) hk2

theorem protectScanB_eq (less : α → α → Bool) (l : List α) (pivot a b : Nat)
    (hpa : pivot < a) (hb : b ≤ l.length)
    (hL : ∀ k, pivot < k → k < b → less (nth l k) (nth l pivot) = true) :
    protectScanB less l pivot a b = b := by
  cases b with
  | zero => rfl
  | succ b =>
    simp only [protectScanB]
    by_cases ha : a < b + 1
    · have := hL b (by omega) (by omega)
      rw [lessAt_eq less l (by omega) (by omega), this]
      simp
    · simp [ha]

theorem protectScanA_ge (less : α → α → Bool) (l : List α) (pivot b : Nat) (fuel a : Nat)
    (hpa : pivot < a) (hb : b ≤ l.length) (hfuel : b ≤ a + fuel)
    (hL : ∀ k, pivot < k → k < b → less (nth l k) (nth l pivot) = true) :
    b ≤ protectScanA less l pivot b fuel a := by
  induction fuel generalizing a with
  | zero => simp only [protectScanA]; omega
  | succ fuel ih =>
    simp only [protectScanA]
    by_cases ha : a < b
    · have := hL a hpa ha
      have e : (decide (a < b) && lessAt less l a pivot) = true := by
        rw [lessAt_eq less l (by omega) (by omega), this]
        simp [ha]
      rw [if_pos e]
      exact ih (a + 1) (by omega) (by omega)
    · have e : (decide (a < b) && lessAt less l a pivot) = false := by simp [ha]
      rw [e]
      simp only [Bool.false_eq_true, if_false]
      omega

theorem protectLoop_eq (less : α → α → Bool) (l : List α) (pivot : Nat) (fuel a b : Nat)
    (hpa : pivot < a) (hb : b ≤ l.length)
    (hL : ∀ k, pivot < k → k < b → less (nth l k) (nth l pivot) = true) :
    protectLoop less pivot (fuel + 1) l a b = (l, b) := by
  simp only [protectLoop]
  rw [protectScanB_eq less l pivot a b hpa hb hL]
  have := protectScanA_ge less l pivot b (b - a) a hpa hb (by omega) hL
  rw [if_pos this]



theorem pivotNinther_within (less : α → α → Bool) (l : List α) (lo hi : Nat)
    (h12 : lo + 12 < hi) (hhi : hi ≤ l.length) :
    Within lo hi l (pivotNinther less l lo hi ((lo + hi) / 2)) := by
  unfold pivotNinther
  split
  · have w1 := medianOfThree_within less l lo hi lo (lo + (hi - lo) / 8)
      (lo + 2 * ((hi - lo) / 8)) hhi (by omega) (by omega) (by omega)
    have w2 := medianOfThree_within less _ lo hi ((lo + hi) / 2)
      ((lo + hi) / 2 - (hi - lo) / 8) ((lo + hi) / 2 + (hi - lo) / 8)
      (by rw [w1.len]; exact hhi) (by omega) (by omega) (by omega)
    have w3 := medianOfThree_within less _ lo hi (hi - 1)
      (hi - 1 - (hi - lo) / 8) (hi - 1 - 2 * ((hi - lo) / 8))
      (by rw [w2.len, w1.len]; exact hhi) (by omega) (by omega) (by omega)
    exact w1.trans (w2.trans w3)
  · exact Within.refl _ _ _

theorem pivotDups_eq (less : α → α → Bool)
    (htot : ∀ x y, less x y = true ∨ less y x = true)
    (l : List α) (hi m pivot b : Nat) (hhi : hi ≤ l.length) (hpb : pivot < b) (hb : b < hi)
    (hm : pivot ≤ m) (hmb : m < b)
    (hL : ∀ k, pivot < k → k < b → less (nth l k) (nth l pivot) = true)
    (hR : ∀ k, b ≤ k → k < hi → less (nth l pivot) (nth l k) = true) :
    pivotDups less l hi m pivot b b = (l, b, b, false) := by
  have hL' : ∀ k, pivot ≤ k → k < b → less (nth l k) (nth l pivot) = true := by
    intro k hk1 hk2
    by_cases e : k = pivot
    · subst e; exact less_refl less htot _
    · exact hL k (by omega) hk2
  have e1 : lessAt less l pivot (hi - 1) = true := by
    rw [lessAt_eq less l (by omega) (by omega)]
    exact hR (hi - 1) (by omega) (by omega)
  have e2 : lessAt less l (b - 1) pivot = true := by
    rw [lessAt_eq less l (by omega) (by omega)]
    exact hL' (b - 1) (by omega) (by omega)
  have e3 : lessAt less l m pivot = true := by
    rw [lessAt_eq less l (by omega) (by omega)]
    exact hL' m hm hmb
  simp [pivotDups, e1, e2, e3]

theorem doPivot_spec (less : α → α → Bool)
    (htot : ∀ x y, less x y = true ∨ less y x = true)
    (l : List α) (lo hi : Nat) (h12 : lo + 12 < hi) (hhi : hi ≤ l.length) :
    ∃ r mlo, doPivot less l lo hi = (r, mlo, mlo + 1) ∧ Within lo hi l r
      ∧ lo ≤ mlo ∧ mlo + 1 ≤ hi
      ∧ (∀ k, lo ≤ k → k < mlo → less (nth r k) (nth r mlo) = true)
      ∧ (∀ k, mlo + 1 ≤ k → k < hi → less (nth r mlo) (nth r k) = true) := by
  unfold doPivot
  simp only []
  have hw1 := pivotNinther_within less l lo hi h12 hhi
  generalize pivotNinther less l lo hi ((lo + hi) / 2) = d1 at hw1 ⊢
  have hlen1 : hi ≤ d1.length := by rw [hw1.len]; exact hhi
  have hw2 := medianOfThree_within less d1 lo hi lo ((lo + hi) / 2) (hi - 1) hlen1
    (by omega) (by omega) (by omega)
  have hle2 := medianOfThree_le less htot d1 lo ((lo + hi) / 2) (hi - 1) (by omega) (by omega)
    (by omega) (by omega) (by omega) (by omega)
  generalize medianOfThree less d1 lo ((lo + hi) / 2) (hi - 1) = d2 at hw2 hle2 ⊢
  have hlen2 : hi ≤ d2.length := by rw [hw2.len]; exact hlen1
  obtain ⟨a1, a2, a3⟩ := pivotScanA_spec less d2 lo (hi - 1) (hi - 1 - (lo + 1)) (lo + 1)
    (by omega) (by omega) (by omega)
  generalize pivotScanA less d2 lo (hi - 1) (hi - 1 - (lo + 1)) (lo + 1) = a at a1 a2 a3 ⊢
  obtain ⟨d3, b, hpl, hw3, hb1, hb2, hL, hR⟩ := pivotLoop_spec less htot lo hi
    (hi - 1 - a + 1) d2 a (hi - 1) (by omega) a2 (by omega) hlen2 (by omega)
    (fun k hk1 hk2 => a3 k (by omega) hk2)
    (fun k hk1 hk2 => by
      have : k = hi - 1 := by omega
      subst this
      exact hle2)
  rw [hpl]
  simp only []
  have hlen3 : hi ≤ d3.length := by rw [hw3.len]; exact hlen2
  have hD : (if (!decide (hi - b < 5) && decide (hi - b < (hi - lo) / 4)) = true then
        pivotDups less d3 hi ((lo + hi) / 2) lo b b
      else (d3, b, b, decide (hi - b < 5))) = (d3, b, b, decide (hi - b < 5)) := by
    split
    · rename_i hc
      simp only [Bool.and_eq_true, Bool.not_eq_true', decide_eq_false_iff_not,
        decide_eq_true_eq] at hc
      rw [pivotDups_eq less htot d3 hi ((lo + hi) / 2) lo b hlen3 (by omega) (by omega)
        (by omega) (by omega) hL hR]
      simp [hc.1]
    · rfl
  rw [hD]
  simp only []
  have hP : (if decide (hi - b < 5) = true then protectLoop less lo (b - a + 1) d3 a b
      else (d3, b)) = (d3, b) := by
    split
    · exact protectLoop_eq less d3 lo (b - a) a b (by omega) (by omega) hL
    · rfl
  rw [hP]
  simp only []
  have hlo : lo < d3.length := by omega
  have hb3 : b - 1 < d3.length := by omega
  have hn : ∀ k, nth (swapAt d3 lo (b - 1)) k
      = if k = b - 1 then nth d3 lo else if k = lo then nth d3 (b - 1) else nth d3 k :=
    fun k => nth_swapAt d3 hlo hb3 k
  refine ⟨swapAt d3 lo (b - 1), b - 1, ?_, ?_, by omega, by omega, ?_, ?_⟩
  · have : b - 1 + 1 = b := by omega
    rw [this]
  · exact hw1.trans (hw2.trans ((hw3.mono (by omega) (by omega)).trans
      (Within.swap d3 (Nat.le_refl _) (by omega) (by omega) (by omega) hlen3)))
  · intro k hk1 hk2
    rw [hn, hn]
    have e1 : k ≠ b - 1 := by omega
    simp only [e1, if_false, if_true]
    by_cases e2 : k = lo
    · simp only [e2, if_true]
      exact hL (b - 1) (by omega) (by omega)
    · simp only [e2, if_false]
      exact hL k (by omega) (by omega)
  · intro k hk1 hk2
    rw [hn, hn]
    have e1 : k ≠ b - 1 := by omega
    have e2 : k ≠ lo := by omega
    simp only [e1, e2, if_false, if_true]
    exact hR k (by omega) hk2



/-! ### `quickSort` and `sort.Sort` -/

theorem shellPass_within (less : α → α → Bool) (a b : Nat) (fuel i : Nat) (l : List α)
    (hai : a + 6 ≤ i) (hb : b ≤ l.length) : Within a b l (shellPass less b fuel i l) := by
  induction fuel generalizing i l with
  | zero => exact Within.refl _ _ _
  | succ fuel ih =>
    simp only [shellPass]
    by_cases hlt : i < b
    · rw [if_pos hlt]
      have hw : Within a b l
          (if lessAt less l i (i - 6) = true then swapAt l i (i - 6) else l) := by
        split
        · exact Within.swap l (by omega) hlt (by omega) (by omega) hb
        · exact Within.refl _ _ _
      exact hw.trans (ih (i + 1) _ (by omega) (by rw [hw.len]; exact hb))
    · rw [if_neg hlt]
      exact Within.refl _ _ _

theorem quickSort_spec (less : α → α → Bool)
    (htot : ∀ x y, less x y = true ∨ less y x = true)
    (htr : ∀ x y z, less x y = true → less y z = true → less x z = true)
    (maxDepth : Nat) (l : List α) (a b : Nat) (hab : a ≤ b) (hb : b ≤ l.length) :
    Within a b l (quickSort less maxDepth l a b)
      ∧ SortedSeg less (quickSort less maxDepth l a b) a b := by
  induction maxDepth generalizing l a b with
  | zero =>
    unfold quickSort
    by_cases h12 : b - a > 12
    · rw [if_pos h12]
      exact heapSort_spec less htot htr l a b hab hb
    · rw [if_neg h12]
      by_cases h1 : b - a > 1
      · rw [if_pos h1]
        have hw := shellPass_within less a b (b - (a + 6)) (a + 6) l (Nat.le_refl _) hb
        have hs := insertionSort_spec less htot htr _ a b hab (by rw [hw.len]; exact hb)
        exact ⟨hw.trans hs.1, hs.2⟩
      · rw [if_neg h1]
        exact ⟨Within.refl _ _ _, fun i j h1 h2 h3 => absurd h3 (by omega)⟩
  | succ d ih =>
    unfold quickSort
    by_cases h12 : b - a > 12
    · rw [if_pos h12]
      obtain ⟨r, mlo, hdp, hw, hm1, hm2, hL, hR⟩ :=
        doPivot_spec less htot l a b (by omega) hb
      simp only [hdp]
      have hlenr : b ≤ r.length := by rw [hw.len]; exact hb
      by_cases hside : mlo - a < b - (mlo + 1)
      · rw [if_pos hside]
        have q1 := ih r a mlo hm1 (by omega)
        have q2 := ih (quickSort less d r a mlo) (mlo + 1) b (by omega)
          (by rw [q1.1.len]; exact hlenr)
        refine ⟨hw.trans ((q1.1.mono (Nat.le_refl _) (by omega)).trans
          (q2.1.mono (by omega) (Nat.le_refl _))), ?_⟩
        -- the pivot keeps its place and its value
        have hp1 : nth (quickSort less d r a mlo) mlo = nth r mlo := q1.1.out mlo (Or.inr (Nat.le_refl _))
        have hp2 : nth (quickSort less d (quickSort less d r a mlo) (mlo + 1) b) mlo
            = nth r mlo := by
          rw [q2.1.out mlo (Or.inl (by omega)), hp1]
        have hleft : ∀ k, a ≤ k → k < mlo →
            less (nth (quickSort less d (quickSort less d r a mlo) (mlo + 1) b) k) (nth r mlo)
              = true := by
          intro k hk1 hk2
          rw [q2.1.out k (Or.inl (by omega))]
          exact q1.1.forall (fun x => less x (nth r mlo) = true) hL k hk1 hk2
        have hright : ∀ k, mlo + 1 ≤ k → k < b →
            less (nth r mlo) (nth (quickSort less d (quickSort less d r a mlo) (mlo + 1) b) k)
              = true := by
          refine q2.1.forall (fun x => less (nth r mlo) x = true) ?_
          intro k hk1 hk2
          rw [q1.1.out k (Or.inr (by omega))]
          exact hR k hk1 hk2
        intro i j hi hij hj
        by_cases hjm : j < mlo
        · rw [q2.1.out i (Or.inl (by omega)), q2.1.out j (Or.inl (by omega))]
          exact q1.2 i j hi hij hjm
        · by_cases hjm' : j = mlo
          · subst hjm'
            rw [hp2]
            exact hleft i hi hij
          · by_cases him : i < mlo
            · exact htr _ _ _ (hleft i hi him) (hright j (by omega) hj)
            · by_cases him' : i = mlo
              · subst him'
                rw [hp2]
                exact hright j (by omega) hj
              · exact q2.2 i j (by omega) hij hj
      · rw [if_neg hside]
        have q1 := ih r (mlo + 1) b (by omega) hlenr
        have q2 := ih (quickSort less d r (mlo + 1) b) a mlo hm1
          (by rw [q1.1.len]; omega)
        refine ⟨hw.trans ((q1.1.mono (by omega) (Nat.le_refl _)).trans
          (q2.1.mono (Nat.le_refl _) (by omega))), ?_⟩
        have hp1 : nth (quickSort less d r (mlo + 1) b) mlo = nth r mlo :=
          q1.1.out mlo (Or.inl (by omega))
        have hp2 : nth (quickSort less d (quickSort less d r (mlo + 1) b) a mlo) mlo
            = nth r mlo := by
          rw [q2.1.out mlo (Or.inr (Nat.le_refl _)), hp1]
        have hright : ∀ k, mlo + 1 ≤ k → k < b →
            less (nth r mlo) (nth (quickSort less d (quickSort less d r (mlo + 1) b) a mlo) k)
              = true := by
          intro k hk1 hk2
          rw [q2.1.out k (Or.inr (by omega))]
          exact q1.1.forall (fun x => less (nth r mlo) x = true) hR k hk1 hk2
        have hleft : ∀ k, a ≤ k → k < mlo →
            less (nth (quickSort less d (quickSort less d r (mlo + 1) b) a mlo) k) (nth r mlo)
              = true := by
          refine q2.1.forall (fun x => less x (nth r mlo) = true) ?_
          intro k hk1 hk2
          rw [q1.1.out k (Or.inl (by omega))]
          exact hL k hk1 hk2
        intro i j hi hij hj
        by_cases hjm : j < mlo
        · exact q2.2 i j hi hij hjm
        · by_cases hjm' : j = mlo
          · subst hjm'
            rw [hp2]
            exact hleft i hi hij
          · by_cases him : i < mlo
            · exact htr _ _ _ (hleft i hi him) (hright j (by omega) hj)
            · by_cases him' : i = mlo
              · subst him'
                rw [hp2]
                exact hright j (by omega) hj
              · rw [q2.1.out i (Or.inr (by omega)), q2.1.out j (Or.inr (by omega))]
                exact q1.2 i j (by omega) hij hj
    · rw [if_neg h12]
      by_cases h1 : b - a > 1
      · rw [if_pos h1]
        have hw := shellPass_within less a b (b - (a + 6)) (a + 6) l (Nat.le_refl _) hb
        have hs := insertionSort_spec less htot htr _ a b hab (by rw [hw.len]; exact hb)
        exact ⟨hw.trans hs.1, hs.2⟩
      · rw [if_neg h1]
        exact ⟨Within.refl _ _ _, fun i j h1 h2 h3 => absurd h3 (by omega)⟩

/-- `sort.Sort` with a total and transitive `less` returns a permutation of
the slice in which every earlier element is `less` than every later one. -/
theorem sortSort_spec (less : α → α → Bool)
    (htot : ∀ x y, less x y = true ∨ less y x = true)
    (htr : ∀ x y z, less x y = true → less y z = true → less x z = true)
    (l : List α) :
    (sortSort less l).Perm l ∧ (sortSort less l).length = l.length
      ∧ SortedSeg less (sortSort less l) 0 l.length := by
  unfold sortSort
  have h := quickSort_spec less htot htr (maxDepth l.length) l 0 l.length (Nat.zero_le _)
    (Nat.le_refl _)
  exact ⟨h.1.perm, h.1.len, h.2⟩

end within

end GoSort


/-! ## The line pattern: soundness and completeness of the matcher -/

theorem star_sound {β : Type} (k : List Char → Option β) (s x : List Char) (r : β)
    (h : star k s = some (x, r)) : ∃ rest, s = x ++ rest ∧ newline ∉ x ∧ k rest = some r := by
  induction s generalizing x with
  | nil =>
    simp only [star, Option.map_eq_some'] at h
    obtain ⟨r', hr', e⟩ := h
    cases e
    exact ⟨[], rfl, by simp, hr'⟩
  | cons c cs ih =>
    simp only [star] at h
    by_cases hc : c = newline
    · rw [if_pos hc] at h
      simp only [Option.map_eq_some'] at h
      obtain ⟨r', hr', e⟩ := h
      cases e
      exact ⟨c :: cs, rfl, by simp, hr'⟩
    · rw [if_neg hc] at h
      cases hs : star k cs with
      | none =>
        rw [hs] at h
        simp only [Option.map_eq_some'] at h
        obtain ⟨r', hr', e⟩ := h
        cases e
        exact ⟨c :: cs, rfl, by simp, hr'⟩
      | some p =>
        obtain ⟨x', r'⟩ := p
        rw [hs] at h
        simp only [Option.some.injEq, Prod.mk.injEq] at h
        obtain ⟨e1, e2⟩ := h
        subst e1 e2
        obtain ⟨rest, h1, h2, h3⟩ := ih x' hs
        refine ⟨rest, by rw [h1]; rfl, ?_, h3⟩
        simp only [List.mem_cons, not_or]
        exact ⟨fun e => hc e.symm, h2⟩

theorem star_complete {β : Type} (k : List Char → Option β) (x rest : List Char)
    (hx : newline ∉ x) (hk : (k rest).isSome = true) : (star k (x ++ rest)).isSome = true := by
  induction x with
  | nil =>
    cases rest with
    | nil => simpa [star] using hk
    | cons c cs =>
      simp only [List.nil_append, star]
      split
      · simpa using hk
      · cases star k cs with
        | none => simpa using hk
        | some p => simp
  | cons c x ih =>
    simp only [List.mem_cons, not_or] at hx
    have hc : ¬ c = newline := fun e => hx.1 e.symm
    simp only [List.cons_append, star, if_neg hc]
    have := ih hx.2
    cases hs : star k (x ++ rest) with
    | none => rw [hs] at this; simp at this
    | some p => simp

theorem matchHere_sound (ts : List Tok) (s : List Char) (gs : List (List Char))
    (rest : List Char) (h : matchHere ts s = some (gs, rest)) : Matches ts s gs rest := by
  induction ts generalizing s gs with
  | nil =>
    simp only [matchHere, Option.some.injEq, Prod.mk.injEq] at h
    exact ⟨h.1.symm, h.2.symm⟩
  | cons t ts ih =>
    cases t with
    | lit c =>
      cases s with
      | nil => simp [matchHere] at h
      | cons c' s' =>
        simp only [matchHere] at h
        by_cases hc : c' = c
        · rw [if_pos hc] at h
          subst hc
          exact ⟨s', rfl, ih s' gs h⟩
        · rw [if_neg hc] at h
          exact absurd h (by simp)
    | dotStar =>
      simp only [matchHere, Option.map_eq_some'] at h
      obtain ⟨⟨x, gs', rest'⟩, hs, e⟩ := h
      simp only [Prod.mk.injEq] at e
      obtain ⟨e1, e2⟩ := e
      subst e1 e2
      obtain ⟨s', h1, h2, h3⟩ := star_sound _ s x (gs', rest') hs
      exact ⟨x, s', gs', h1, h2, rfl, ih s' gs' h3⟩

theorem matchHere_complete (ts : List Tok) (s : List Char) (gs : List (List Char))
    (rest : List Char) (h : Matches ts s gs rest) : (matchHere ts s).isSome = true := by
  induction ts generalizing s gs with
  | nil => simp [matchHere]
  | cons t ts ih =>
    cases t with
    | lit c =>
      obtain ⟨s', e, hm⟩ := h
      subst e
      simpa [matchHere] using ih s' gs hm
    | dotStar =>
      obtain ⟨x, s', gs', e, hx, _, hm⟩ := h
      subst e
      have := star_complete (matchHere ts) x s' hx (ih s' gs' hm)
      simp only [matchHere, Option.isSome_map']
      exact this

/-- The shape of a text matched by `lineRegex`. -/
theorem Matches_lineRegex (s : List Char) (gs : List (List Char)) (rest : List Char) :
    Matches lineRegex s gs rest ↔
      ∃ x y, s = [dquote] ++ x ++ arrowLit ++ y ++ endLit ++ rest
        ∧ newline ∉ x ∧ newline ∉ y ∧ gs = [x, y] := by
  simp only [lineRegex, arrowLit, endLit, List.map, List.cons_append, List.nil_append,
    Matches, List.append_assoc]
  constructor
  · rintro ⟨s1, rfl, x, s2, gs1, rfl, hx, rfl, s3, rfl, s4, rfl, s5, rfl, s6, rfl, s7, rfl,
      s8, rfl, y, s9, gs2, rfl, hy, rfl, s10, rfl, s11, rfl, rfl, rfl⟩
    exact ⟨x, y, rfl, hx, hy, rfl⟩
  · rintro ⟨x, y, rfl, hx, hy, rfl⟩
    exact ⟨_, rfl, x, _, _, rfl, hx, rfl, _, rfl, _, rfl, _, rfl, _, rfl, _, rfl, _, rfl,
      y, _, _, rfl, hy, rfl, _, rfl, _, rfl, rfl, rfl⟩

theorem Matches_suffix (ts : List Tok) (s : List Char) (gs : List (List Char))
    (rest : List Char) (h : Matches ts s gs rest) : ∃ m, s = m ++ rest := by
  induction ts generalizing s gs with
  | nil => exact ⟨[], by simp [h.2]⟩
  | cons t ts ih =>
    cases t with
    | lit c =>
      obtain ⟨s', e, hm⟩ := h
      obtain ⟨m, hm'⟩ := ih s' gs hm
      exact ⟨c :: m, by rw [e, hm']; rfl⟩
    | dotStar =>
      obtain ⟨x, s', gs', e, _, _, hm⟩ := h
      obtain ⟨m, hm'⟩ := ih s' gs' hm
      exact ⟨x ++ m, by rw [e, hm', List.append_assoc]⟩

theorem take_matched (m rest : List Char) :
    (m ++ rest).take ((m ++ rest).length - rest.length) = m := by
  simp

theorem findSubmatch_sound (ts : List Tok) (s : List Char) (r : List (List Char))
    (h : findSubmatch ts s = some r) :
    ∃ p gs rest m, s = p ++ (m ++ rest) ∧ Matches ts (m ++ rest) gs rest ∧ r = m :: gs := by
  induction s with
  | nil =>
    simp only [findSubmatch] at h
    cases hh : matchHere ts [] with
    | none => rw [hh] at h; simp at h
    | some q =>
      obtain ⟨gs, rest⟩ := q
      rw [hh] at h
      simp only [Option.some.injEq] at h
      have hm := matchHere_sound ts [] gs rest hh
      obtain ⟨m, e⟩ := Matches_suffix ts [] gs rest hm
      have hm0 : m = [] := by
        cases m with
        | nil => rfl
        | cons a b => simp at e
      subst hm0
      refine ⟨[], gs, rest, [], by simpa using e, ?_, h.symm⟩
      simpa [← e] using hm
  | cons c cs ih =>
    simp only [findSubmatch] at h
    cases hh : matchHere ts (c :: cs) with
    | none =>
      rw [hh] at h
      obtain ⟨p, gs, rest, m, e1, e2, e3⟩ := ih h
      exact ⟨c :: p, gs, rest, m, by rw [e1]; rfl, e2, e3⟩
    | some q =>
      obtain ⟨gs, rest⟩ := q
      rw [hh] at h
      simp only [Option.some.injEq] at h
      have hm := matchHere_sound ts (c :: cs) gs rest hh
      obtain ⟨m, e⟩ := Matches_suffix ts (c :: cs) gs rest hm
      refine ⟨[], gs, rest, m, by simpa using e, by rw [← e]; exact hm, ?_⟩
      rw [← h, e, take_matched]

theorem findSubmatch_complete (ts : List Tok) (p s : List Char) (gs : List (List Char))
    (rest : List Char) (h : Matches ts s gs rest) :
    (findSubmatch ts (p ++ s)).isSome = true := by
  induction p with
  | nil =>
    have hm := matchHere_complete ts s gs rest h
    cases s with
    | nil =>
      simp only [List.nil_append, findSubmatch]
      cases hh : matchHere ts [] with
      | none => rw [hh] at hm; simp at hm
      | some q => simp
    | cons c cs =>
      simp only [List.nil_append, findSubmatch]
      cases hh : matchHere ts (c :: cs) with
      | none => rw [hh] at hm; simp at hm
      | some q => simp
  | cons c p ih =>
    simp only [List.cons_append, findSubmatch]
    cases hh : matchHere ts (c :: (p ++ s)) with
    | none => simpa using ih
    | some q => simp



/-- A text is cut at its first occurrence of `q` in one way only. -/
theorem split_unique (q : Char) (u u' v v' : List Char) (hu : q ∉ u) (hu' : q ∉ u')
    (h : u ++ q :: v = u' ++ q :: v') : u = u' ∧ v = v' := by
  induction u generalizing u' with
  | nil =>
    cases u' with
    | nil => simpa using h
    | cons a b =>
      simp only [List.nil_append, List.cons_append, List.cons.injEq] at h
      simp only [List.mem_cons, not_or] at hu'
      exact absurd h.1 hu'.1
  | cons a u ih =>
    cases u' with
    | nil =>
      simp only [List.nil_append, List.cons_append, List.cons.injEq] at h
      simp only [List.mem_cons, not_or] at hu
      exact absurd h.1.symm hu.1
    | cons a' b =>
      simp only [List.cons_append, List.cons.injEq] at h
      simp only [List.mem_cons, not_or] at hu hu'
      obtain ⟨e1, e2⟩ := ih b hu.2 hu'.2 h.2
      exact ⟨by rw [h.1, e1], e2⟩

/-- A line that is one well-formed edge is matched from its first character,
with the two names as groups. -/
theorem findSubmatch_edge (src dst : List Char) (hs : dquote ∉ src) (hs' : newline ∉ src)
    (hd : dquote ∉ dst) (hd' : newline ∉ dst) :
    findSubmatch lineRegex ([dquote] ++ src ++ arrowLit ++ dst ++ endLit)
      = some [[dquote] ++ src ++ arrowLit ++ dst ++ endLit, src, dst] := by
  have hM : Matches lineRegex ([dquote] ++ src ++ arrowLit ++ dst ++ endLit) [src, dst] [] := by
    rw [Matches_lineRegex]
    exact ⟨src, dst, by simp, hs', hd', rfl⟩
  have hsome := matchHere_complete _ _ _ _ hM
  cases hh : matchHere lineRegex ([dquote] ++ src ++ arrowLit ++ dst ++ endLit) with
  | none => rw [hh] at hsome; simp at hsome
  | some q =>
    obtain ⟨gs, rest⟩ := q
    have hm := matchHere_sound _ _ _ _ hh
    rw [Matches_lineRegex] at hm
    obtain ⟨x, y, e, hx, hy, hgs⟩ := hm
    -- count the quotes on both sides
    have hcount := congrArg (List.count dquote) e
    have hc0 : ∀ l : List Char, dquote ∉ l → l.count dquote = 0 :=
      fun l h => List.count_eq_zero_of_not_mem h
    have hq : (' ' : Char) ≠ dquote := by decide
    have hq2 : ('-' : Char) ≠ dquote := by decide
    have hq3 : ('>' : Char) ≠ dquote := by decide
    have hq4 : (';' : Char) ≠ dquote := by decide
    simp only [arrowLit, endLit, List.count_append, List.count_cons_self, List.count_nil,
      List.count_cons_of_ne hq, List.count_cons_of_ne hq2, List.count_cons_of_ne hq3,
      List.count_cons_of_ne hq4, hc0 src hs, hc0 dst hd] at hcount
    have hx0 : dquote ∉ x := by
      intro hmem
      have := List.count_pos_iff.mpr hmem
      omega
    have hy0 : dquote ∉ y := by
      intro hmem
      have := List.count_pos_iff.mpr hmem
      omega
    simp only [arrowLit, endLit, List.cons_append, List.nil_append, List.append_assoc,
      List.cons.injEq, true_and] at e
    obtain ⟨e1, e2⟩ := split_unique dquote src x _ _ hs hx0 e
    simp only [List.cons.injEq, true_and] at e2
    obtain ⟨e3, e4⟩ := split_unique dquote dst y _ _ hd hy0 e2
    simp only [List.cons.injEq, true_and] at e4
    subst e1 e3
    have hrest : rest = [] := e4.symm
    subst hrest hgs
    have hcons : [dquote] ++ src ++ arrowLit ++ dst ++ endLit
        = dquote :: (src ++ arrowLit ++ dst ++ endLit) := by simp
    rw [hcons] at hh ⊢
    simp only [findSubmatch, hh]
    simp

/-- C7: for names without double quote and newline, `parseModuleDepItem`
applied to the line `"src" -> "dst";` succeeds and returns `(src, dst)`
verbatim. -/
theorem parse_edgeLine (src dst : String)
    (hs : dquote ∉ src.data) (hs' : newline ∉ src.data)
    (hd : dquote ∉ dst.data) (hd' : newline ∉ dst.data) :
    parseModuleDepItem (edgeLine src dst) = (src, dst, none) := by
  unfold parseModuleDepItem FindStringSubmatch edgeLine
  simp only [findSubmatch_edge src.data dst.data hs hs' hd hd']
  simp

theorem parse_edgeLine_witness :
    edgeLine "mod a;" " -> b" = "\"mod a;\" -> \" -> b\";"
    ∧ parseModuleDepItem (edgeLine "mod a;" " -> b") = ("mod a;", " -> b", none) :=
  ⟨by decide,
    parse_edgeLine "mod a;" " -> b" (by decide) (by decide) (by decide) (by decide)⟩


theorem findSubmatch_isSome_iff (line : List Char) :
    (findSubmatch lineRegex line).isSome = true ↔ HasEdge line := by
  constructor
  · intro h
    cases hh : findSubmatch lineRegex line with
    | none => rw [hh] at h; simp at h
    | some r =>
      obtain ⟨p, gs, rest, m, e1, e2, _⟩ := findSubmatch_sound _ _ _ hh
      rw [Matches_lineRegex] at e2
      obtain ⟨x, y, e3, hx, hy, _⟩ := e2
      exact ⟨p, x, y, rest, by rw [e1, e3]; simp, hx, hy⟩
  · rintro ⟨p, x, y, t, e, hx, hy⟩
    have hM : Matches lineRegex ([dquote] ++ x ++ arrowLit ++ y ++ endLit ++ t) [x, y] t := by
      rw [Matches_lineRegex]
      exact ⟨x, y, rfl, hx, hy, rfl⟩
    have := findSubmatch_complete lineRegex p _ _ _ hM
    rw [e]
    simpa using this

theorem findSubmatch_length (line : List Char) (r : List (List Char))
    (h : findSubmatch lineRegex line = some r) : r.length = 3 := by
  obtain ⟨p, gs, rest, m, _, e2, e3⟩ := findSubmatch_sound _ _ _ h
  rw [Matches_lineRegex] at e2
  obtain ⟨x, y, _, _, _, hgs⟩ := e2
  rw [e3, hgs]
  rfl

theorem parse_err_iff_not_isSome (line : String) :
    (parseModuleDepItem line).2.2.isSome = true
      ↔ (findSubmatch lineRegex line.data).isSome = false := by
  unfold parseModuleDepItem FindStringSubmatch
  cases hh : findSubmatch lineRegex line.data with
  | none => simp
  | some r =>
    have := findSubmatch_length _ _ hh
    simp [this]

/-- C8: `parseModuleDepItem` returns an error exactly when the line holds no
text of the form `"x" -> "y";` with newline-free `x` and `y`; so a line
without the literal `" -> "` or without the literal `";` is rejected, as is
the line `A -> B`; and on error the returned `src` and `dst` are empty. -/
theorem parse_error_iff (line : String) :
    ((parseModuleDepItem line).2.2.isSome = true ↔ ¬ HasEdge line.data)
    ∧ (¬ arrowLit <:+: line.data → (parseModuleDepItem line).2.2.isSome = true)
    ∧ (¬ endLit <:+: line.data → (parseModuleDepItem line).2.2.isSome = true)
    ∧ ((parseModuleDepItem line).2.2.isSome = true →
        (parseModuleDepItem line).1 = "" ∧ (parseModuleDepItem line).2.1 = "")
    ∧ (parseModuleDepItem "A -> B").2.2.isSome = true := by
  have hiff : (parseModuleDepItem line).2.2.isSome = true ↔ ¬ HasEdge line.data := by
    rw [parse_err_iff_not_isSome, ← findSubmatch_isSome_iff]
    simp
  refine ⟨hiff, ?_, ?_, ?_, by decide⟩
  · intro h
    rw [hiff]
    rintro ⟨p, x, y, t, e, _, _⟩
    apply h
    refine ⟨p ++ [dquote] ++ x, y ++ endLit ++ t, ?_⟩
    rw [e]
    simp
  · intro h
    rw [hiff]
    rintro ⟨p, x, y, t, e, _, _⟩
    apply h
    refine ⟨p ++ [dquote] ++ x ++ arrowLit ++ y, t, ?_⟩
    rw [e]
    simp
  · intro h
    unfold parseModuleDepItem at h ⊢
    simp only at h ⊢
    split
    · exact ⟨rfl, rfl⟩
    · rename_i hlen
      rw [if_neg hlen] at h
      simp at h



/-! ## The pattern is unanchored and its groups are greedy -/

/-- The group captured by `star` is the longest one: no longer newline-free
prefix is followed by a text the continuation accepts. -/
theorem star_longest {β : Type} (k : List Char → Option β) (s x : List Char) (r : β)
    (h : star k s = some (x, r)) (x2 rest2 : List Char) (hs : s = x2 ++ rest2)
    (hx2 : newline ∉ x2) (hlen : x.length < x2.length) : k rest2 = none := by
  induction s generalizing x x2 with
  | nil =>
    have : x2 = [] := by
      cases x2 with
      | nil => rfl
      | cons a t => simp at hs
    subst this
    simp at hlen
  | cons c cs ih =>
    cases x2 with
    | nil => simp at hlen
    | cons c2 x2' =>
      simp only [List.cons_append, List.cons.injEq] at hs
      obtain ⟨hc, hcs⟩ := hs
      subst hc
      simp only [List.mem_cons, not_or] at hx2
      have hcn : ¬ c = newline := fun e => hx2.1 e.symm
      simp only [star, if_neg hcn] at h
      cases hst : star k cs with
      | none =>
        cases hk : k rest2 with
        | none => rfl
        | some v =>
          have := star_complete k x2' rest2 hx2.2 (by rw [hk]; rfl)
          rw [← hcs, hst] at this
          simp at this
      | some p =>
        obtain ⟨x', r'⟩ := p
        rw [hst] at h
        simp only [Option.some.injEq, Prod.mk.injEq] at h
        obtain ⟨e1, e2⟩ := h
        subst e1 e2
        exact ih x' hst x2' hcs hx2.2 (by simpa using hlen)

theorem lineRegex_eq : lineRegex = Tok.lit dquote :: Tok.dotStar :: tailRegex := by
  simp [lineRegex, tailRegex]

theorem matchHere_lineRegex (s : List Char) :
    matchHere lineRegex (dquote :: s)
      = (star (matchHere tailRegex) s).map (fun p => (p.1 :: p.2.1, p.2.2)) := by
  rw [lineRegex_eq]
  rfl

/-- The shape of a text matched by `tailRegex`. -/
theorem Matches_tailRegex (s : List Char) (gs : List (List Char)) (rest : List Char) :
    Matches tailRegex s gs rest ↔
      ∃ y, s = arrowLit ++ y ++ endLit ++ rest ∧ newline ∉ y ∧ gs = [y] := by
  simp only [tailRegex, arrowLit, endLit, List.map, List.cons_append, List.nil_append,
    Matches, List.append_assoc]
  constructor
  · rintro ⟨s3, rfl, s4, rfl, s5, rfl, s6, rfl, s7, rfl, s8, rfl, y, s9, gs2, rfl, hy, rfl,
      s10, rfl, s11, rfl, rfl, rfl⟩
    exact ⟨y, rfl, hy, rfl⟩
  · rintro ⟨y, rfl, hy, rfl⟩
    exact ⟨_, rfl, _, rfl, _, rfl, _, rfl, _, rfl, _, rfl, y, _, _, rfl, hy, rfl, _, rfl,
      _, rfl, rfl, rfl⟩

theorem count_dquote_arrowLit : arrowLit.count dquote = 2 := by decide

theorem count_dquote_endLit : endLit.count dquote = 1 := by decide

/-- A line with two arrows is matched from its first character; the first
group runs to the last arrow. -/
theorem findSubmatch_twoArrows (a b c : List Char) (ha : newline ∉ a) (hb : newline ∉ b)
    (hc : newline ∉ c) (hcq : dquote ∉ c) :
    findSubmatch lineRegex ([dquote] ++ (a ++ arrowLit ++ b) ++ arrowLit ++ c ++ endLit)
      = some [[dquote] ++ (a ++ arrowLit ++ b) ++ arrowLit ++ c ++ endLit,
          a ++ arrowLit ++ b, c] := by
  have hnl : newline ∉ arrowLit := by decide
  have hx2 : newline ∉ a ++ arrowLit ++ b := by
    simp only [List.mem_append, not_or]
    exact ⟨⟨ha, hnl⟩, hb⟩
  have hcons : [dquote] ++ (a ++ arrowLit ++ b) ++ arrowLit ++ c ++ endLit
      = dquote :: ((a ++ arrowLit ++ b) ++ (arrowLit ++ c ++ endLit)) := by simp
  rw [hcons]
  -- the continuation accepts what follows the long first group
  have hK : (matchHere tailRegex (arrowLit ++ c ++ endLit)).isSome = true := by
    apply matchHere_complete tailRegex _ [c] []
    rw [Matches_tailRegex]
    exact ⟨c, by simp, hc, rfl⟩
  have hstar := star_complete (matchHere tailRegex) (a ++ arrowLit ++ b)
    (arrowLit ++ c ++ endLit) hx2 hK
  cases hst : star (matchHere tailRegex) ((a ++ arrowLit ++ b) ++ (arrowLit ++ c ++ endLit)) with
  | none => rw [hst] at hstar; simp at hstar
  | some q =>
    obtain ⟨x', gs', rest⟩ := q
    obtain ⟨r1, e1, hx', hm⟩ := star_sound _ _ _ _ hst
    have hM := matchHere_sound _ _ _ _ hm
    rw [Matches_tailRegex] at hM
    obtain ⟨y', e2, hy', hgs⟩ := hM
    have hlong : ¬ x'.length < (a ++ arrowLit ++ b).length := by
      intro hlt
      have := star_longest _ _ _ _ hst (a ++ arrowLit ++ b) (arrowLit ++ c ++ endLit) rfl hx2 hlt
      rw [this] at hK
      simp at hK
    -- the first group starts with the long candidate
    rw [e2] at e1
    obtain ⟨z, hz⟩ : ∃ z, x' = (a ++ arrowLit ++ b) ++ z := by
      have hp : (a ++ arrowLit ++ b) <+: x' ++ (arrowLit ++ y' ++ endLit ++ rest) :=
        ⟨_, e1⟩
      have hp' : x' <+: x' ++ (arrowLit ++ y' ++ endLit ++ rest) := ⟨_, rfl⟩
      obtain ⟨z, hz⟩ := List.prefix_of_prefix_length_le hp hp' (by omega)
      exact ⟨z, hz.symm⟩
    subst hz
    replace e1 : arrowLit ++ c ++ endLit = z ++ (arrowLit ++ y' ++ endLit ++ rest) := by
      simpa [List.append_assoc] using e1
    have hcount := congrArg (List.count dquote) e1
    simp only [List.count_append, count_dquote_arrowLit, count_dquote_endLit,
      List.count_eq_zero_of_not_mem hcq] at hcount
    have hz0 : z = [] := by
      cases z with
      | nil => rfl
      | cons z0 z' =>
        have hz0 : z0 = dquote := by
          have := congrArg List.head? e1
          simp [arrowLit] at this
          exact this.symm
        subst hz0
        simp only [List.count_cons_self] at hcount
        omega
    subst hz0
    simp only [List.nil_append, List.count_nil] at e1 hcount
    have hyq : dquote ∉ y' := by
      intro hmem
      have := List.count_pos_iff.mpr hmem
      omega
    simp only [arrowLit, endLit, List.cons_append, List.nil_append, List.append_assoc,
      List.cons.injEq, true_and] at e1
    obtain ⟨e3, e4⟩ := split_unique dquote c y' _ _ hcq hyq e1
    simp only [List.cons.injEq, true_and] at e4
    subst e3
    have hrest : rest = [] := e4.symm
    subst hrest hgs
    rw [findSubmatch, matchHere_lineRegex, hst]
    simp

/-- C19: a well-formed edge with any text before and after it is accepted;
and the line `"a" -> "b" -> "c";`, for newline-free names of which `c` has no
double quote (so in particular for quote-free `a`, `b`, `c`), parses to the
source `a" -> "b` and the destination `c`. -/
theorem parse_unanchored_greedy :
    (∀ p x y s : String, newline ∉ x.data → newline ∉ y.data →
        (parseModuleDepItem (embeddedEdgeLine p x y s)).2.2 = none)
    ∧ (∀ a b c : String, newline ∉ a.data → newline ∉ b.data → newline ∉ c.data →
        dquote ∉ c.data →
        parseModuleDepItem (twoArrowLine a b c)
          = (String.mk (a.data ++ arrowLit ++ b.data), c, none)) := by
  constructor
  · intro p x y s hx hy
    have h : HasEdge (embeddedEdgeLine p x y s).data :=
      ⟨p.data, x.data, y.data, s.data, rfl, hx, hy⟩
    have h1 := (findSubmatch_isSome_iff _).mpr h
    have h2 := parse_err_iff_not_isSome (embeddedEdgeLine p x y s)
    rw [h1] at h2
    cases he : (parseModuleDepItem (embeddedEdgeLine p x y s)).2.2 with
    | none => rfl
    | some e =>
      rw [he] at h2
      simp at h2
  · intro a b c ha hb hc hcq
    unfold parseModuleDepItem FindStringSubmatch twoArrowLine
    simp only [findSubmatch_twoArrows a.data b.data c.data ha hb hc hcq]
    simp

theorem parse_unanchored_greedy_witness :
    (embeddedEdgeLine "x " "A" "B" " y" = "x \"A\" -> \"B\"; y"
      ∧ (parseModuleDepItem (embeddedEdgeLine "x " "A" "B" " y")).2.2 = none)
    ∧ (twoArrowLine "a" "b" "c" = "\"a\" -> \"b\" -> \"c\";"
      ∧ parseModuleDepItem (twoArrowLine "a" "b" "c") = ("a\" -> \"b", "c", none)) :=
  ⟨⟨by decide, parse_unanchored_greedy.1 "x " "A" "B" " y" (by decide) (by decide)⟩,
    by decide,
    parse_unanchored_greedy.2 "a" "b" "c" (by decide) (by decide) (by decide) (by decide)⟩


/-! ## Ranking -/

theorem sortSort_pairwise {α : Type} [Inhabited α] (less : α → α → Bool)
    (htot : ∀ x y, less x y = true ∨ less y x = true)
    (htr : ∀ x y z, less x y = true → less y z = true → less x z = true) (l : List α) :
    List.Pairwise (fun x y => less x y = true) (GoSort.sortSort less l) := by
  obtain ⟨_, hlen, hs⟩ := GoSort.sortSort_spec less htot htr l
  rw [List.pairwise_iff_getElem]
  intro i j hi hj hij
  have := hs i j (Nat.zero_le _) hij (by rw [← hlen]; exact hj)
  simpa [GoSort.nth, List.getD_eq_getElem?_getD, hi, hj] using this

theorem pairwise_descending {β : Type} [LE β] (key : moduleDepStat → β)
    (out : List moduleDepStat)
    (h : List.Pairwise (fun x y => key y ≤ key x) out) : Descending key out := by
  intro i hi
  rw [List.pairwise_iff_getElem] at h
  exact h i (i + 1) (by omega) hi (by omega)

/-- The closure selected for a valid order key is total and transitive, and
`less x y` says that the key of `y` is at most the key of `x`. -/
theorem selectSortBy_valid (orderBy : String) (h : ValidOrder orderBy) :
    ∃ sortBy, selectSortBy orderBy = some sortBy
      ∧ (∀ x y, sortBy x y = true ∨ sortBy y x = true)
      ∧ (∀ x y z, sortBy x y = true → sortBy y z = true → sortBy x z = true)
      ∧ (∀ out, List.Pairwise (fun x y => sortBy x y = true) out → DescendingBy orderBy out) := by
  have h12 : orderByFanIn ≠ orderByFanOut := by decide
  have h13 : orderByFanIn ≠ orderByVolatile := by decide
  have h23 : orderByFanOut ≠ orderByVolatile := by decide
  rcases h with h | h | h
  · refine ⟨_, by rw [selectSortBy, if_pos h], ?_, ?_, ?_⟩
    · intro x y
      simp only [decide_eq_true_eq]
      exact le_total _ _
    · intro x y z
      simp only [decide_eq_true_eq]
      exact fun a b => le_trans b a
    · intro out hp
      refine ⟨fun _ => ?_, fun e => absurd (h.symm.trans e) h12, fun e => absurd (h.symm.trans e) h13⟩
      exact pairwise_descending _ out (by simpa using hp)
  · refine ⟨_, by rw [selectSortBy, if_neg (by rw [h]; exact h12.symm), if_pos h], ?_, ?_, ?_⟩
    · intro x y
      simp only [decide_eq_true_eq]
      exact le_total _ _
    · intro x y z
      simp only [decide_eq_true_eq]
      exact fun a b => le_trans b a
    · intro out hp
      refine ⟨fun e => absurd (e.symm.trans h) h12, fun _ => ?_, fun e => absurd (h.symm.trans e) h23⟩
      exact pairwise_descending _ out (by simpa using hp)
  · refine ⟨_, by rw [selectSortBy, if_neg (by rw [h]; exact h13.symm),
      if_neg (by rw [h]; exact h23.symm), if_pos h], ?_, ?_, ?_⟩
    · intro x y
      simp only [decide_eq_true_eq]
      exact le_total _ _
    · intro x y z
      simp only [decide_eq_true_eq]
      exact fun a b => le_trans b a
    · intro out hp
      refine ⟨fun e => absurd (e.symm.trans h) h13, fun e => absurd (e.symm.trans h) h23, fun _ => ?_⟩
      exact pairwise_descending _ out (by simpa using hp)

theorem outputOrdered_eq (range : ModMap → List moduleDepStat) (m : ModMap)
    (args : analyseArgs) (h : ValidOrder args.orderBy) :
    outputOrdered range m args =
      if args.limit > 0 then
        if args.limit.toNat ≤ m.length then
          Except.ok (some (Document.array ((rankedOf range m args.orderBy).take args.limit.toNat)))
        else Except.error "slice bounds out of range"
      else Except.ok (some (Document.array (rankedOf range m args.orderBy))) := by
  obtain ⟨sortBy, hs, _⟩ := selectSortBy_valid args.orderBy h
  simp only [outputOrdered, rankedOf, hs]

theorem rankedOf_perm (range : ModMap → List moduleDepStat) (m : ModMap)
    (orderBy : String) (h : ValidOrder orderBy) :
    (rankedOf range m orderBy).Perm (range m) := by
  obtain ⟨sortBy, hs, htot, htr, _⟩ := selectSortBy_valid orderBy h
  simp only [rankedOf, hs, depStatsortBy_Sort]
  exact (GoSort.sortSort_spec sortBy htot htr (range m)).1

theorem rankedOf_take_descending (range : ModMap → List moduleDepStat) (m : ModMap)
    (orderBy : String) (h : ValidOrder orderBy) (n : Nat) :
    DescendingBy orderBy ((rankedOf range m orderBy).take n) := by
  obtain ⟨sortBy, hs, htot, htr, hd⟩ := selectSortBy_valid orderBy h
  apply hd
  have hp := sortSort_pairwise sortBy htot htr (range m)
  simp only [rankedOf, hs, depStatsortBy_Sort]
  exact hp.sublist (List.take_sublist n _)



theorem outputOrdered_sound (range : ModMap → List moduleDepStat) (m : ModMap)
    (args : analyseArgs) (hord : ValidOrder args.orderBy) (out : List moduleDepStat)
    (h : outputOrdered range m args = Except.ok (some (Document.array out))) :
    DescendingBy args.orderBy out := by
  rw [outputOrdered_eq range m args hord] at h
  by_cases hl : args.limit > 0
  · rw [if_pos hl] at h
    by_cases hc : args.limit.toNat ≤ m.length
    · rw [if_pos hc] at h
      simp only [Except.ok.injEq, Option.some.injEq, Document.array.injEq] at h
      rw [← h]
      exact rankedOf_take_descending range m args.orderBy hord _
    · rw [if_neg hc] at h
      exact absurd h (by simp)
  · rw [if_neg hl] at h
    simp only [Except.ok.injEq, Option.some.injEq, Document.array.injEq] at h
    rw [← h, ← List.take_length (l := rankedOf range m args.orderBy)]
    exact rankedOf_take_descending range m args.orderBy hord _

theorem outputOrdered_writes (range : ModMap → List moduleDepStat) (m : ModMap)
    (args : analyseArgs) (hord : ValidOrder args.orderBy)
    (hlim : args.limit ≤ (m.length : Int)) :
    ∃ out, outputOrdered range m args = Except.ok (some (Document.array out)) := by
  rw [outputOrdered_eq range m args hord]
  by_cases hl : args.limit > 0
  · rw [if_pos hl, if_pos (by omega)]
    exact ⟨_, rfl⟩
  · rw [if_neg hl]
    exact ⟨_, rfl⟩

/-- C4: for every mapping, every enumeration order and every valid order
key, a sequence written by `outputOrdered` is in descending order of the
selected field at every pair of adjacent positions, and a sequence is
written whenever the limit does not exceed the number of entries. -/
theorem outputOrdered_descending (range : ModMap → List moduleDepStat) (m : ModMap)
    (args : analyseArgs) (hord : ValidOrder args.orderBy) :
    (∀ out, outputOrdered range m args = Except.ok (some (Document.array out)) →
        DescendingBy args.orderBy out)
    ∧ (args.limit ≤ (m.length : Int) →
        ∃ out, outputOrdered range m args = Except.ok (some (Document.array out))) :=
  ⟨outputOrdered_sound range m args hord, outputOrdered_writes range m args hord⟩

theorem outputOrdered_descending_witness :
    ValidOrder "fan-in"
    ∧ (∃ out, outputOrdered mapRecords (processEdges [] [("A", "B"), ("C", "B")]) ⟨"fan-in", 0⟩
          = Except.ok (some (Document.array out))
        ∧ out.map (fun s => (s.Module, s.FanInCount)) = [("B", 2), ("C", 0), ("A", 0)]
        ∧ DescendingBy "fan-in" out) :=
  ⟨Or.inl rfl, _, rfl, by decide,
    (outputOrdered_descending mapRecords (processEdges [] [("A", "B"), ("C", "B")])
      ⟨"fan-in", 0⟩ (Or.inl rfl)).1 _ rfl⟩

/-- C5 (the code at the failing input): two records, order `fan-in`,
limit 3: the slice expression `depsStat[:3]` exceeds the capacity 2 and the
run panics instead of writing the two records. -/
theorem outputOrdered_limit_beyond_count :
    (processEdges [] [("A", "B")]).length = 2
    ∧ outputOrdered mapRecords (processEdges [] [("A", "B")]) ⟨"fan-in", 3⟩
        = Except.error "slice bounds out of range" :=
  ⟨by decide, rfl⟩

/-- For a valid order key and a positive limit, `outputOrdered` panics
exactly when the limit exceeds the number of entries, and otherwise writes a
sequence of `limit` records when the enumeration yields every entry. -/
theorem outputOrdered_limit (range : ModMap → List moduleDepStat) (m : ModMap)
    (args : analyseArgs) (hord : ValidOrder args.orderBy) (hpos : 0 < args.limit)
    (hrange : (range m).length = m.length) :
    ((m.length : Int) < args.limit →
        outputOrdered range m args = Except.error "slice bounds out of range")
    ∧ (args.limit ≤ (m.length : Int) →
        ∃ out, outputOrdered range m args = Except.ok (some (Document.array out))
          ∧ (out.length : Int) = args.limit) := by
  rw [outputOrdered_eq range m args hord, if_pos hpos]
  constructor
  · intro h
    rw [if_neg (by omega)]
  · intro h
    rw [if_pos (by omega)]
    refine ⟨_, rfl, ?_⟩
    have hp := (rankedOf_perm range m args.orderBy hord).length_eq
    rw [List.length_take, hp, hrange]
    omega

/-- C6: for every mapping and valid order key, the ranked sequence is a
permutation of the records of the mapping (the records themselves, fields
unchanged); with `limit <= 0` the whole ranked sequence is written, and with
`0 < limit <= number of records` exactly its first `limit` elements. -/
theorem outputOrdered_permutation (range : ModMap → List moduleDepStat) (m : ModMap)
    (orderBy : String) (hrange : (range m).Perm (mapRecords m)) (hord : ValidOrder orderBy) :
    (rankedOf range m orderBy).Perm (mapRecords m)
    ∧ (∀ limit : Int, limit ≤ 0 →
        outputOrdered range m ⟨orderBy, limit⟩
          = Except.ok (some (Document.array (rankedOf range m orderBy))))
    ∧ (∀ limit : Int, 0 < limit → limit ≤ ((mapRecords m).length : Int) →
        outputOrdered range m ⟨orderBy, limit⟩
          = Except.ok (some (Document.array ((rankedOf range m orderBy).take limit.toNat)))) := by
  refine ⟨(rankedOf_perm range m orderBy hord).trans hrange, ?_, ?_⟩
  · intro limit hl
    rw [outputOrdered_eq range m ⟨orderBy, limit⟩ hord]
    simp only
    rw [if_neg (by omega)]
  · intro limit h0 hl
    rw [outputOrdered_eq range m ⟨orderBy, limit⟩ hord]
    simp only [mapRecords, List.length_map] at hl
    simp only
    rw [if_pos h0, if_pos (by omega)]

theorem outputOrdered_permutation_witness :
    (mapRecords (processEdges [] [("A", "B"), ("C", "B")])).Perm
        (mapRecords (processEdges [] [("A", "B"), ("C", "B")]))
    ∧ ValidOrder "fan-out"
    ∧ (rankedOf mapRecords (processEdges [] [("A", "B"), ("C", "B")]) "fan-out").Perm
        (mapRecords (processEdges [] [("A", "B"), ("C", "B")]))
    ∧ (rankedOf mapRecords (processEdges [] [("A", "B"), ("C", "B")]) "fan-out").map
        (fun s => s.Module) = ["C", "A", "B"] :=
  ⟨List.Perm.refl _, Or.inr (Or.inl rfl),
    (outputOrdered_permutation mapRecords (processEdges [] [("A", "B"), ("C", "B")]) "fan-out"
      (List.Perm.refl _) (Or.inr (Or.inl rfl))).1, by decide⟩

/-! ## The whole run -/

theorem scanLines_reject (m : ModMap) (stdin : List String)
    (h : ∃ line ∈ stdin, (parseModuleDepItem line).2.2.isSome = true) :
    scanLines m stdin = none := by
  induction stdin generalizing m with
  | nil => simp at h
  | cons l ls ih =>
    simp only [scanLines]
    rcases hp : parseModuleDepItem l with ⟨src, dst, err⟩
    cases err with
    | some e => rfl
    | none =>
      simp only
      apply ih
      obtain ⟨line, hmem, hline⟩ := h
      simp only [List.mem_cons] at hmem
      rcases hmem with rfl | hmem
      · rw [hp] at hline; simp at hline
      · exact ⟨line, hmem, hline⟩

theorem scanLines_accept (m : ModMap) (stdin : List String)
    (h : ∀ line ∈ stdin, (parseModuleDepItem line).2.2 = none) :
    scanLines m stdin = some (processEdges m (parsedEdges stdin)) := by
  induction stdin generalizing m with
  | nil => rfl
  | cons l ls ih =>
    simp only [scanLines]
    have hl := h l (List.mem_cons_self _ _)
    rcases hp : parseModuleDepItem l with ⟨src, dst, err⟩
    rw [hp] at hl
    simp only at hl
    subst hl
    simp only
    rw [ih _ (fun line hmem => h line (List.mem_cons_of_mem _ hmem))]
    simp [parsedEdges, processEdges, hp]

theorem outputModuleDepStat_writes (range : ModMap → List moduleDepStat) (m : ModMap)
    (args : analyseArgs) (hlim : args.limit ≤ (m.length : Int)) :
    ∃ d, outputModuleDepStat range m args = Except.ok (some d) := by
  unfold outputModuleDepStat
  split
  · rename_i hord
    obtain ⟨out, hout⟩ := outputOrdered_writes range m args hord hlim
    exact ⟨_, hout⟩
  · exact ⟨_, rfl⟩

/-- C9, counterexample: the scanner delivers the line `"A" -> "B";` and
then stops with an error, as it does when a read fails or when the next
line is longer than its buffer. Every delivered line parses and the limit 0
does not exceed the number of records, but the run writes nothing. -/
theorem read_error_writes_nothing :
    (∀ line ∈ [edgeLine "A" "B"], (parseModuleDepItem line).2.2 = none)
    ∧ (0 : Int) ≤ ((processEdges [] (parsedEdges [edgeLine "A" "B"])).length : Int)
    ∧ analyseModuleDependency mapRecords
        ⟨[edgeLine "A" "B"], some "bufio.Scanner: token too long"⟩ ⟨"", 0⟩ = Except.ok none
    ∧ ¬ ∃ d, analyseModuleDependency mapRecords
        ⟨[edgeLine "A" "B"], some "bufio.Scanner: token too long"⟩ ⟨"", 0⟩
          = Except.ok (some d) := by
  refine ⟨by decide, by decide, rfl, ?_⟩
  rintro ⟨d, hd⟩
  have h : analyseModuleDependency mapRecords
      ⟨[edgeLine "A" "B"], some "bufio.Scanner: token too long"⟩ ⟨"", 0⟩
        = Except.ok none := rfl
  rw [h] at hd
  cases hd

/-- C9, amended: when some line the scanner delivers is rejected by
`parseModuleDepItem` the run writes nothing, whatever the other lines, the
order and the limit; when the scanner ends with an error the run writes
nothing; when every delivered line parses, the scanner reaches the end of
the input without error and the limit does not exceed the number of
records, the run writes one document. -/
theorem analyse_all_or_nothing (range : ModMap → List moduleDepStat) (stdin : ScannerRun)
    (args : analyseArgs) :
    ((∃ line ∈ stdin.lines, (parseModuleDepItem line).2.2.isSome = true) →
        analyseModuleDependency range stdin args = Except.ok none)
    ∧ (stdin.err.isSome = true → analyseModuleDependency range stdin args = Except.ok none)
    ∧ ((∀ line ∈ stdin.lines, (parseModuleDepItem line).2.2 = none) →
        stdin.err = none →
        args.limit ≤ ((processEdges [] (parsedEdges stdin.lines)).length : Int) →
        ∃ d, analyseModuleDependency range stdin args = Except.ok (some d)) := by
  refine ⟨?_, ?_, ?_⟩
  · intro h
    unfold analyseModuleDependency
    rw [scanLines_reject [] stdin.lines h]
  · intro h
    unfold analyseModuleDependency
    cases hs : scanLines [] stdin.lines with
    | none => rfl
    | some m =>
      cases he : stdin.err with
      | none => rw [he] at h; simp at h
      | some e => rfl
  · intro h herr hlim
    unfold analyseModuleDependency
    rw [scanLines_accept [] stdin.lines h, herr]
    exact outputModuleDepStat_writes range _ args hlim

theorem analyse_all_or_nothing_witness :
    analyseModuleDependency mapRecords
        ⟨[edgeLine "A" "B", "A -> B", edgeLine "C" "B"], none⟩ ⟨"fan-in", 1⟩ = Except.ok none
    ∧ analyseModuleDependency mapRecords
        ⟨[edgeLine "A" "B", edgeLine "C" "B"], some "read error"⟩ ⟨"fan-in", 1⟩
          = Except.ok none
    ∧ (∃ d, analyseModuleDependency mapRecords
          ⟨[edgeLine "A" "B", edgeLine "C" "B"], none⟩ ⟨"fan-in", 1⟩ = Except.ok (some d))
    ∧ (∃ out, analyseModuleDependency mapRecords
          ⟨[edgeLine "A" "B", edgeLine "C" "B"], none⟩ ⟨"fan-in", 1⟩
            = Except.ok (some (Document.array out))
        ∧ out.map (fun s => s.Module) = ["B"]) :=
  ⟨(analyse_all_or_nothing mapRecords ⟨[edgeLine "A" "B", "A -> B", edgeLine "C" "B"], none⟩
      ⟨"fan-in", 1⟩).1 ⟨"A -> B", by simp, by decide⟩,
    (analyse_all_or_nothing mapRecords ⟨[edgeLine "A" "B", edgeLine "C" "B"], some "read error"⟩
      ⟨"fan-in", 1⟩).2.1 rfl,
    (analyse_all_or_nothing mapRecords ⟨[edgeLine "A" "B", edgeLine "C" "B"], none⟩
      ⟨"fan-in", 1⟩).2.2 (by decide) rfl (by decide),
    _, rfl, by decide⟩



/-! ## Dependence of the report on the enumeration order -/

/-- Two descending arrangements of the same records coincide when no two
records tie on the key. -/
theorem sorted_perm_unique {β : Type} [LinearOrder β] (key : moduleDepStat → β)
    (l1 l2 : List moduleDepStat) (hp : l1.Perm l2)
    (hs1 : l1.Pairwise (fun x y => key y ≤ key x))
    (hs2 : l2.Pairwise (fun x y => key y ≤ key x))
    (hnd : (l1.map key).Nodup) : l1 = l2 := by
  have hnd2 : (l2.map key).Nodup := (hp.map key).nodup_iff.mp hnd
  have strict : ∀ l : List moduleDepStat, l.Pairwise (fun x y => key y ≤ key x) →
      (l.map key).Nodup → l.Pairwise (fun x y => key y < key x) := by
    intro l hs hn
    have hne : l.Pairwise (fun x y => key x ≠ key y) := List.pairwise_map.mp hn
    exact (hs.and hne).imp (fun h => lt_of_le_of_ne h.1 (Ne.symm h.2))
  haveI : IsAntisymm moduleDepStat (fun x y => key y < key x) :=
    ⟨fun _ _ h1 h2 => absurd h1 (lt_asymm h2)⟩
  exact List.eq_of_perm_of_sorted hp (strict l1 hs1 hnd) (strict l2 hs2 hnd2)

theorem rankedOf_unique_key {β : Type} [LinearOrder β] (key : moduleDepStat → β)
    (range1 range2 : ModMap → List moduleDepStat) (m : ModMap) (orderBy : String)
    (sortBy : depStatsortBy) (hsel : selectSortBy orderBy = some sortBy)
    (hkey : ∀ x y, sortBy x y = true ↔ key y ≤ key x)
    (h1 : (range1 m).Perm (mapRecords m)) (h2 : (range2 m).Perm (mapRecords m))
    (hnd : ((mapRecords m).map key).Nodup) :
    rankedOf range1 m orderBy = rankedOf range2 m orderBy := by
  have htot : ∀ x y, sortBy x y = true ∨ sortBy y x = true := by
    intro x y
    rw [hkey, hkey]
    exact le_total _ _
  have htr : ∀ x y z, sortBy x y = true → sortBy y z = true → sortBy x z = true := by
    intro x y z
    rw [hkey, hkey, hkey]
    exact fun a b => le_trans b a
  simp only [rankedOf, hsel, depStatsortBy_Sort]
  have p1 := (GoSort.sortSort_spec sortBy htot htr (range1 m)).1
  have p2 := (GoSort.sortSort_spec sortBy htot htr (range2 m)).1
  have s1 := (sortSort_pairwise sortBy htot htr (range1 m)).imp (fun h => (hkey _ _).mp h)
  have s2 := (sortSort_pairwise sortBy htot htr (range2 m)).imp (fun h => (hkey _ _).mp h)
  refine sorted_perm_unique key _ _ ((p1.trans h1).trans (p2.trans h2).symm) s1 s2 ?_
  exact (((p1.trans h1).map key).nodup_iff).mpr hnd

theorem rankedOf_unique (range1 range2 : ModMap → List moduleDepStat) (m : ModMap)
    (orderBy : String) (hord : ValidOrder orderBy)
    (h1 : (range1 m).Perm (mapRecords m)) (h2 : (range2 m).Perm (mapRecords m))
    (htie : TieFree orderBy (mapRecords m)) :
    rankedOf range1 m orderBy = rankedOf range2 m orderBy := by
  have h12 : orderByFanIn ≠ orderByFanOut := by decide
  have h13 : orderByFanIn ≠ orderByVolatile := by decide
  have h23 : orderByFanOut ≠ orderByVolatile := by decide
  rcases hord with h | h | h
  · exact rankedOf_unique_key (fun s => s.FanInCount) range1 range2 m orderBy _
      (by rw [selectSortBy, if_pos h]) (fun x y => by simp) h1 h2 (htie.1 h)
  · exact rankedOf_unique_key (fun s => s.FanOutCount) range1 range2 m orderBy _
      (by rw [selectSortBy, if_neg (by rw [h]; exact h12.symm), if_pos h])
      (fun x y => by simp) h1 h2 (htie.2.1 h)
  · exact rankedOf_unique_key (fun s => s.I) range1 range2 m orderBy _
      (by rw [selectSortBy, if_neg (by rw [h]; exact h13.symm),
        if_neg (by rw [h]; exact h23.symm), if_pos h])
      (fun x y => by simp) h1 h2 (htie.2.2 h)

theorem outputModuleDepStat_unique (range1 range2 : ModMap → List moduleDepStat) (m : ModMap)
    (args : analyseArgs)
    (h1 : (range1 m).Perm (mapRecords m)) (h2 : (range2 m).Perm (mapRecords m))
    (htie : TieFree args.orderBy (mapRecords m)) :
    outputModuleDepStat range1 m args = outputModuleDepStat range2 m args := by
  unfold outputModuleDepStat
  split
  · rename_i hord
    rw [outputOrdered_eq range1 m args hord, outputOrdered_eq range2 m args hord,
      rankedOf_unique range1 range2 m args.orderBy hord h1 h2 htie]
  · rfl

/-- C11 as stated fails: on the input `"A" -> "B";`, `"C" -> "B";` ranked by
fan-in, where `A` and `C` tie, the enumeration `A, B, C` of the mapping
yields `B, C, A` and the reverse enumeration, a permutation of it, yields
`B, A, C`. -/
theorem report_depends_on_enumeration :
    (mapRecords (processEdges [] [("A", "B"), ("C", "B")])).map (fun s => s.Module)
        = ["A", "B", "C"]
    ∧ ((mapRecords (processEdges [] [("A", "B"), ("C", "B")])).reverse).Perm
        (mapRecords (processEdges [] [("A", "B"), ("C", "B")]))
    ∧ writtenModules (analyseModuleDependency mapRecords
        ⟨[edgeLine "A" "B", edgeLine "C" "B"], none⟩ ⟨"fan-in", 0⟩) = ["B", "C", "A"]
    ∧ writtenModules (analyseModuleDependency (fun m => (mapRecords m).reverse)
        ⟨[edgeLine "A" "B", edgeLine "C" "B"], none⟩ ⟨"fan-in", 0⟩) = ["B", "A", "C"]
    ∧ analyseModuleDependency mapRecords
          ⟨[edgeLine "A" "B", edgeLine "C" "B"], none⟩ ⟨"fan-in", 0⟩
        ≠ analyseModuleDependency (fun m => (mapRecords m).reverse)
            ⟨[edgeLine "A" "B", edgeLine "C" "B"], none⟩ ⟨"fan-in", 0⟩ := by
  have ha : writtenModules (analyseModuleDependency mapRecords
      ⟨[edgeLine "A" "B", edgeLine "C" "B"], none⟩ ⟨"fan-in", 0⟩) = ["B", "C", "A"] := by decide
  have hb : writtenModules (analyseModuleDependency (fun m => (mapRecords m).reverse)
      ⟨[edgeLine "A" "B", edgeLine "C" "B"], none⟩ ⟨"fan-in", 0⟩) = ["B", "A", "C"] := by decide
  refine ⟨by decide, List.reverse_perm _, ha, hb, ?_⟩
  intro h
  rw [h, hb] at ha
  exact absurd ha (by decide)

/-- C11, amended: the report is a function of the lines the scanner
delivers and how it ends, the order, the limit and the order in which the
mapping is enumerated; for two enumerations of the records it is the same
whenever no two records of the accumulated mapping tie on the selected
field (and always when no ranking is requested, a line is rejected or the
scanner ends with an error). -/
theorem report_determined (range1 range2 : ModMap → List moduleDepStat)
    (stdin : ScannerRun) (args : analyseArgs)
    (h1 : ∀ m, (range1 m).Perm (mapRecords m)) (h2 : ∀ m, (range2 m).Perm (mapRecords m))
    (htie : ∀ m, scanLines [] stdin.lines = some m → TieFree args.orderBy (mapRecords m)) :
    analyseModuleDependency range1 stdin args = analyseModuleDependency range2 stdin args := by
  unfold analyseModuleDependency
  cases hs : scanLines [] stdin.lines with
  | none => rfl
  | some m =>
    cases stdin.err with
    | some e => rfl
    | none => exact outputModuleDepStat_unique range1 range2 m args (h1 m) (h2 m) (htie m hs)

theorem report_determined_witness :
    writtenModules (analyseModuleDependency mapRecords
        ⟨[edgeLine "A" "B", edgeLine "C" "B", edgeLine "C" "A"], none⟩ ⟨"fan-in", 0⟩)
      = ["B", "A", "C"]
    ∧ analyseModuleDependency mapRecords
        ⟨[edgeLine "A" "B", edgeLine "C" "B", edgeLine "C" "A"], none⟩ ⟨"fan-in", 0⟩
      = analyseModuleDependency (fun m => (mapRecords m).reverse)
        ⟨[edgeLine "A" "B", edgeLine "C" "B", edgeLine "C" "A"], none⟩ ⟨"fan-in", 0⟩ := by
  refine ⟨by decide, report_determined _ _ _ _ (fun m => List.Perm.refl _)
    (fun m => List.reverse_perm _) ?_⟩
  intro m hm
  have hscan : scanLines [] [edgeLine "A" "B", edgeLine "C" "B", edgeLine "C" "A"]
      = some (processEdges [] [("A", "B"), ("C", "B"), ("C", "A")]) :=
    scanLines_accept [] _ (by decide)
  rw [hscan] at hm
  cases hm
  refine ⟨fun _ => by decide, fun h => absurd h (by decide), fun h => absurd h (by decide)⟩

/-! ## Dispatch on the order option -/

/-- C12 (the code at the failing input): with the order option `fan-in`,
two records and limit 3, `outputModuleDepStat` takes the ranked path and the
run panics in `depsStat[:3]`; no ranked sequence is written. -/
theorem outputModuleDepStat_ranked_path_panics :
    ValidOrder "fan-in"
    ∧ outputModuleDepStat mapRecords (processEdges [] [("A", "B")]) ⟨"fan-in", 3⟩
        = Except.error "slice bounds out of range" :=
  ⟨Or.inl rfl, rfl⟩

theorem outputModuleDepStat_of_valid (range : ModMap → List moduleDepStat) (m : ModMap)
    (args : analyseArgs) (h : ValidOrder args.orderBy) :
    outputModuleDepStat range m args = outputOrdered range m args := by
  unfold ValidOrder at h
  unfold outputModuleDepStat
  rw [if_pos h]

theorem outputModuleDepStat_of_invalid (range : ModMap → List moduleDepStat) (m : ModMap)
    (args : analyseArgs) (h : ¬ ValidOrder args.orderBy) :
    outputModuleDepStat range m args = outputJSON m := by
  unfold ValidOrder at h
  unfold outputModuleDepStat
  rw [if_neg h]

/-- The dispatch of `outputModuleDepStat`: a ranked sequence is written only
for one of the three order keys, and then it is the ranked records cut to
the limit, provided the limit does not exceed the number of entries; for
every other order value the mapping itself is written, whatever the
limit. -/
theorem outputModuleDepStat_dispatch (range : ModMap → List moduleDepStat) (m : ModMap)
    (args : analyseArgs) :
    (∀ out, outputModuleDepStat range m args = Except.ok (some (Document.array out)) →
        ValidOrder args.orderBy)
    ∧ (ValidOrder args.orderBy → args.limit ≤ (m.length : Int) →
        outputModuleDepStat range m args
          = Except.ok (some (Document.array
              (if args.limit > 0 then (rankedOf range m args.orderBy).take args.limit.toNat
               else rankedOf range m args.orderBy))))
    ∧ (¬ ValidOrder args.orderBy →
        ∀ limit : Int, outputModuleDepStat range m ⟨args.orderBy, limit⟩
          = Except.ok (some (Document.object m))) := by
  refine ⟨?_, ?_, ?_⟩
  · intro out h
    by_contra hn
    rw [outputModuleDepStat_of_invalid range m args hn] at h
    simp [outputJSON] at h
  · intro hord hlim
    rw [outputModuleDepStat_of_valid range m args hord, outputOrdered_eq range m args hord]
    by_cases hl : args.limit > 0
    · rw [if_pos hl, if_pos (by omega), if_pos hl]
    · rw [if_neg hl, if_neg hl]
  · intro hn limit
    rw [outputModuleDepStat_of_invalid range m ⟨args.orderBy, limit⟩ hn]
    rfl

end Analyse
